import Mathlib

set_option linter.unusedVariables false

/-!
# DSFinalProject: ordered index, store and canvas engine

A shallow embedding of `src/backend/btree.{h,cpp}`, `src/backend/database.{h,cpp}` and
`src/backend/canvas.{h,cpp}`.

Conventions of the embedding:

* `std::vector<T>` is `List T`; `uint32_t` keys are `Nat`, `int` values are `Int`;
* every operation whose C++ counterpart indexes a vector returns an `Option`:
  `none` stands for an out-of-range access (undefined behaviour in the source);
* arithmetic on fixed-width integers is written with an explicit `% 2 ^ w`.
-/

namespace DSFinal

/-! ## `btree.h` -/

/-- The `struct BTreeNode` of `btree.h`: leaf flag, keys, parallel values, children.
Children are owned nodes (the source never stores a null child pointer). -/
inductive BTreeNode where
  | mk (isLeaf : Bool) (keys : List Nat) (values : List Int) (children : List BTreeNode)

namespace BTreeNode

/-- Field `isLeaf`. -/
def isLeaf : BTreeNode → Bool
  | mk l _ _ _ => l

/-- Field `keys`. -/
def keys : BTreeNode → List Nat
  | mk _ ks _ _ => ks

/-- Field `values`. -/
def values : BTreeNode → List Int
  | mk _ _ vs _ => vs

/-- Field `children`. -/
def children : BTreeNode → List BTreeNode
  | mk _ _ _ cs => cs

mutual
/-- Number of levels below and including a node; the termination measure of the
recursive descents. -/
def height : BTreeNode → Nat
  | mk _ _ _ cs => heightList cs + 1
/-- Largest height in a list of nodes. -/
def heightList : List BTreeNode → Nat
  | [] => 0
  | c :: cs => max (height c) (heightList cs)
end

/-- The in-place update `*node->children[i] = c` seen functionally. -/
def setChild (node : BTreeNode) (i : Nat) (c : BTreeNode) : BTreeNode :=
  mk node.isLeaf node.keys node.values (node.children.set i c)

end BTreeNode

open BTreeNode

/-- The `class BTree` of `btree.h`: the root node and `order_`. -/
structure BTree where
  root : BTreeNode
  order : Nat

/-! ### Height facts used by the termination proofs -/

@[simp] theorem BTreeNode.isLeaf_mk (l : Bool) (ks : List Nat) (vs : List Int)
    (cs : List BTreeNode) : (BTreeNode.mk l ks vs cs).isLeaf = l := rfl

@[simp] theorem BTreeNode.keys_mk (l : Bool) (ks : List Nat) (vs : List Int)
    (cs : List BTreeNode) : (BTreeNode.mk l ks vs cs).keys = ks := rfl

@[simp] theorem BTreeNode.values_mk (l : Bool) (ks : List Nat) (vs : List Int)
    (cs : List BTreeNode) : (BTreeNode.mk l ks vs cs).values = vs := rfl

@[simp] theorem BTreeNode.children_mk (l : Bool) (ks : List Nat) (vs : List Int)
    (cs : List BTreeNode) : (BTreeNode.mk l ks vs cs).children = cs := rfl

theorem BTreeNode.eta (n : BTreeNode) : BTreeNode.mk n.isLeaf n.keys n.values n.children = n := by
  cases n; rfl

theorem heightList_le_of_mem {c : BTreeNode} :
    ∀ {cs : List BTreeNode}, c ∈ cs → c.height ≤ heightList cs
  | [], h => by cases h
  | d :: ds, h => by
    rw [heightList]
    rcases List.mem_cons.1 h with h | h
    · subst h; exact Nat.le_max_left _ _
    · exact Nat.le_trans (heightList_le_of_mem h) (Nat.le_max_right _ _)

theorem heightList_le_of_forall {n : Nat} :
    ∀ {cs : List BTreeNode}, (∀ c ∈ cs, c.height ≤ n) → heightList cs ≤ n
  | [], _ => by simp [heightList]
  | d :: ds, h => by
    rw [heightList]
    exact Nat.max_le.2 ⟨h d (List.mem_cons_self _ _),
      heightList_le_of_forall (fun c hc => h c (List.mem_cons_of_mem _ hc))⟩

theorem heightList_mono {cs ds : List BTreeNode} (h : ∀ c ∈ cs, c ∈ ds) :
    heightList cs ≤ heightList ds :=
  heightList_le_of_forall (fun c hc => heightList_le_of_mem (h c hc))

theorem BTreeNode.height_eq (n : BTreeNode) : n.height = heightList n.children + 1 := by
  cases n; simp [height]

theorem height_lt_of_getElem? {n c : BTreeNode} {i : Nat} (h : n.children[i]? = some c) :
    c.height < n.height := by
  rw [BTreeNode.height_eq n]
  exact Nat.lt_succ_of_le (heightList_le_of_mem (List.getElem?_mem h))

namespace BTree

/-! ## `btree.cpp` -/

/-- `BTree::BTree(int order)`: an empty leaf as root. -/
def new (order : Nat) : BTree := ⟨BTreeNode.mk true [] [] [], order⟩

/-- The original child after `splitChild` (`keys.resize(mid)`, `values.resize(mid)` and,
for an internal child, `children.resize(mid + 1)`), with `mid = order_ / 2`. -/
def splitLeft (order : Nat) (c : BTreeNode) : BTreeNode :=
  BTreeNode.mk c.isLeaf (c.keys.take (order / 2)) (c.values.take (order / 2))
    (if c.isLeaf then c.children else c.children.take (order / 2 + 1))

/-- The new sibling made by `splitChild`: same leaf flag, keys and values from `mid + 1`
on and, for an internal child, the children from `mid + 1` on. -/
def splitRight (order : Nat) (c : BTreeNode) : BTreeNode :=
  BTreeNode.mk c.isLeaf (c.keys.drop (order / 2 + 1)) (c.values.drop (order / 2 + 1))
    (if c.isLeaf then [] else c.children.drop (order / 2 + 1))

/-- `BTree::splitChild(parent, index)`.

`mid = order_ / 2`; the new sibling takes `keys[mid+1 ..]`, `values[mid+1 ..]` and, for
an internal child, `children[mid+1 ..]`; `keys[mid]`/`values[mid]` move into the parent
at `index`, the sibling is inserted at `index + 1`, and the original child is truncated
to `mid` keys (`mid + 1` children). `none` when an iterator or index leaves its vector. -/
def splitChild (order : Nat) (parent : BTreeNode) (index : Nat) : Option BTreeNode :=
  match parent.children[index]? with
  | none => none
  | some fullChild =>
    let mid := order / 2
    match fullChild.keys[mid]?, fullChild.values[mid]? with
    | some km, some vm =>
      if mid + 1 ≤ fullChild.keys.length ∧ mid + 1 ≤ fullChild.values.length
          ∧ (fullChild.isLeaf = false → mid + 1 ≤ fullChild.children.length)
          ∧ index ≤ parent.keys.length ∧ index ≤ parent.values.length then
        some (BTreeNode.mk parent.isLeaf
          (parent.keys.take index ++ km :: parent.keys.drop index)
          (parent.values.take index ++ vm :: parent.values.drop index)
          (parent.children.take index
            ++ splitLeft order fullChild :: splitRight order fullChild
              :: parent.children.drop (index + 1)))
      else none
    | _, _ => none

/-- The loop `while (i >= 0 && key < node->keys[i]) i--;` of `insertNonFull`, started
at `i = n - 1` where `n` is the argument; the result is `i + 1` at loop exit. -/
def scanDown (key : Nat) (keys : List Nat) : Nat → Option Nat
  | 0 => some 0
  | i + 1 =>
    match keys[i]? with
    | none => none
    | some ki => if key < ki then scanDown key keys i else some (i + 1)

/-- The shifting loop of the leaf branch of `insertNonFull`:
`while (i >= 0 && key < keys[i]) { keys[i+1] = keys[i]; values[i+1] = values[i]; i--; }`
started at `i = n - 1`; returns `i + 1` at loop exit with the shifted vectors. -/
def shiftDown (key : Nat) : Nat → List Nat → List Int → Option (Nat × List Nat × List Int)
  | 0, ks, vs => some (0, ks, vs)
  | i + 1, ks, vs =>
    match ks[i]? with
    | none => none
    | some ki =>
      if key < ki then
        match vs[i]? with
        | none => none
        | some vi =>
          if i + 1 < ks.length ∧ i + 1 < vs.length then
            shiftDown key i (ks.set (i + 1) ki) (vs.set (i + 1) vi)
          else none
      else some (i + 1, ks, vs)

/-- Leaf branch of `insertNonFull`: `push_back(0)` on keys and values, shift the larger
keys one slot to the right, store `key`/`value` in the freed slot. -/
def insertLeaf (node : BTreeNode) (key : Nat) (value : Int) : Option BTreeNode :=
  match shiftDown key node.keys.length (node.keys ++ [0]) (node.values ++ [0]) with
  | none => none
  | some (j, ks, vs) =>
    if j < ks.length ∧ j < vs.length then
      some (BTreeNode.mk node.isLeaf (ks.set j key) (vs.set j value) node.children)
    else none

theorem splitChild_eq_some {order : Nat} {parent p : BTreeNode} {index : Nat}
    (h : splitChild order parent index = some p) :
    ∃ fc km vm, parent.children[index]? = some fc ∧ fc.keys[order / 2]? = some km
      ∧ fc.values[order / 2]? = some vm
      ∧ (fc.isLeaf = false → order / 2 + 1 ≤ fc.children.length)
      ∧ index ≤ parent.keys.length ∧ index ≤ parent.values.length
      ∧ p = BTreeNode.mk parent.isLeaf
          (parent.keys.take index ++ km :: parent.keys.drop index)
          (parent.values.take index ++ vm :: parent.values.drop index)
          (parent.children.take index ++ splitLeft order fc :: splitRight order fc
            :: parent.children.drop (index + 1)) := by
  unfold splitChild at h
  cases hfc : parent.children[index]? with
  | none => simp [hfc] at h
  | some fc =>
    cases hk : fc.keys[order / 2]? with
    | none => simp [hfc, hk] at h
    | some km =>
      cases hv : fc.values[order / 2]? with
      | none => simp [hfc, hk, hv] at h
      | some vm =>
        simp only [hfc, hk, hv] at h
        split at h
        · rename_i hc
          refine ⟨fc, km, vm, rfl, hk, hv, hc.2.2.1, hc.2.2.2.1, hc.2.2.2.2, ?_⟩
          simpa using h.symm
        · cases h

theorem splitChild_of {order : Nat} {parent fc : BTreeNode} {index : Nat} {km : Nat} {vm : Int}
    (hfc : parent.children[index]? = some fc) (hk : fc.keys[order / 2]? = some km)
    (hv : fc.values[order / 2]? = some vm)
    (hc : fc.isLeaf = false → order / 2 + 1 ≤ fc.children.length)
    (hik : index ≤ parent.keys.length) (hiv : index ≤ parent.values.length) :
    splitChild order parent index = some (BTreeNode.mk parent.isLeaf
          (parent.keys.take index ++ km :: parent.keys.drop index)
          (parent.values.take index ++ vm :: parent.values.drop index)
          (parent.children.take index ++ splitLeft order fc :: splitRight order fc
            :: parent.children.drop (index + 1))) := by
  have h1 : order / 2 + 1 ≤ fc.keys.length := by
    have := (List.getElem?_eq_some_iff.1 hk).1
    omega
  have h2 : order / 2 + 1 ≤ fc.values.length := by
    have := (List.getElem?_eq_some_iff.1 hv).1
    omega
  unfold splitChild
  simp only [hfc, hk, hv]
  rw [if_pos ⟨h1, h2, hc, hik, hiv⟩]

theorem splitLeft_height (order : Nat) (c : BTreeNode) : (splitLeft order c).height ≤ c.height := by
  rw [BTreeNode.height_eq, BTreeNode.height_eq c]
  apply Nat.succ_le_succ
  apply heightList_mono
  intro d hd
  simp only [splitLeft, BTreeNode.children_mk] at hd
  split at hd
  · exact hd
  · exact List.mem_of_mem_take hd

theorem splitRight_height (order : Nat) (c : BTreeNode) : (splitRight order c).height ≤ c.height := by
  rw [BTreeNode.height_eq, BTreeNode.height_eq c]
  apply Nat.succ_le_succ
  apply heightList_mono
  intro d hd
  simp only [splitRight, BTreeNode.children_mk] at hd
  split at hd
  · cases hd
  · exact List.mem_of_mem_drop hd

theorem splitChild_height {order : Nat} {parent p : BTreeNode} {index : Nat}
    (h : splitChild order parent index = some p) : p.height ≤ parent.height := by
  obtain ⟨fc, km, vm, hfc, -, -, -, -, -, rfl⟩ := splitChild_eq_some h
  rw [BTreeNode.height_eq, BTreeNode.height_eq parent]
  apply Nat.succ_le_succ
  apply heightList_le_of_forall
  intro d hd
  have hfcm : fc ∈ parent.children := List.getElem?_mem hfc
  simp only [BTreeNode.children_mk, List.mem_append, List.mem_cons] at hd
  rcases hd with hd | hd | hd | hd
  · exact heightList_le_of_mem (List.mem_of_mem_take hd)
  · subst hd
    exact Nat.le_trans (splitLeft_height order fc) (heightList_le_of_mem hfcm)
  · subst hd
    exact Nat.le_trans (splitRight_height order fc) (heightList_le_of_mem hfcm)
  · exact heightList_le_of_mem (List.mem_of_mem_drop hd)

/-- `BTree::insertNonFull(node, key, value)`.

Leaf: sorted insertion into the node. Internal: find the child to descend into, split
it first when it holds `order_ - 1` keys (then step right when `key` is larger than the
promoted key), and recurse into that child. -/
def insertNonFull (order : Nat) (node : BTreeNode) (key : Nat) (value : Int) :
    Option BTreeNode :=
  if node.isLeaf then
    insertLeaf node key value
  else
    match scanDown key node.keys node.keys.length with
    | none => none
    | some i =>
      match hc : node.children[i]? with
      | none => none
      | some child =>
        if child.keys.length = order - 1 then
          match hs : splitChild order node i with
          | none => none
          | some node1 =>
            match node1.keys[i]? with
            | none => none
            | some ki =>
              match hj : node1.children[if key > ki then i + 1 else i]? with
              | none => none
              | some target =>
                match insertNonFull order target key value with
                | none => none
                | some r => some (setChild node1 (if key > ki then i + 1 else i) r)
        else
          match insertNonFull order child key value with
          | none => none
          | some r => some (setChild node i r)
termination_by node.height
decreasing_by
  · exact Nat.lt_of_lt_of_le (height_lt_of_getElem? hj) (splitChild_height hs)
  · exact height_lt_of_getElem? hc

/-- `BTree::insert(key, value)`: a full root is first made the only child of a fresh
internal root and split. -/
def insert (t : BTree) (key : Nat) (value : Int) : Option BTree :=
  if t.root.keys.length = t.order - 1 then
    match splitChild t.order (BTreeNode.mk false [] [] [t.root]) 0 with
    | none => none
    | some newRoot =>
      match insertNonFull t.order newRoot key value with
      | none => none
      | some r => some ⟨r, t.order⟩
  else
    match insertNonFull t.order t.root key value with
    | none => none
    | some r => some ⟨r, t.order⟩

/-- The loop `while (i < keys.size() && key > keys[i]) i++;` of `searchNode`. -/
def searchIdx (key : Nat) : List Nat → Nat
  | [] => 0
  | k :: ks => if key > k then searchIdx key ks + 1 else 0

/-- `BTree::searchNode(node, key)`; `-1` is the "not found" sentinel. -/
def searchNode (node : BTreeNode) (key : Nat) : Option Int :=
  if node.keys[searchIdx key node.keys]? = some key then
    node.values[searchIdx key node.keys]?
  else if node.isLeaf then
    some (-1)
  else
    match hc : node.children[searchIdx key node.keys]? with
    | none => none
    | some child => searchNode child key
termination_by node.height
decreasing_by exact height_lt_of_getElem? hc

/-- `BTree::search(key)`. -/
def search (t : BTree) (key : Nat) : Option Int := searchNode t.root key

/-- A run of `insert` calls, in list order. -/
def insertAll (t : BTree) : List (Nat × Int) → Option BTree
  | [] => some t
  | kv :: rest =>
    match t.insert kv.1 kv.2 with
    | none => none
    | some t1 => insertAll t1 rest

/-! ### Unfolding equations of the recursive descents -/

theorem insertNonFull_eq (order : Nat) (node : BTreeNode) (key : Nat) (value : Int) :
    insertNonFull order node key value =
    if node.isLeaf then insertLeaf node key value
    else
      match scanDown key node.keys node.keys.length with
      | none => none
      | some i =>
        match node.children[i]? with
        | none => none
        | some child =>
          if child.keys.length = order - 1 then
            match splitChild order node i with
            | none => none
            | some node1 =>
              match node1.keys[i]? with
              | none => none
              | some ki =>
                match node1.children[if key > ki then i + 1 else i]? with
                | none => none
                | some target =>
                  match insertNonFull order target key value with
                  | none => none
                  | some r => some (setChild node1 (if key > ki then i + 1 else i) r)
          else
            match insertNonFull order child key value with
            | none => none
            | some r => some (setChild node i r) := by
  rw [insertNonFull]
  cases hl : node.isLeaf with
  | true => simp
  | false =>
    simp only [Bool.false_eq_true, if_false]
    cases hsd : scanDown key node.keys node.keys.length with
    | none => rfl
    | some i =>
      simp only []
      split
      · rename_i hc; simp only [hc]
      · rename_i child hc
        simp only [hc]
        by_cases hfull : child.keys.length = order - 1
        · simp only [hfull, if_true]
          split
          · rename_i hs; simp only [hs]
          · rename_i node1 hs
            simp only [hs]
            cases hk : node1.keys[i]? with
            | none => rfl
            | some ki =>
              simp only []
              split
              · rename_i hj; simp only [hj]
              · rename_i target hj
                simp only [hj]
        · simp only [hfull, if_false]

theorem searchNode_eq (node : BTreeNode) (key : Nat) :
    searchNode node key =
    if node.keys[searchIdx key node.keys]? = some key then
      node.values[searchIdx key node.keys]?
    else if node.isLeaf then some (-1)
    else
      match node.children[searchIdx key node.keys]? with
      | none => none
      | some child => searchNode child key := by
  rw [searchNode]
  split
  · rfl
  · split
    · rfl
    · split
      · rename_i hc; simp only [hc]
      · rename_i child hc; simp only [hc]

/-! ### Specification-level notions: in-order traversal, shape, leaf depths -/

mutual
/-- In-order traversal of the subtree of a node, as `(key, value)` pairs: child 0, key 0,
child 1, key 1, ..., last child (for a leaf: the keys paired with the values). -/
def inorder : BTreeNode → List (Nat × Int)
  | BTreeNode.mk _ ks vs cs => interleave (ks.zip vs) cs
/-- Traversal of the children `cs` interleaved with the entries `kvs` of their node. -/
def interleave : List (Nat × Int) → List BTreeNode → List (Nat × Int)
  | kvs, [] => kvs
  | [], c :: cs => inorder c ++ interleave [] cs
  | kv :: kvs, c :: cs => inorder c ++ kv :: interleave kvs cs
end

/-- The keys met by the in-order traversal of a node. -/
def inorderKeys (n : BTreeNode) : List Nat := (inorder n).map Prod.fst

mutual
/-- Depth (distance from the given node) of every leaf below a node, left to right. -/
def leafDepths : BTreeNode → List Nat
  | BTreeNode.mk leaf _ _ cs => if leaf then [0] else (leafDepthsList cs).map (· + 1)
/-- Leaf depths of a list of siblings. -/
def leafDepthsList : List BTreeNode → List Nat
  | [] => []
  | c :: cs => leafDepths c ++ leafDepthsList cs
end

/-- Shape of a node as described by `struct BTreeNode`: values parallel to keys, a leaf
has no children, an internal node has one more child than keys; recursively. -/
inductive WF : BTreeNode → Prop
  | mk (n : BTreeNode) (hv : n.values.length = n.keys.length)
      (hl : n.isLeaf = true → n.children = [])
      (hi : n.isLeaf = false → n.children.length = n.keys.length + 1)
      (hc : ∀ c ∈ n.children, WF c) : WF n

/-- All leaves below the node are at depth `h`. -/
inductive Balanced : Nat → BTreeNode → Prop
  | leaf (n : BTreeNode) (hl : n.isLeaf = true) : Balanced 0 n
  | node (h : Nat) (n : BTreeNode) (hl : n.isLeaf = false)
      (hc : ∀ c ∈ n.children, Balanced h c) : Balanced (h + 1) n

/-- Entries of the first children, each followed by its separating entry. -/
def prefixList : List (Nat × Int) → List BTreeNode → List (Nat × Int)
  | kv :: kvs, c :: cs => inorder c ++ kv :: prefixList kvs cs
  | _, _ => []

/-- Entries after a child: each separating entry followed by the next child. -/
def suffixList : List (Nat × Int) → List BTreeNode → List (Nat × Int)
  | kv :: kvs, c :: cs => kv :: (inorder c ++ suffixList kvs cs)
  | _, _ => []

/-- Keys are in non-decreasing order. -/
def SortedKV (l : List (Nat × Int)) : Prop := List.Pairwise (fun a b => a.1 ≤ b.1) l

theorem inorder_mk (l : Bool) (ks : List Nat) (vs : List Int) (cs : List BTreeNode) :
    inorder (BTreeNode.mk l ks vs cs) = interleave (ks.zip vs) cs := by
  rw [inorder]

theorem inorder_eq (n : BTreeNode) : inorder n = interleave (n.keys.zip n.values) n.children := by
  cases n; rw [inorder]; rfl

theorem interleave_nil_right (kvs : List (Nat × Int)) : interleave kvs [] = kvs := by
  cases kvs <;> rw [interleave]

theorem interleave_cons_cons (kv : Nat × Int) (kvs : List (Nat × Int)) (c : BTreeNode)
    (cs : List BTreeNode) :
    interleave (kv :: kvs) (c :: cs) = inorder c ++ kv :: interleave kvs cs := by
  rw [interleave]

theorem interleave_nil_cons (c : BTreeNode) (cs : List BTreeNode) :
    interleave [] (c :: cs) = inorder c ++ interleave [] cs := by
  rw [interleave]

theorem interleave_append :
    ∀ (kvs1 : List (Nat × Int)) (cs1 : List BTreeNode), cs1.length = kvs1.length →
      ∀ (kvs2 : List (Nat × Int)) (cs2 : List BTreeNode),
        interleave (kvs1 ++ kvs2) (cs1 ++ cs2) = prefixList kvs1 cs1 ++ interleave kvs2 cs2
  | [], [], _, kvs2, cs2 => by simp [prefixList]
  | [], _ :: _, h, _, _ => by simp at h
  | _ :: _, [], h, _, _ => by simp at h
  | kv :: kvs1, c :: cs1, h, kvs2, cs2 => by
    have h1 : cs1.length = kvs1.length := by simpa using h
    simp only [List.cons_append, interleave_cons_cons, prefixList, List.append_assoc]
    rw [interleave_append kvs1 cs1 h1 kvs2 cs2]

theorem interleave_cons_eq :
    ∀ (kvs : List (Nat × Int)) (c : BTreeNode) (cs : List BTreeNode), cs.length = kvs.length →
      interleave kvs (c :: cs) = inorder c ++ suffixList kvs cs
  | [], c, [], _ => by simp [interleave_nil_cons, interleave_nil_right, suffixList]
  | [], _, _ :: _, h => by simp at h
  | _ :: _, _, [], h => by simp at h
  | kv :: kvs, c, d :: ds, h => by
    have h1 : ds.length = kvs.length := by simpa using h
    rw [interleave_cons_cons, interleave_cons_eq kvs d ds h1, suffixList]

/-! ### List facts -/

theorem set_mid {α : Type} (l1 l2 : List α) (x z : α) :
    (l1 ++ x :: l2).set l1.length z = l1 ++ z :: l2 := by
  induction l1 with
  | nil => rfl
  | cons a l ih => simp [ih]

theorem getElem?_mid {α : Type} (l1 l2 : List α) (x : α) :
    (l1 ++ x :: l2)[l1.length]? = some x := by
  induction l1 with
  | nil => simp
  | cons a l ih => simpa using ih

theorem set_take_mid {α : Type} (l : List α) (n : Nat) (hn : n ≤ l.length) (x z : α) :
    (l.take n ++ x :: l.drop n).set n z = l.take n ++ z :: l.drop n := by
  have h := set_mid (l.take n) (l.drop n) x z
  rwa [List.length_take, Nat.min_eq_left hn] at h

theorem take_succ_shift {α : Type} (l : List α) (n : Nat) (h : n < l.length) :
    l.take (n + 1) ++ l[n] :: l.drop (n + 1) = l.take n ++ l[n] :: l.drop n := by
  rw [← List.take_concat_get l n h, List.concat_eq_append, List.append_assoc,
    List.singleton_append, ← List.drop_eq_getElem_cons h]

theorem take_succ_set {α : Type} (l : List α) (n : Nat) (h : n < l.length) (x : α) :
    (l.take (n + 1) ++ x :: l.drop (n + 1)).set (n + 1) l[n] = l.take n ++ l[n] :: l.drop n := by
  rw [set_take_mid l (n + 1) h, take_succ_shift l n h]

theorem getElem?_take_succ_mid {α : Type} (l : List α) (n : Nat) (h : n < l.length) (x : α) :
    (l.take (n + 1) ++ x :: l.drop (n + 1))[n]? = some l[n] := by
  rw [List.getElem?_append_left (by rw [List.length_take]; omega), List.getElem?_take_of_succ,
    List.getElem?_eq_getElem h]

/-! ### The two backward loops -/

theorem scanDown_spec (key : Nat) (ks : List Nat) :
    ∀ n, n ≤ ks.length → ∃ j, scanDown key ks n = some j ∧ j ≤ n
      ∧ (∀ i k, j ≤ i → i < n → ks[i]? = some k → key < k)
      ∧ (∀ k, 0 < j → ks[j - 1]? = some k → k ≤ key)
  | 0, _ => ⟨0, rfl, Nat.le_refl _, fun i k _ h => absurd h (Nat.not_lt_zero _),
      fun k h => absurd h (Nat.lt_irrefl _)⟩
  | n + 1, hn => by
    have hlt : n < ks.length := hn
    rw [scanDown, List.getElem?_eq_getElem hlt]
    by_cases hk : key < ks[n]
    · obtain ⟨j, hj, hjn, h1, h2⟩ := scanDown_spec key ks n (Nat.le_of_lt hlt)
      refine ⟨j, by simp [hk, hj], Nat.le_succ_of_le hjn, ?_, h2⟩
      intro i k hji hin hik
      rcases Nat.lt_succ_iff_lt_or_eq.1 hin with h | h
      · exact h1 i k hji h hik
      · subst h
        rw [List.getElem?_eq_getElem hlt] at hik
        cases hik; exact hk
    · refine ⟨n + 1, by simp [hk], Nat.le_refl _, ?_, ?_⟩
      · intro i k h1 h2; omega
      · intro k _ hk2
        simp only [Nat.add_sub_cancel, List.getElem?_eq_getElem hlt] at hk2
        cases hk2; omega

theorem shiftDown_spec (key : Nat) (ks : List Nat) (vs : List Int) (hlen : vs.length = ks.length) :
    ∀ n, n ≤ ks.length → ∀ (x : Nat) (y : Int), ∃ j x1 y1, scanDown key ks n = some j
      ∧ shiftDown key n (ks.take n ++ x :: ks.drop n) (vs.take n ++ y :: vs.drop n)
        = some (j, ks.take j ++ x1 :: ks.drop j, vs.take j ++ y1 :: vs.drop j)
  | 0, _, x, y => ⟨0, x, y, rfl, rfl⟩
  | n + 1, hn, x, y => by
    have hlt : n < ks.length := hn
    have hltv : n < vs.length := by omega
    have e1 := getElem?_take_succ_mid ks n hlt x
    have e2 := getElem?_take_succ_mid vs n hltv y
    rw [scanDown, shiftDown, e1, List.getElem?_eq_getElem hlt]
    by_cases hk : key < ks[n]
    · obtain ⟨j, x1, y1, hj, hs⟩ := shiftDown_spec key ks vs hlen n (Nat.le_of_lt hlt) ks[n] vs[n]
      refine ⟨j, x1, y1, by simp [hk, hj], ?_⟩
      have l1 : n + 1 < (ks.take (n + 1) ++ x :: ks.drop (n + 1)).length := by
        simp only [List.length_append, List.length_take, List.length_cons, List.length_drop]
        omega
      have l2 : n + 1 < (vs.take (n + 1) ++ y :: vs.drop (n + 1)).length := by
        simp only [List.length_append, List.length_take, List.length_cons, List.length_drop]
        omega
      simp only [hk, if_true, e2, l1, l2, and_self, take_succ_set ks n hlt, take_succ_set vs n hltv]
      exact hs
    · exact ⟨n + 1, x, y, by simp [hk], by simp [hk]⟩

theorem insertLeaf_spec (node : BTreeNode) (key : Nat) (value : Int)
    (hlen : node.values.length = node.keys.length) :
    ∃ j, scanDown key node.keys node.keys.length = some j ∧ j ≤ node.keys.length
      ∧ insertLeaf node key value = some (BTreeNode.mk node.isLeaf
          (node.keys.take j ++ key :: node.keys.drop j)
          (node.values.take j ++ value :: node.values.drop j) node.children) := by
  obtain ⟨j, x1, y1, hj, hs⟩ :=
    shiftDown_spec key node.keys node.values hlen node.keys.length (Nat.le_refl _) 0 0
  obtain ⟨j2, hj2, hjn, -, -⟩ := scanDown_spec key node.keys node.keys.length (Nat.le_refl _)
  rw [hj] at hj2; cases hj2
  refine ⟨j, hj, hjn, ?_⟩
  have e1 : node.keys.take node.keys.length ++ 0 :: node.keys.drop node.keys.length
      = node.keys ++ [0] := by simp
  have e2 : node.values.take node.keys.length ++ 0 :: node.values.drop node.keys.length
      = node.values ++ [0] := by rw [← hlen]; simp
  rw [e1, e2] at hs
  have l1 : j < (node.keys.take j ++ x1 :: node.keys.drop j).length := by
    simp only [List.length_append, List.length_take, List.length_cons, List.length_drop]
    omega
  have l2 : j < (node.values.take j ++ y1 :: node.values.drop j).length := by
    simp only [List.length_append, List.length_take, List.length_cons, List.length_drop]
    omega
  unfold insertLeaf
  simp only [hs, l1, l2, and_self, if_true, set_take_mid node.keys j hjn,
    set_take_mid node.values j (hlen ▸ hjn)]

/-! ### In-order traversal around a child -/

theorem take_zip' {α β : Type} (l : List α) (r : List β) (n : Nat) :
    (l.zip r).take n = (l.take n).zip (r.take n) := by
  rw [List.zip_eq_zipWith, List.take_zipWith, ← List.zip_eq_zipWith]

theorem drop_zip' {α β : Type} (l : List α) (r : List β) (n : Nat) :
    (l.zip r).drop n = (l.drop n).zip (r.drop n) := by
  rw [List.zip_eq_zipWith, List.drop_zipWith, ← List.zip_eq_zipWith]

/-- Entries visited before child `i` of a node. -/
def pre (n : BTreeNode) (i : Nat) : List (Nat × Int) :=
  prefixList ((n.keys.zip n.values).take i) (n.children.take i)

/-- Entries visited after child `i` of a node. -/
def post (n : BTreeNode) (i : Nat) : List (Nat × Int) :=
  suffixList ((n.keys.zip n.values).drop i) (n.children.drop (i + 1))

theorem interleave_at (kvs : List (Nat × Int)) (cs : List BTreeNode) (i : Nat)
    (hlen : cs.length = kvs.length + 1) (hi : i ≤ kvs.length) (c : BTreeNode) :
    interleave kvs (cs.take i ++ c :: cs.drop (i + 1))
      = prefixList (kvs.take i) (cs.take i)
        ++ (inorder c ++ suffixList (kvs.drop i) (cs.drop (i + 1))) := by
  have h1 : (cs.take i).length = (kvs.take i).length := by
    rw [List.length_take, List.length_take]; omega
  have h2 : (cs.drop (i + 1)).length = (kvs.drop i).length := by
    rw [List.length_drop, List.length_drop]; omega
  have h := interleave_append (kvs.take i) (cs.take i) h1 (kvs.drop i) (c :: cs.drop (i + 1))
  rw [List.take_append_drop] at h
  rw [h, interleave_cons_eq _ _ _ h2]

theorem children_eq_of_getElem? {cs : List BTreeNode} {i : Nat} {c : BTreeNode}
    (h : cs[i]? = some c) : cs = cs.take i ++ c :: cs.drop (i + 1) := by
  obtain ⟨hlt, rfl⟩ := List.getElem?_eq_some_iff.1 h
  rw [← List.drop_eq_getElem_cons hlt, List.take_append_drop]

theorem inorder_at {n c : BTreeNode} {i : Nat} (hv : n.values.length = n.keys.length)
    (hcl : n.children.length = n.keys.length + 1) (hc : n.children[i]? = some c) :
    inorder n = pre n i ++ (inorder c ++ post n i) := by
  have hi : i < n.children.length := (List.getElem?_eq_some_iff.1 hc).1
  have hz : (n.keys.zip n.values).length = n.keys.length := by
    rw [List.length_zip, hv, Nat.min_self]
  have h := interleave_at (n.keys.zip n.values) n.children i (by rw [hz, hcl])
    (by rw [hz]; omega) c
  rw [← children_eq_of_getElem? hc] at h
  rw [inorder_eq, h]; rfl

theorem inorder_setChild {n : BTreeNode} {i : Nat} (hv : n.values.length = n.keys.length)
    (hcl : n.children.length = n.keys.length + 1) (hi : i ≤ n.keys.length) (r : BTreeNode) :
    inorder (setChild n i r) = pre n i ++ (inorder r ++ post n i) := by
  have hz : (n.keys.zip n.values).length = n.keys.length := by
    rw [List.length_zip, hv, Nat.min_self]
  have h := interleave_at (n.keys.zip n.values) n.children i (by rw [hz, hcl])
    (by rw [hz]; omega) r
  have hs : n.children.set i r = n.children.take i ++ r :: n.children.drop (i + 1) := by
    rw [List.set_eq_take_append_cons_drop, if_pos (by omega)]
  rw [setChild, inorder_mk, hs, h]; rfl

theorem prefixList_snoc :
    ∀ (kvs : List (Nat × Int)) (cs : List BTreeNode), cs.length = kvs.length →
      ∀ (kv : Nat × Int) (c : BTreeNode),
        prefixList (kvs ++ [kv]) (cs ++ [c]) = prefixList kvs cs ++ (inorder c ++ [kv])
  | [], [], _, kv, c => by simp [prefixList]
  | [], _ :: _, h, _, _ => by simp at h
  | _ :: _, [], h, _, _ => by simp at h
  | a :: kvs, d :: cs, h, kv, c => by
    have h1 : cs.length = kvs.length := by simpa using h
    rw [List.cons_append, List.cons_append, prefixList, prefixList,
      prefixList_snoc kvs cs h1 kv c]
    simp

theorem SortedKV.append_left {l1 l2 : List (Nat × Int)} (h : SortedKV (l1 ++ l2)) : SortedKV l1 :=
  (List.pairwise_append.1 h).1

theorem SortedKV.append_right {l1 l2 : List (Nat × Int)} (h : SortedKV (l1 ++ l2)) : SortedKV l2 :=
  (List.pairwise_append.1 h).2.1

theorem pre_bound {n : BTreeNode} {i : Nat} (hv : n.values.length = n.keys.length)
    (hcl : n.children.length = n.keys.length + 1) (hi : i ≤ n.keys.length)
    (hs : SortedKV (pre n i)) :
    ∀ a ∈ pre n i, ∃ k, 0 < i ∧ n.keys[i - 1]? = some k ∧ a.1 ≤ k := by
  intro a ha
  cases i with
  | zero => simp [pre, prefixList] at ha
  | succ j =>
    have hj : j < n.keys.length := hi
    have hjv : j < n.values.length := by omega
    have hjc : j < n.children.length := by omega
    have e1 : (n.keys.zip n.values).take (j + 1)
        = (n.keys.zip n.values).take j ++ [(n.keys[j], n.values[j])] := by
      rw [List.take_succ]
      have : (n.keys.zip n.values)[j]? = some (n.keys[j], n.values[j]) := by
        rw [List.getElem?_zip_eq_some]
        exact ⟨List.getElem?_eq_getElem hj, List.getElem?_eq_getElem hjv⟩
      rw [this]; rfl
    have e2 : n.children.take (j + 1) = n.children.take j ++ [n.children[j]] := by
      rw [List.take_succ, List.getElem?_eq_getElem hjc]; rfl
    have hl : (n.children.take j).length = ((n.keys.zip n.values).take j).length := by
      rw [List.length_take, List.length_take, List.length_zip]; omega
    have e3 : pre n (j + 1) = prefixList ((n.keys.zip n.values).take j) (n.children.take j)
        ++ (inorder n.children[j] ++ [(n.keys[j], n.values[j])]) := by
      rw [pre, e1, e2, prefixList_snoc _ _ hl]
    refine ⟨n.keys[j], Nat.succ_pos _, by simp [List.getElem?_eq_getElem hj], ?_⟩
    rw [e3] at ha hs
    rw [← List.append_assoc] at ha hs
    rcases List.mem_append.1 ha with h | h
    · exact (List.pairwise_append.1 hs).2.2 a h _ (List.mem_singleton_self _)
    · rw [List.mem_singleton.1 h]

theorem post_bound {n : BTreeNode} {i : Nat} (hv : n.values.length = n.keys.length)
    (hs : SortedKV (post n i)) :
    ∀ b ∈ post n i, ∃ k, n.keys[i]? = some k ∧ k ≤ b.1 := by
  intro b hb
  unfold post at hb hs
  cases hd : (n.keys.zip n.values).drop i with
  | nil => rw [hd] at hb; simp [suffixList] at hb
  | cons kv rest =>
    have hkv : (n.keys.zip n.values)[i]? = some kv := by
      have := List.getElem?_drop (n.keys.zip n.values) i 0
      rw [hd] at this
      simpa using this.symm
    have hk : n.keys[i]? = some kv.1 := (List.getElem?_zip_eq_some.1 hkv).1
    refine ⟨kv.1, hk, ?_⟩
    rw [hd] at hb hs
    cases hcs : n.children.drop (i + 1) with
    | nil => rw [hcs] at hb; simp [suffixList] at hb
    | cons c cs =>
      rw [hcs] at hb hs
      simp only [suffixList] at hb hs
      rcases List.mem_cons.1 hb with h | h
      · rw [h]
      · exact (List.pairwise_cons.1 hs).1 b h

/-! ### `splitChild` keeps shape, traversal and leaf depths -/

theorem WF.values_length {n : BTreeNode} (h : WF n) : n.values.length = n.keys.length := by
  cases h; assumption

theorem WF.leaf_children {n : BTreeNode} (h : WF n) (hl : n.isLeaf = true) : n.children = [] := by
  cases h with
  | mk _ _ h1 _ _ => exact h1 hl

theorem WF.children_length {n : BTreeNode} (h : WF n) (hl : n.isLeaf = false) :
    n.children.length = n.keys.length + 1 := by
  cases h with
  | mk _ _ _ h2 _ => exact h2 hl

theorem WF.child {n c : BTreeNode} (h : WF n) (hc : c ∈ n.children) : WF c := by
  cases h with
  | mk _ _ _ _ h3 => exact h3 c hc

theorem WF.zip_length {n : BTreeNode} (h : WF n) :
    (n.keys.zip n.values).length = n.keys.length := by
  rw [List.length_zip, h.values_length, Nat.min_self]

theorem suffixList_cons_eq (kv : Nat × Int) (kvs : List (Nat × Int)) (cs : List BTreeNode)
    (h : cs.length = kvs.length + 1) : suffixList (kv :: kvs) cs = kv :: interleave kvs cs := by
  cases cs with
  | nil => simp at h
  | cons c cs =>
    rw [suffixList, interleave_cons_eq kvs c cs (by simpa using h)]

theorem zip_mid {n : BTreeNode} (hwf : WF n) {m : Nat} {km : Nat} {vm : Int}
    (hk : n.keys[m]? = some km) (hv : n.values[m]? = some vm) :
    n.keys.zip n.values = (n.keys.zip n.values).take m
      ++ (km, vm) :: (n.keys.zip n.values).drop (m + 1) := by
  have h : (n.keys.zip n.values)[m]? = some (km, vm) := List.getElem?_zip_eq_some.2 ⟨hk, hv⟩
  obtain ⟨hlt, he⟩ := List.getElem?_eq_some_iff.1 h
  rw [← he, ← List.drop_eq_getElem_cons hlt, List.take_append_drop]

theorem inorder_split (order : Nat) {fc : BTreeNode} (hwf : WF fc) {km : Nat} {vm : Int}
    (hk : fc.keys[order / 2]? = some km) (hv : fc.values[order / 2]? = some vm) :
    inorder fc = inorder (splitLeft order fc) ++ (km, vm) :: inorder (splitRight order fc) := by
  have hz := zip_mid hwf hk hv
  have hm : order / 2 < fc.keys.length := (List.getElem?_eq_some_iff.1 hk).1
  cases hl : fc.isLeaf with
  | true =>
    have hc := hwf.leaf_children hl
    rw [inorder_eq fc, splitLeft, splitRight, inorder_mk, inorder_mk, hl, hc]
    simp only [if_true, interleave_nil_right]
    rw [← take_zip', ← drop_zip']
    exact hz
  | false =>
    have hcl := hwf.children_length hl
    have hmc : order / 2 < fc.children.length := by omega
    have hcm : fc.children[order / 2]? = some fc.children[order / 2] :=
      List.getElem?_eq_getElem hmc
    rw [inorder_at hwf.values_length hcl hcm, pre, post]
    have hd : (fc.keys.zip fc.values).drop (order / 2)
        = (km, vm) :: (fc.keys.zip fc.values).drop (order / 2 + 1) := by
      have h : (fc.keys.zip fc.values)[order / 2]? = some (km, vm) :=
        List.getElem?_zip_eq_some.2 ⟨hk, hv⟩
      obtain ⟨hlt, he⟩ := List.getElem?_eq_some_iff.1 h
      rw [← he]; exact List.drop_eq_getElem_cons hlt
    have hr : inorder (splitRight order fc)
        = interleave ((fc.keys.zip fc.values).drop (order / 2 + 1))
            (fc.children.drop (order / 2 + 1)) := by
      rw [splitRight, inorder_mk, hl, drop_zip']; rfl
    have hlft : inorder (splitLeft order fc)
        = prefixList ((fc.keys.zip fc.values).take (order / 2)) (fc.children.take (order / 2))
          ++ inorder fc.children[order / 2] := by
      rw [splitLeft, inorder_mk, hl, ← take_zip']
      simp only [Bool.false_eq_true, if_false]
      have e2 : fc.children.take (order / 2 + 1)
          = fc.children.take (order / 2) ++ [fc.children[order / 2]] := by
        rw [List.take_succ, List.getElem?_eq_getElem hmc]; rfl
      have hlen : (fc.children.take (order / 2)).length
          = ((fc.keys.zip fc.values).take (order / 2)).length := by
        rw [List.length_take, List.length_take, hwf.zip_length]; omega
      have h := interleave_append _ _ hlen [] [fc.children[order / 2]]
      rw [List.append_nil] at h
      rw [e2, h, interleave_nil_cons, interleave_nil_right, List.append_nil]
    rw [hd, suffixList_cons_eq _ _ _ (by
      rw [List.length_drop, List.length_drop, hwf.zip_length]; omega), ← hr, hlft]
    simp

theorem splitChild_inorder {order : Nat} {parent p : BTreeNode} {index : Nat}
    (hwf : WF parent) (h : splitChild order parent index = some p) :
    inorder p = inorder parent := by
  obtain ⟨fc, km, vm, hfc, hk, hv, -, hik, -, rfl⟩ := splitChild_eq_some h
  have hfcm : fc ∈ parent.children := List.getElem?_mem hfc
  have hl : parent.isLeaf = false := by
    cases hp : parent.isLeaf with
    | false => rfl
    | true => rw [hwf.leaf_children hp] at hfcm; cases hfcm
  have hcl := hwf.children_length hl
  have hfw : WF fc := hwf.child hfcm
  rw [inorder_at hwf.values_length hcl hfc, inorder_split order hfw hk hv, inorder_mk]
  have hz : (parent.keys.take index ++ km :: parent.keys.drop index).zip
      (parent.values.take index ++ vm :: parent.values.drop index)
      = (parent.keys.zip parent.values).take index
        ++ (km, vm) :: (parent.keys.zip parent.values).drop index := by
    rw [List.zip_append (by
      rw [List.length_take, List.length_take, hwf.values_length]), take_zip', drop_zip']
    rfl
  have hlen : (parent.children.take index).length
      = ((parent.keys.zip parent.values).take index).length := by
    rw [List.length_take, List.length_take, hwf.zip_length]; omega
  have hlen2 : (parent.children.drop (index + 1)).length
      = ((parent.keys.zip parent.values).drop index).length := by
    rw [List.length_drop, List.length_drop, hwf.zip_length]; omega
  rw [hz, interleave_append _ _ hlen, interleave_cons_cons, interleave_cons_eq _ _ _ hlen2]
  simp [pre, post]

theorem splitLeft_WF (order : Nat) {fc : BTreeNode} (hwf : WF fc)
    (hm : order / 2 + 1 ≤ fc.keys.length) : WF (splitLeft order fc) := by
  refine WF.mk _ ?_ ?_ ?_ ?_
  · simp only [splitLeft, BTreeNode.values_mk, BTreeNode.keys_mk, List.length_take,
      hwf.values_length]
  · intro hl
    simp only [splitLeft, BTreeNode.isLeaf_mk] at hl
    simp only [splitLeft, BTreeNode.children_mk, hl, if_true]
    exact hwf.leaf_children hl
  · intro hl
    simp only [splitLeft, BTreeNode.isLeaf_mk] at hl
    have := hwf.children_length hl
    simp only [splitLeft, BTreeNode.children_mk, BTreeNode.keys_mk, hl, Bool.false_eq_true,
      if_false, List.length_take]
    omega
  · intro c hc
    simp only [splitLeft, BTreeNode.children_mk] at hc
    split at hc
    · exact hwf.child hc
    · exact hwf.child (List.mem_of_mem_take hc)

theorem splitRight_WF (order : Nat) {fc : BTreeNode} (hwf : WF fc)
    (hm : order / 2 + 1 ≤ fc.keys.length) : WF (splitRight order fc) := by
  refine WF.mk _ ?_ ?_ ?_ ?_
  · simp only [splitRight, BTreeNode.values_mk, BTreeNode.keys_mk, List.length_drop,
      hwf.values_length]
  · intro hl
    simp only [splitRight, BTreeNode.isLeaf_mk] at hl
    simp only [splitRight, BTreeNode.children_mk, hl, if_true]
  · intro hl
    simp only [splitRight, BTreeNode.isLeaf_mk] at hl
    have := hwf.children_length hl
    simp only [splitRight, BTreeNode.children_mk, BTreeNode.keys_mk, hl, Bool.false_eq_true,
      if_false, List.length_drop]
    omega
  · intro c hc
    simp only [splitRight, BTreeNode.children_mk] at hc
    split at hc
    · cases hc
    · exact hwf.child (List.mem_of_mem_drop hc)

theorem parent_not_leaf {parent fc : BTreeNode} {index : Nat} (hwf : WF parent)
    (hfc : parent.children[index]? = some fc) : parent.isLeaf = false := by
  cases hp : parent.isLeaf with
  | false => rfl
  | true =>
    have := List.getElem?_mem hfc
    rw [hwf.leaf_children hp] at this; cases this

theorem splitChild_WF {order : Nat} {parent p : BTreeNode} {index : Nat}
    (hwf : WF parent) (h : splitChild order parent index = some p) : WF p := by
  obtain ⟨fc, km, vm, hfc, hk, hv, -, hik, hiv, rfl⟩ := splitChild_eq_some h
  have hfcm : fc ∈ parent.children := List.getElem?_mem hfc
  have hl := parent_not_leaf hwf hfc
  have hcl := hwf.children_length hl
  have hm : order / 2 + 1 ≤ fc.keys.length := (List.getElem?_eq_some_iff.1 hk).1
  have hi : index < parent.children.length := (List.getElem?_eq_some_iff.1 hfc).1
  refine WF.mk _ ?_ ?_ ?_ ?_
  · simp only [BTreeNode.values_mk, BTreeNode.keys_mk, List.length_append, List.length_take,
      List.length_cons, List.length_drop, hwf.values_length]
  · intro hl2
    simp only [BTreeNode.isLeaf_mk] at hl2
    rw [hl] at hl2; cases hl2
  · intro _
    simp only [BTreeNode.children_mk, BTreeNode.keys_mk, List.length_append, List.length_take,
      List.length_cons, List.length_drop]
    omega
  · intro c hc
    simp only [BTreeNode.children_mk, List.mem_append, List.mem_cons] at hc
    rcases hc with hc | hc | hc | hc
    · exact hwf.child (List.mem_of_mem_take hc)
    · rw [hc]; exact splitLeft_WF order (hwf.child hfcm) hm
    · rw [hc]; exact splitRight_WF order (hwf.child hfcm) hm
    · exact hwf.child (List.mem_of_mem_drop hc)

theorem Balanced.of_leaf {h : Nat} {n : BTreeNode} (hb : Balanced h n) (hl : n.isLeaf = true) :
    h = 0 := by
  cases hb with
  | leaf _ _ => rfl
  | node _ _ hl2 _ => rw [hl] at hl2; cases hl2

theorem splitLeft_Balanced (order : Nat) {h : Nat} {fc : BTreeNode} (hb : Balanced h fc) :
    Balanced h (splitLeft order fc) := by
  cases hb with
  | leaf _ hl => exact Balanced.leaf _ (by simpa [splitLeft] using hl)
  | node h0 _ hl hc =>
    refine Balanced.node h0 _ (by simpa [splitLeft] using hl) ?_
    intro c hcm
    simp only [splitLeft, BTreeNode.children_mk, hl, Bool.false_eq_true, if_false] at hcm
    exact hc c (List.mem_of_mem_take hcm)

theorem splitRight_Balanced (order : Nat) {h : Nat} {fc : BTreeNode} (hb : Balanced h fc) :
    Balanced h (splitRight order fc) := by
  cases hb with
  | leaf _ hl => exact Balanced.leaf _ (by simpa [splitRight] using hl)
  | node h0 _ hl hc =>
    refine Balanced.node h0 _ (by simpa [splitRight] using hl) ?_
    intro c hcm
    simp only [splitRight, BTreeNode.children_mk, hl, Bool.false_eq_true, if_false] at hcm
    exact hc c (List.mem_of_mem_drop hcm)

theorem splitChild_Balanced {order : Nat} {parent p : BTreeNode} {index : Nat} {h : Nat}
    (hl : parent.isLeaf = false) (hb : Balanced h parent)
    (hs : splitChild order parent index = some p) : Balanced h p := by
  obtain ⟨fc, km, vm, hfc, -, -, -, -, -, rfl⟩ := splitChild_eq_some hs
  have hfcm : fc ∈ parent.children := List.getElem?_mem hfc
  cases hb with
  | leaf _ hl2 => rw [hl] at hl2; cases hl2
  | node h0 _ _ hc =>
    refine Balanced.node h0 _ hl ?_
    intro c hcm
    simp only [BTreeNode.children_mk, List.mem_append, List.mem_cons] at hcm
    rcases hcm with hcm | hcm | hcm | hcm
    · exact hc c (List.mem_of_mem_take hcm)
    · rw [hcm]; exact splitLeft_Balanced order (hc fc hfcm)
    · rw [hcm]; exact splitRight_Balanced order (hc fc hfcm)
    · exact hc c (List.mem_of_mem_drop hcm)

/-! ### Replacing a child -/

theorem setChild_WF {n r : BTreeNode} {i : Nat} (hwf : WF n) (hr : WF r) :
    WF (setChild n i r) := by
  refine WF.mk _ hwf.values_length ?_ ?_ ?_
  · intro hl
    simp only [setChild, BTreeNode.isLeaf_mk] at hl
    simp [setChild, hwf.leaf_children hl]
  · intro hl
    simp only [setChild, BTreeNode.isLeaf_mk] at hl
    simpa [setChild] using hwf.children_length hl
  · intro c hc
    simp only [setChild, BTreeNode.children_mk] at hc
    rcases List.mem_or_eq_of_mem_set hc with h | h
    · exact hwf.child h
    · rw [h]; exact hr

theorem setChild_Balanced {n c r : BTreeNode} {i h : Nat} (hb : Balanced h n)
    (hl : n.isLeaf = false) (hc : n.children[i]? = some c)
    (hr : ∀ d, Balanced d c → Balanced d r) : Balanced h (setChild n i r) := by
  cases hb with
  | leaf _ hl2 => rw [hl] at hl2; cases hl2
  | node h0 _ _ hcs =>
    refine Balanced.node h0 _ hl ?_
    intro d hd
    simp only [setChild, BTreeNode.children_mk] at hd
    rcases List.mem_or_eq_of_mem_set hd with h | h
    · exact hcs d h
    · rw [h]; exact hr h0 (hcs c (List.getElem?_mem hc))

/-! ### One run of `insertNonFull` as a derivation -/

/-- `InsNF order key value node r`: `insertNonFull(node, key, value)` follows the given
branches and leaves `r` in place of `node`. -/
inductive InsNF (order key : Nat) (value : Int) : BTreeNode → BTreeNode → Prop
  | leaf (node r : BTreeNode) (hl : node.isLeaf = true)
      (h : insertLeaf node key value = some r) : InsNF order key value node r
  | descend (node child r : BTreeNode) (i : Nat) (hl : node.isLeaf = false)
      (hi : scanDown key node.keys node.keys.length = some i)
      (hc : node.children[i]? = some child) (hnf : child.keys.length ≠ order - 1)
      (hr : InsNF order key value child r) : InsNF order key value node (setChild node i r)
  | split (node child node1 target r : BTreeNode) (i ki : Nat) (hl : node.isLeaf = false)
      (hi : scanDown key node.keys node.keys.length = some i)
      (hc : node.children[i]? = some child) (hf : child.keys.length = order - 1)
      (hs : splitChild order node i = some node1) (hk : node1.keys[i]? = some ki)
      (ht : node1.children[if key > ki then i + 1 else i]? = some target)
      (hr : InsNF order key value target r) :
      InsNF order key value node (setChild node1 (if key > ki then i + 1 else i) r)

theorem insNF_of_eq (order key : Nat) (value : Int) :
    ∀ (h : Nat) (node r : BTreeNode), node.height ≤ h →
      insertNonFull order node key value = some r → InsNF order key value node r
  | 0, node, _, hh, _ => by
    rw [BTreeNode.height_eq] at hh; omega
  | h + 1, node, r, hh, he => by
    rw [insertNonFull_eq] at he
    cases hl : node.isLeaf with
    | true =>
      rw [hl] at he
      exact InsNF.leaf node r hl (by simpa using he)
    | false =>
      rw [hl] at he
      simp only [Bool.false_eq_true, if_false] at he
      cases hi : scanDown key node.keys node.keys.length with
      | none => simp [hi] at he
      | some i =>
        simp only [hi] at he
        cases hc : node.children[i]? with
        | none => simp [hc] at he
        | some child =>
          simp only [hc] at he
          have hch : child.height ≤ h := by
            have := height_lt_of_getElem? hc
            omega
          by_cases hf : child.keys.length = order - 1
          · rw [if_pos hf] at he
            cases hs : splitChild order node i with
            | none => simp [hs] at he
            | some node1 =>
              simp only [hs] at he
              cases hk : node1.keys[i]? with
              | none => simp [hk] at he
              | some ki =>
                simp only [hk] at he
                cases ht : node1.children[if key > ki then i + 1 else i]? with
                | none => simp [ht] at he
                | some target =>
                  simp only [ht] at he
                  have hth : target.height ≤ h := by
                    have h1 := height_lt_of_getElem? ht
                    have h2 := splitChild_height hs
                    omega
                  cases hr : insertNonFull order target key value with
                  | none => simp [hr] at he
                  | some r1 =>
                    simp only [hr, Option.some.injEq] at he
                    subst he
                    exact InsNF.split node child node1 target r1 i ki hl hi hc hf hs hk ht
                      (insNF_of_eq order key value h target r1 hth hr)
          · rw [if_neg hf] at he
            cases hr : insertNonFull order child key value with
            | none => simp [hr] at he
            | some r1 =>
              simp only [hr, Option.some.injEq] at he
              subst he
              exact InsNF.descend node child r1 i hl hi hc hf
                (insNF_of_eq order key value h child r1 hch hr)

theorem insNF_of_insertNonFull {order key : Nat} {value : Int} {node r : BTreeNode}
    (h : insertNonFull order node key value = some r) : InsNF order key value node r :=
  insNF_of_eq order key value node.height node r (Nat.le_refl _) h

theorem InsNF.wf {order key : Nat} {value : Int} {node r : BTreeNode}
    (h : InsNF order key value node r) : WF node → WF r := by
  induction h with
  | leaf node r hl h =>
    intro hwf
    obtain ⟨j, -, hj, he⟩ := insertLeaf_spec node key value hwf.values_length
    rw [h] at he
    cases he
    refine WF.mk _ ?_ ?_ ?_ ?_
    · simp only [BTreeNode.values_mk, BTreeNode.keys_mk, List.length_append, List.length_take,
        List.length_cons, List.length_drop, hwf.values_length]
    · intro _; exact hwf.leaf_children hl
    · intro h2; simp only [BTreeNode.isLeaf_mk] at h2; rw [hl] at h2; cases h2
    · intro c hc; exact hwf.child hc
  | descend node child r i hl hi hc hnf hr ih =>
    intro hwf
    exact setChild_WF hwf (ih (hwf.child (List.getElem?_mem hc)))
  | split node child node1 target r i ki hl hi hc hf hs hk ht hr ih =>
    intro hwf
    have h1 := splitChild_WF hwf hs
    exact setChild_WF h1 (ih (h1.child (List.getElem?_mem ht)))

theorem InsNF.balanced {order key : Nat} {value : Int} {node r : BTreeNode}
    (h : InsNF order key value node r) : WF node → ∀ d, Balanced d node → Balanced d r := by
  induction h with
  | leaf node r hl h =>
    intro hwf d hd
    obtain ⟨j, -, hj, he⟩ := insertLeaf_spec node key value hwf.values_length
    rw [h] at he
    cases he
    rw [hd.of_leaf hl]
    exact Balanced.leaf _ hl
  | descend node child r i hl hi hc hnf hr ih =>
    intro hwf d hd
    exact setChild_Balanced hd hl hc (ih (hwf.child (List.getElem?_mem hc)))
  | split node child node1 target r i ki hl hi hc hf hs hk ht hr ih =>
    intro hwf d hd
    have h1 := splitChild_WF hwf hs
    have hl1 : node1.isLeaf = false := parent_not_leaf h1 ht
    exact setChild_Balanced (splitChild_Balanced hl hd hs) hl1 ht
      (ih (h1.child (List.getElem?_mem ht)))

/-! ### Effect of an insertion on the in-order traversal -/

/-- The list `l1` is `l` with `(key, value)` put at a place where every entry before it
has a key `≤ key` and every entry after it a key `≥ key`. -/
def InsRel (key : Nat) (value : Int) (l l1 : List (Nat × Int)) : Prop :=
  ∃ A B, l = A ++ B ∧ l1 = A ++ (key, value) :: B ∧ (∀ a ∈ A, a.1 ≤ key) ∧ (∀ b ∈ B, key ≤ b.1)

theorem InsRel.sorted {key : Nat} {value : Int} {l l1 : List (Nat × Int)}
    (h : InsRel key value l l1) (hs : SortedKV l) : SortedKV l1 := by
  obtain ⟨A, B, rfl, rfl, hA, hB⟩ := h
  obtain ⟨h1, h2, h3⟩ := List.pairwise_append.1 hs
  refine List.pairwise_append.2 ⟨h1, List.pairwise_cons.2 ⟨hB, h2⟩, ?_⟩
  intro a ha b hb
  rcases List.mem_cons.1 hb with h | h
  · rw [h]; exact hA a ha
  · exact h3 a ha b h

theorem InsRel.perm {key : Nat} {value : Int} {l l1 : List (Nat × Int)}
    (h : InsRel key value l l1) : List.Perm l1 ((key, value) :: l) := by
  obtain ⟨A, B, rfl, rfl, -, -⟩ := h
  exact List.perm_middle

theorem sorted_take_le {l : List (Nat × Int)} (hs : SortedKV l) {j : Nat} (hj : j < l.length) :
    ∀ a ∈ l.take (j + 1), a.1 ≤ l[j].1 := by
  intro a ha
  rw [List.take_succ, List.getElem?_eq_getElem hj] at ha
  have hs1 : SortedKV (l.take (j + 1)) := by
    have h := hs
    rw [← List.take_append_drop (j + 1) l] at h
    exact h.append_left
  rw [List.take_succ, List.getElem?_eq_getElem hj] at hs1
  rcases List.mem_append.1 ha with h | h
  · exact (List.pairwise_append.1 hs1).2.2 a h _ (by simp)
  · have : a = l[j] := by simpa using h
    rw [this]

theorem rel_lift {key : Nat} {value : Int} {m c r : BTreeNode} {j : Nat} (hwf : WF m)
    (hl : m.isLeaf = false) (hs : SortedKV (inorder m)) (hc : m.children[j]? = some c)
    (hlo : ∀ k, 0 < j → m.keys[j - 1]? = some k → k ≤ key)
    (hhi : ∀ k, m.keys[j]? = some k → key ≤ k)
    (hrel : InsRel key value (inorder c) (inorder r)) :
    InsRel key value (inorder m) (inorder (setChild m j r)) := by
  have hcl := hwf.children_length hl
  have hj : j ≤ m.keys.length := by
    have := (List.getElem?_eq_some_iff.1 hc).1
    omega
  have e1 := inorder_at hwf.values_length hcl hc
  have e2 := inorder_setChild hwf.values_length hcl hj r
  rw [e1] at hs
  obtain ⟨A, B, hA, hB, hAle, hBge⟩ := hrel
  refine ⟨pre m j ++ A, B ++ post m j, ?_, ?_, ?_, ?_⟩
  · rw [e1, hA]; simp
  · rw [e2, hB]; simp
  · intro a ha
    rcases List.mem_append.1 ha with h | h
    · obtain ⟨k, hpos, hk, hle⟩ := pre_bound hwf.values_length hcl hj hs.append_left a h
      exact Nat.le_trans hle (hlo k hpos hk)
    · exact hAle a h
  · intro b hb
    rcases List.mem_append.1 hb with h | h
    · exact hBge b h
    · obtain ⟨k, hk, hle⟩ := post_bound hwf.values_length hs.append_right.append_right b h
      exact Nat.le_trans (hhi k hk) hle

theorem InsNF.rel {order key : Nat} {value : Int} {node r : BTreeNode}
    (h : InsNF order key value node r) :
    WF node → SortedKV (inorder node) → InsRel key value (inorder node) (inorder r) := by
  induction h with
  | leaf node r hl h =>
    intro hwf hs
    obtain ⟨j, hsc, hj, he⟩ := insertLeaf_spec node key value hwf.values_length
    rw [h] at he
    cases he
    obtain ⟨j2, hj2, -, hgt, hle⟩ := scanDown_spec key node.keys node.keys.length (Nat.le_refl _)
    rw [hsc] at hj2; cases hj2
    have hc := hwf.leaf_children hl
    have e1 : inorder node = node.keys.zip node.values := by
      rw [inorder_eq, hc, interleave_nil_right]
    have e2 : inorder (BTreeNode.mk node.isLeaf (node.keys.take j ++ key :: node.keys.drop j)
        (node.values.take j ++ value :: node.values.drop j) node.children)
        = (node.keys.zip node.values).take j ++ (key, value) :: (node.keys.zip node.values).drop j := by
      rw [inorder_mk, hc, interleave_nil_right, List.zip_append (by
        rw [List.length_take, List.length_take, hwf.values_length]), take_zip', drop_zip']
      rfl
    rw [e1] at hs
    refine ⟨(node.keys.zip node.values).take j, (node.keys.zip node.values).drop j, ?_, e2, ?_, ?_⟩
    · rw [e1, List.take_append_drop]
    · intro a ha
      cases j with
      | zero => simp at ha
      | succ j0 =>
        have hj0 : j0 < (node.keys.zip node.values).length := by rw [hwf.zip_length]; omega
        have h1 := sorted_take_le hs hj0 a ha
        have h2 : (node.keys.zip node.values)[j0]? = some (node.keys.zip node.values)[j0] :=
          List.getElem?_eq_getElem hj0
        have h3 := (List.getElem?_zip_eq_some.1 h2).1
        have h4 := hle (node.keys.zip node.values)[j0].1 (Nat.succ_pos _)
          (by rw [Nat.add_sub_cancel]; exact h3)
        omega
    · intro b hb
      obtain ⟨q, hq⟩ := List.getElem?_of_mem hb
      rw [List.getElem?_drop] at hq
      have h3 := (List.getElem?_zip_eq_some.1 hq).1
      have hlt : j + q < node.keys.length := (List.getElem?_eq_some_iff.1 h3).1
      have := hgt (j + q) b.1 (Nat.le_add_right _ _) hlt h3
      omega
  | descend node child r i hl hi hc hnf hr ih =>
    intro hwf hs
    obtain ⟨j2, hj2, -, hgt, hle⟩ := scanDown_spec key node.keys node.keys.length (Nat.le_refl _)
    rw [hi] at hj2; cases hj2
    have hcl := hwf.children_length hl
    have hsc : SortedKV (inorder child) := by
      rw [inorder_at hwf.values_length hcl hc] at hs
      exact hs.append_right.append_left
    refine rel_lift hwf hl hs hc hle ?_ (ih (hwf.child (List.getElem?_mem hc)) hsc)
    intro k hk
    have hlt : i < node.keys.length := (List.getElem?_eq_some_iff.1 hk).1
    exact Nat.le_of_lt (hgt i k (Nat.le_refl _) hlt hk)
  | split node child node1 target r i ki hl hi hc hf hs hk ht hr ih =>
    intro hwf hso
    obtain ⟨j2, hj2, hin, hgt, hle⟩ :=
      scanDown_spec key node.keys node.keys.length (Nat.le_refl _)
    rw [hi] at hj2; cases hj2
    have h1 := splitChild_WF hwf hs
    have hl1 : node1.isLeaf = false := parent_not_leaf h1 ht
    have hin1 := splitChild_inorder hwf hs
    have hso1 : SortedKV (inorder node1) := by rw [hin1]; exact hso
    have hst : SortedKV (inorder target) := by
      have := hso1
      rw [inorder_at h1.values_length (h1.children_length hl1) ht] at this
      exact this.append_right.append_left
    have hrel := ih (h1.child (List.getElem?_mem ht)) hst
    rw [← hin1]
    obtain ⟨fc, km, vm, -, -, -, -, -, -, hn1⟩ := splitChild_eq_some hs
    have hkeys : node1.keys = node.keys.take i ++ km :: node.keys.drop i := by rw [hn1]; rfl
    have hlen : (node.keys.take i).length = i := by rw [List.length_take]; omega
    have hkm : ki = km := by
      have := getElem?_mid (node.keys.take i) (node.keys.drop i) km
      rw [hlen, ← hkeys, hk] at this
      exact Option.some.inj this
    refine rel_lift h1 hl1 hso1 ht ?_ ?_ hrel
    · intro k hpos hk2
      by_cases hgt2 : key > ki
      · rw [if_pos hgt2] at hk2
        simp only [Nat.add_sub_cancel] at hk2
        rw [hk] at hk2
        cases hk2
        omega
      · rw [if_neg hgt2] at hk2 hpos
        apply hle k hpos
        rw [hkeys, List.getElem?_append_left (by rw [hlen]; omega)] at hk2
        rw [List.getElem?_take_of_lt (by omega)] at hk2
        exact hk2
    · intro k hk2
      by_cases hgt2 : key > ki
      · rw [if_pos hgt2] at hk2
        rw [hkeys, List.getElem?_append_right (by rw [hlen]; omega), hlen] at hk2
        have e : i + 1 - i = 1 := by omega
        rw [e] at hk2
        simp only [List.getElem?_cons_succ, List.getElem?_drop, Nat.add_zero] at hk2
        have hlt : i < node.keys.length := (List.getElem?_eq_some_iff.1 hk2).1
        exact Nat.le_of_lt (hgt i k (Nat.le_refl _) hlt hk2)
      · rw [if_neg hgt2] at hk2
        rw [hk] at hk2
        cases hk2
        omega

/-! ### `insertNonFull` returns (no out-of-range access on well-shaped nodes) -/

theorem splitChild_some_of_full {order : Nat} (hord : 3 ≤ order) {node child : BTreeNode}
    {i : Nat} (hwf : WF node) (hc : node.children[i]? = some child)
    (hf : child.keys.length = order - 1) : ∃ node1, splitChild order node i = some node1 := by
  have hl := parent_not_leaf hwf hc
  have hcw : WF child := hwf.child (List.getElem?_mem hc)
  have hi : i < node.children.length := (List.getElem?_eq_some_iff.1 hc).1
  have hcl := hwf.children_length hl
  have hm : order / 2 < child.keys.length := by omega
  have hmv : order / 2 < child.values.length := by rw [hcw.values_length]; exact hm
  exact ⟨_, splitChild_of hc (List.getElem?_eq_getElem hm) (List.getElem?_eq_getElem hmv)
    (fun h => by have := hcw.children_length h; omega) (by omega)
    (by rw [hwf.values_length]; omega)⟩

theorem insertNonFull_some (order key : Nat) (value : Int) (hord : 3 ≤ order) :
    ∀ (h : Nat) (node : BTreeNode), node.height ≤ h → WF node →
      ∃ r, insertNonFull order node key value = some r
  | 0, node, hh, _ => by
    rw [BTreeNode.height_eq] at hh; omega
  | h + 1, node, hh, hwf => by
    rw [insertNonFull_eq]
    cases hl : node.isLeaf with
    | true =>
      obtain ⟨j, -, -, he⟩ := insertLeaf_spec node key value hwf.values_length
      exact ⟨_, by simpa using he⟩
    | false =>
      simp only [Bool.false_eq_true, if_false]
      obtain ⟨i, hi, hin, -, -⟩ := scanDown_spec key node.keys node.keys.length (Nat.le_refl _)
      have hcl := hwf.children_length hl
      have hic : i < node.children.length := by omega
      have hc : node.children[i]? = some node.children[i] := List.getElem?_eq_getElem hic
      have hch : node.children[i].height ≤ h := by
        have := height_lt_of_getElem? hc
        omega
      simp only [hi, hc]
      by_cases hf : node.children[i].keys.length = order - 1
      · rw [if_pos hf]
        obtain ⟨node1, hs⟩ := splitChild_some_of_full hord hwf hc hf
        have h1 := splitChild_WF hwf hs
        obtain ⟨fc, km, vm, -, -, -, -, -, -, hn1⟩ := splitChild_eq_some hs
        have hlen : (node.keys.take i).length = i := by rw [List.length_take]; omega
        have hk : node1.keys[i]? = some km := by
          have := getElem?_mid (node.keys.take i) (node.keys.drop i) km
          rw [hlen] at this
          rw [hn1]; exact this
        have hjl : (if key > km then i + 1 else i) < node1.children.length := by
          rw [hn1]
          simp only [BTreeNode.children_mk, List.length_append, List.length_take,
            List.length_cons, List.length_drop]
          split <;> omega
        have ht := List.getElem?_eq_getElem hjl
        have hth : (node1.children[if key > km then i + 1 else i]).height ≤ h := by
          have h2 := height_lt_of_getElem? ht
          have h3 := splitChild_height hs
          omega
        obtain ⟨r, hr⟩ := insertNonFull_some order key value hord h _ hth
          (h1.child (List.getElem?_mem ht))
        exact ⟨node1.setChild (if key > km then i + 1 else i) r, by simp only [hs, hk, ht, hr]⟩
      · rw [if_neg hf]
        obtain ⟨r, hr⟩ := insertNonFull_some order key value hord h _ hch
          (hwf.child (List.getElem?_mem hc))
        exact ⟨node.setChild i r, by simp only [hr]⟩

/-! ### `insert` on the whole tree -/

/-- Invariant of the trees built by `insert`: order at least 3 (so that `mid + 1` is within
a full node), well-shaped root, keys in non-decreasing in-order, all leaves at depth `d`. -/
structure Inv (t : BTree) (d : Nat) : Prop where
  order_ge : 3 ≤ t.order
  wf : WF t.root
  sorted : SortedKV (inorder t.root)
  balanced : Balanced d t.root

theorem new_Inv {order : Nat} (h : 3 ≤ order) : Inv (new order) 0 := by
  refine ⟨h, ?_, ?_, Balanced.leaf _ rfl⟩
  · exact WF.mk _ rfl (fun _ => rfl) (fun h => by cases h) (fun c hc => by cases hc)
  · simp [new, inorder_mk, interleave_nil_right, SortedKV]

theorem insert_spec {t : BTree} {d : Nat} (hinv : Inv t d) (key : Nat) (value : Int) :
    ∃ t1, t.insert key value = some t1 ∧ t1.order = t.order
      ∧ Inv t1 (if t.root.keys.length = t.order - 1 then d + 1 else d)
      ∧ InsRel key value (inorder t.root) (inorder t1.root) := by
  unfold insert
  by_cases hf : t.root.keys.length = t.order - 1
  · simp only [if_pos hf]
    have hw0 : WF (BTreeNode.mk false [] [] [t.root]) := by
      refine WF.mk _ rfl (fun h => by cases h) (fun _ => rfl) ?_
      intro c hc
      have : c = t.root := by simpa using hc
      rw [this]; exact hinv.wf
    have hc0 : (BTreeNode.mk false [] [] [t.root]).children[0]? = some t.root := rfl
    have hin0 : inorder (BTreeNode.mk false [] [] [t.root]) = inorder t.root := by
      rw [inorder_mk]; simp [interleave_nil_cons, interleave_nil_right]
    have hb0 : Balanced (d + 1) (BTreeNode.mk false [] [] [t.root]) := by
      refine Balanced.node d _ rfl ?_
      intro c hc
      have : c = t.root := by simpa using hc
      rw [this]; exact hinv.balanced
    obtain ⟨newRoot, hs⟩ := splitChild_some_of_full hinv.order_ge hw0 hc0 hf
    have hw1 := splitChild_WF hw0 hs
    have hin1 : inorder newRoot = inorder t.root := (splitChild_inorder hw0 hs).trans hin0
    have hb1 := splitChild_Balanced (BTreeNode.isLeaf_mk false [] [] [t.root]) hb0 hs
    obtain ⟨r, hr⟩ := insertNonFull_some t.order key value hinv.order_ge newRoot.height newRoot
      (Nat.le_refl _) hw1
    have hd := insNF_of_insertNonFull hr
    have hso1 : SortedKV (inorder newRoot) := by rw [hin1]; exact hinv.sorted
    have hrel := hd.rel hw1 hso1
    refine ⟨⟨r, t.order⟩, by simp only [hs, hr], rfl, ⟨hinv.order_ge, hd.wf hw1, hrel.sorted hso1,
      hd.balanced hw1 _ hb1⟩, ?_⟩
    rw [← hin1]; exact hrel
  · simp only [if_neg hf]
    obtain ⟨r, hr⟩ := insertNonFull_some t.order key value hinv.order_ge t.root.height t.root
      (Nat.le_refl _) hinv.wf
    have hd := insNF_of_insertNonFull hr
    have hrel := hd.rel hinv.wf hinv.sorted
    exact ⟨⟨r, t.order⟩, by simp only [hr], rfl, ⟨hinv.order_ge, hd.wf hinv.wf,
      hrel.sorted hinv.sorted, hd.balanced hinv.wf _ hinv.balanced⟩, hrel⟩

theorem insertAll_spec :
    ∀ (kvs : List (Nat × Int)) (t : BTree) (d : Nat), Inv t d →
      ∃ t1 d1, insertAll t kvs = some t1 ∧ t1.order = t.order ∧ Inv t1 d1
        ∧ List.Perm (inorder t1.root) (kvs ++ inorder t.root)
  | [], t, d, hinv => ⟨t, d, rfl, rfl, hinv, by simp⟩
  | kv :: rest, t, d, hinv => by
    obtain ⟨t1, h1, ho1, hinv1, hrel⟩ := insert_spec hinv kv.1 kv.2
    obtain ⟨t2, d2, h2, ho2, hinv2, hperm⟩ := insertAll_spec rest t1 _ hinv1
    refine ⟨t2, d2, by simp only [insertAll, h1, h2], ho2.trans ho1, hinv2, ?_⟩
    refine hperm.trans ?_
    have hp : List.Perm (inorder t1.root) (kv :: inorder t.root) := hrel.perm
    have := (List.Perm.append_left rest hp).trans List.perm_middle
    simpa using this

/-! ### `searchNode` on a sorted, well-shaped tree -/

theorem searchIdx_spec (key : Nat) :
    ∀ (ks : List Nat), searchIdx key ks ≤ ks.length
      ∧ (∀ k, 0 < searchIdx key ks → ks[searchIdx key ks - 1]? = some k → k < key)
      ∧ (∀ k, ks[searchIdx key ks]? = some k → key ≤ k)
  | [] => ⟨Nat.le_refl _, fun _ h => absurd h (Nat.lt_irrefl _), fun _ h => by simp at h⟩
  | k0 :: ks => by
    obtain ⟨h1, h2, h3⟩ := searchIdx_spec key ks
    by_cases hk : key > k0
    · simp only [searchIdx, if_pos hk, List.length_cons, Nat.add_sub_cancel,
        List.getElem?_cons_succ]
      refine ⟨Nat.succ_le_succ h1, ?_, h3⟩
      intro k _ hk2
      cases hi : searchIdx key ks with
      | zero =>
        rw [hi] at hk2
        simp only [List.getElem?_cons_zero, Option.some.injEq] at hk2
        omega
      | succ j =>
        rw [hi] at hk2 h2
        simp only [List.getElem?_cons_succ] at hk2
        exact h2 k (Nat.succ_pos _) (by simpa using hk2)
    · simp only [searchIdx, if_neg hk, List.length_cons]
      refine ⟨Nat.zero_le _, fun _ h => absurd h (Nat.lt_irrefl _), ?_⟩
      intro k hk2
      simp only [List.getElem?_cons_zero, Option.some.injEq] at hk2
      omega

theorem mem_interleave_of_mem {x : Nat × Int} :
    ∀ (kvs : List (Nat × Int)) (cs : List BTreeNode), x ∈ kvs → x ∈ interleave kvs cs
  | kvs, [], h => by rw [interleave_nil_right]; exact h
  | [], _ :: _, h => by cases h
  | kv :: kvs, c :: cs, h => by
    rw [interleave_cons_cons]
    rcases List.mem_cons.1 h with h | h
    · rw [h]; simp
    · have := mem_interleave_of_mem kvs cs h
      simp [this]

theorem not_mem_of_searchIdx (key : Nat) :
    ∀ (ks : List Nat), List.Pairwise (· ≤ ·) ks → ks[searchIdx key ks]? ≠ some key → key ∉ ks
  | [], _, _ => by simp
  | k0 :: ks, hs, hne => by
    obtain ⟨h1, h2⟩ := List.pairwise_cons.1 hs
    by_cases hk : key > k0
    · simp only [searchIdx, if_pos hk, List.getElem?_cons_succ] at hne
      have := not_mem_of_searchIdx key ks h2 hne
      intro hm
      rcases List.mem_cons.1 hm with h | h
      · omega
      · exact this h
    · simp only [searchIdx, if_neg hk, List.getElem?_cons_zero, ne_eq, Option.some.injEq] at hne
      intro hm
      rcases List.mem_cons.1 hm with h | h
      · exact hne h.symm
      · have := h1 key h
        omega

theorem sorted_keys_of_zip {ks : List Nat} {vs : List Int} (hlen : vs.length = ks.length)
    (hs : SortedKV (ks.zip vs)) : List.Pairwise (· ≤ ·) ks := by
  have h : (ks.zip vs).map Prod.fst = ks := List.map_fst_zip ks vs (by omega)
  rw [← h]
  exact List.pairwise_map.2 hs

theorem search_spec (key : Nat) :
    ∀ (h : Nat) (n : BTreeNode), n.height ≤ h → WF n → SortedKV (inorder n) →
      ∃ r, searchNode n key = some r
        ∧ ((key, r) ∈ inorder n ∨ (r = -1 ∧ ∀ v, (key, v) ∉ inorder n))
  | 0, n, hh, _, _ => by
    rw [BTreeNode.height_eq] at hh; omega
  | h + 1, n, hh, hwf, hs => by
    obtain ⟨hi, hlo, hhi⟩ := searchIdx_spec key n.keys
    rw [searchNode_eq]
    by_cases hfound : n.keys[searchIdx key n.keys]? = some key
    · rw [if_pos hfound]
      have hlt : searchIdx key n.keys < n.keys.length := (List.getElem?_eq_some_iff.1 hfound).1
      have hltv : searchIdx key n.keys < n.values.length := by rw [hwf.values_length]; exact hlt
      refine ⟨n.values[searchIdx key n.keys], List.getElem?_eq_getElem hltv, Or.inl ?_⟩
      rw [inorder_eq]
      apply mem_interleave_of_mem
      have : (n.keys.zip n.values)[searchIdx key n.keys]?
          = some (key, n.values[searchIdx key n.keys]) :=
        List.getElem?_zip_eq_some.2 ⟨hfound, List.getElem?_eq_getElem hltv⟩
      exact List.getElem?_mem this
    · rw [if_neg hfound]
      cases hl : n.isLeaf with
      | true =>
        simp only [if_true]
        refine ⟨-1, rfl, Or.inr ⟨rfl, ?_⟩⟩
        intro v hv
        rw [inorder_eq, hwf.leaf_children hl, interleave_nil_right] at hv hs
        exact not_mem_of_searchIdx key n.keys (sorted_keys_of_zip hwf.values_length hs) hfound
          (List.of_mem_zip hv).1
      | false =>
        simp only [Bool.false_eq_true, if_false]
        have hcl := hwf.children_length hl
        have hic : searchIdx key n.keys < n.children.length := by omega
        have hc := List.getElem?_eq_getElem hic
        have hch : (n.children[searchIdx key n.keys]).height ≤ h := by
          have := height_lt_of_getElem? hc
          omega
        have e1 := inorder_at hwf.values_length hcl hc
        have hs2 := hs
        rw [e1] at hs2
        obtain ⟨r, hr, hres⟩ := search_spec key h _ hch (hwf.child (List.getElem?_mem hc))
          hs2.append_right.append_left
        refine ⟨r, by simp only [hc, hr], ?_⟩
        rcases hres with hres | ⟨hr1, hres⟩
        · left; rw [e1]; simp [hres]
        · right
          refine ⟨hr1, ?_⟩
          intro v hv
          rw [e1] at hv
          rcases List.mem_append.1 hv with hv | hv
          · obtain ⟨k, hpos, hk, hle⟩ := pre_bound hwf.values_length hcl hi hs2.append_left _ hv
            have := hlo k hpos hk
            simp only at hle
            omega
          · rcases List.mem_append.1 hv with hv | hv
            · exact hres v hv
            · obtain ⟨k, hk, hle⟩ := post_bound hwf.values_length
                hs2.append_right.append_right _ hv
              have h1 := hhi k hk
              simp only at hle
              have : k = key := by omega
              rw [this] at hk
              exact hfound hk

/-! ### Leaf depths -/

theorem mem_leafDepthsList {x : Nat} :
    ∀ {cs : List BTreeNode}, x ∈ leafDepthsList cs → ∃ c ∈ cs, x ∈ leafDepths c
  | [], h => by simp [leafDepthsList] at h
  | c :: cs, h => by
    rw [leafDepthsList] at h
    rcases List.mem_append.1 h with h | h
    · exact ⟨c, List.mem_cons_self _ _, h⟩
    · obtain ⟨d, hd, hx⟩ := mem_leafDepthsList h
      exact ⟨d, List.mem_cons_of_mem _ hd, hx⟩

theorem leafDepths_eq (n : BTreeNode) :
    leafDepths n = if n.isLeaf then [0] else (leafDepthsList n.children).map (· + 1) := by
  cases n; rw [leafDepths]; rfl

theorem Balanced.all_leafDepths {d : Nat} {n : BTreeNode} (h : Balanced d n) :
    ∀ x ∈ leafDepths n, x = d := by
  induction h with
  | leaf n hl =>
    intro x hx
    rw [BTree.leafDepths_eq, hl] at hx
    simpa using hx
  | node h0 n hl hc ih =>
    intro x hx
    rw [BTree.leafDepths_eq, hl] at hx
    simp only [Bool.false_eq_true, if_false, List.mem_map] at hx
    obtain ⟨y, hy, rfl⟩ := hx
    obtain ⟨c, hcm, hyc⟩ := mem_leafDepthsList hy
    rw [ih c hcm y hyc]

theorem leafDepths_ne_nil :
    ∀ (h : Nat) (n : BTreeNode), n.height ≤ h → WF n → leafDepths n ≠ []
  | 0, n, hh, _ => by
    rw [BTreeNode.height_eq] at hh; omega
  | h + 1, n, hh, hwf => by
    rw [BTree.leafDepths_eq]
    cases hl : n.isLeaf with
    | true => simp
    | false =>
      simp only [Bool.false_eq_true, if_false, ne_eq, List.map_eq_nil_iff]
      have hcl := hwf.children_length hl
      cases hcs : n.children with
      | nil => rw [hcs] at hcl; simp at hcl
      | cons c cs =>
        have hc : n.children[0]? = some c := by rw [hcs]; simp
        have hch : c.height ≤ h := by
          have := height_lt_of_getElem? hc
          omega
        have := leafDepths_ne_nil h c hch (hwf.child (List.getElem?_mem hc))
        rw [leafDepthsList]
        intro hnil
        exact this (List.append_eq_nil.1 hnil).1

/-! ### Evaluation of `insertNonFull` on literal nodes -/

theorem insertNonFull_leaf (order : Nat) (ks : List Nat) (vs : List Int) (cs : List BTreeNode)
    (key : Nat) (value : Int) :
    insertNonFull order (BTreeNode.mk true ks vs cs) key value
      = insertLeaf (BTreeNode.mk true ks vs cs) key value := by
  rw [insertNonFull_eq]; rfl

/-! ### The ordered-index claims -/

theorem sorted_lt_iff_nodup {l : List Nat} (hs : List.Sorted (· ≤ ·) l) :
    List.Sorted (· < ·) l ↔ l.Nodup := by
  constructor
  · intro h
    exact List.Pairwise.imp (fun hab => Nat.ne_of_lt hab) h
  · intro h
    exact List.Pairwise.imp₂ (fun a b hle hne => Nat.lt_of_le_of_ne hle hne) hs h

theorem insertAll_new_spec {order : Nat} (hord : 3 ≤ order) (kvs : List (Nat × Int)) :
    ∃ t d, insertAll (new order) kvs = some t ∧ Inv t d ∧ List.Perm (inorder t.root) kvs := by
  obtain ⟨t, d, h1, -, hinv, hperm⟩ := insertAll_spec kvs (new order) 0 (new_Inv hord)
  refine ⟨t, d, h1, hinv, ?_⟩
  have : inorder (new order).root = [] := by
    simp [new, inorder_mk, interleave_nil_right]
  rw [this, List.append_nil] at hperm
  exact hperm

/-- C1: when key/value pairs with pairwise distinct keys are inserted into an empty order-5
tree in any order `p` (any permutation of the pairs), every insert returns and `search k`
afterwards returns exactly the value inserted with `k`, for each inserted key. -/
theorem c1_search_any_insertion_order (kvs p : List (Nat × Int))
    (hd : (kvs.map Prod.fst).Nodup) (hp : List.Perm p kvs) :
    ∃ t, insertAll (new 5) p = some t ∧ ∀ kv ∈ kvs, t.search kv.1 = some kv.2 := by
  obtain ⟨t, d, h1, hinv, hperm⟩ := insertAll_new_spec (by decide : 3 ≤ 5) p
  refine ⟨t, h1, ?_⟩
  intro kv hkv
  have hperm2 : List.Perm (inorder t.root) kvs := hperm.trans hp
  have hmem : kv ∈ inorder t.root := hperm2.mem_iff.2 hkv
  obtain ⟨r, hr, hres⟩ := search_spec kv.1 t.root.height t.root (Nat.le_refl _) hinv.wf
    hinv.sorted
  rw [search, hr]
  rcases hres with hres | ⟨-, hres⟩
  · have hr2 : (kv.1, r) ∈ kvs := hperm2.mem_iff.1 hres
    have := List.inj_on_of_nodup_map hd hr2 hkv rfl
    rw [← this]
  · exact absurd hmem (hres kv.2)

/-- Witness of C1: six pairs, inserted in another order (the root splits on the way). -/
theorem c1_search_any_insertion_order_witness :
    ∃ t, insertAll (new 5) [(4, 40), (6, 60), (1, 10), (5, 50), (2, 20), (3, 30)] = some t
      ∧ ∀ kv ∈ ([(1, 10), (2, 20), (3, 30), (4, 40), (5, 50), (6, 60)] : List (Nat × Int)),
          t.search kv.1 = some kv.2 :=
  c1_search_any_insertion_order [(1, 10), (2, 20), (3, 30), (4, 40), (5, 50), (6, 60)]
    [(4, 40), (6, 60), (1, 10), (5, 50), (2, 20), (3, 30)] (by decide) (by decide)

/-- C9 as stated fails: inserting the key 1 twice leaves the in-order key sequence
`[1, 1]`, which is not strictly ascending. -/
theorem c9_counterexample :
    ∃ t, insertAll (new 5) [(1, 10), (1, 20)] = some t
      ∧ inorderKeys t.root = [1, 1] ∧ ¬ List.Sorted (· < ·) (inorderKeys t.root) := by
  refine ⟨⟨BTreeNode.mk true [1, 1] [10, 20] [], 5⟩, ?_, ?_, ?_⟩
  · simp [insertAll, insert, new, insertNonFull_leaf, insertLeaf, shiftDown]
  · simp [inorderKeys, inorder_mk, interleave_nil_right]
  · simp [inorderKeys, inorder_mk, interleave_nil_right]

/-- C9 (amended): after any sequence of inserts into an empty tree the in-order key
sequence is in non-decreasing order, and it is strictly ascending exactly when the
inserted keys are pairwise distinct. -/
theorem c9_inorder_keys_sorted (kvs : List (Nat × Int)) :
    ∃ t, insertAll (new 5) kvs = some t
      ∧ List.Sorted (· ≤ ·) (inorderKeys t.root)
      ∧ (List.Sorted (· < ·) (inorderKeys t.root) ↔ (kvs.map Prod.fst).Nodup) := by
  obtain ⟨t, d, h1, hinv, hperm⟩ := insertAll_new_spec (by decide : 3 ≤ 5) kvs
  have hs : List.Sorted (· ≤ ·) (inorderKeys t.root) := List.pairwise_map.2 hinv.sorted
  refine ⟨t, h1, hs, ?_⟩
  rw [sorted_lt_iff_nodup hs]
  exact (hperm.map Prod.fst).nodup_iff

/-- C10: after any sequence of inserts into an empty tree every leaf is at one and the
same depth `d` below the root; a further insert leaves that depth unchanged unless the
root is full, in which case the root is split and the depth grows by one. -/
theorem c10_leaves_same_depth (kvs : List (Nat × Int)) :
    ∃ t d, insertAll (new 5) kvs = some t
      ∧ leafDepths t.root ≠ [] ∧ (∀ x ∈ leafDepths t.root, x = d)
      ∧ ∀ (k : Nat) (v : Int), ∃ t1, t.insert k v = some t1
          ∧ ∀ x ∈ leafDepths t1.root,
              x = if t.root.keys.length = t.order - 1 then d + 1 else d := by
  obtain ⟨t, d, h1, hinv, -⟩ := insertAll_new_spec (by decide : 3 ≤ 5) kvs
  refine ⟨t, d, h1, leafDepths_ne_nil _ _ (Nat.le_refl _) hinv.wf,
    hinv.balanced.all_leafDepths, ?_⟩
  intro k v
  obtain ⟨t1, h2, -, hinv1, -⟩ := insert_spec hinv k v
  exact ⟨t1, h2, hinv1.balanced.all_leafDepths⟩

end BTree

/-! ## `canvas.h` -/

/-- A `std::string`, as its sequence of bytes. -/
abbrev Str := List Nat

/-- The bytes of an ASCII literal. -/
def ascii (s : String) : Str := s.toList.map Char.toNat

/-- `enum class PixelMood : uint8_t`, kept as its underlying value (`placePixel` receives
the mood as a `uint8_t` and only casts it). -/
abbrev PixelMood := Nat

/-- `PixelMood::Happy`. -/
def PixelMood.Happy : PixelMood := 0
/-- `PixelMood::Sad`. -/
def PixelMood.Sad : PixelMood := 1
/-- `PixelMood::Calm`. -/
def PixelMood.Calm : PixelMood := 2
/-- `PixelMood::Energetic`. -/
def PixelMood.Energetic : PixelMood := 3

/-- `struct Pixel`: `int x, y`, `uint8_t color`, mood, `uint64_t timestamp`,
`uint32_t userId`. -/
structure Pixel where
  x : Int
  y : Int
  color : Nat
  mood : PixelMood
  timestamp : Nat
  userId : Nat
  deriving DecidableEq, Repr

/-- `enum class Season`. -/
inductive Season where
  | Bloom
  | Frost
  | Warm
  | Calm
  deriving DecidableEq, Repr

/-- `struct Quest`. -/
structure Quest where
  description : Str
  progress : Int
  target : Int
  completed : Bool
  deriving DecidableEq, Repr

/-- `struct ChatMessage`. -/
structure ChatMessage where
  username : Str
  message : Str
  timestamp : Nat
  deriving DecidableEq, Repr

/-- `struct EpisodeInfo`. -/
structure EpisodeInfo where
  episodeNumber : Nat
  timeRemaining : Int
  isActive : Bool
  isFrozen : Bool
  deriving DecidableEq, Repr

/-- The data members of `class Canvas` guarded by its locks (threads, mutexes and the
`Database*` are not part of the state): the grid `canvas_[y][x]`, episode number, start
time and frozen flag, the cooldown map (`std::map<uint32_t, uint64_t>`, as a lookup
function), the season, the quests, the chat log and the snapshots. -/
structure Canvas where
  canvas : List (List Pixel)
  episodeNumber : Nat
  episodeStartTime : Nat
  episodeFrozen : Bool
  cooldowns : Nat → Option Nat
  currentSeason : Season
  quests : List Quest
  chatMessages : List ChatMessage
  snapshots : List (List Pixel)

namespace Canvas

/-! ## `canvas.cpp` -/

/-- `const int CANVAS_SIZE = 50`. -/
def CANVAS_SIZE : Int := 50
/-- `const int EPISODE_DURATION = 900`. -/
def EPISODE_DURATION : Int := 900
/-- `const int USER_COOLDOWN = 5`. -/
def USER_COOLDOWN : Int := 5
/-- `const int GUEST_COOLDOWN = 10`. -/
def GUEST_COOLDOWN : Int := 10

/-- The cell every constructor and reset writes at row `i`, column `j`:
`{j, i, 15, PixelMood::Calm, 0, 0}`. -/
def defaultPixel (i j : Nat) : Pixel := ⟨j, i, 15, PixelMood.Calm, 0, 0⟩

/-- `Canvas::Canvas(Database*)`: episode 1, start time 0, not frozen, season Calm, a
50 x 50 grid of default pixels, the three quests, nothing else. -/
def new : Canvas where
  canvas := (List.range 50).map (fun i => (List.range 50).map (fun j => defaultPixel i j))
  episodeNumber := 1
  episodeStartTime := 0
  episodeFrozen := false
  cooldowns := fun _ => none
  currentSeason := Season.Calm
  quests := [⟨ascii "Place 40 blue pixels", 0, 40, false⟩,
    ⟨ascii "Fill top-left 10x10 area", 0, 100, false⟩,
    ⟨ascii "Place 20 calm pixels", 0, 20, false⟩]
  chatMessages := []
  snapshots := []

/-- Subtraction of two `uint64_t`. -/
def sub64 (a b : Nat) : Nat := (a + 2 ^ 64 - b % 2 ^ 64) % 2 ^ 64

/-- The body shared by the three branches of `updateQuests`:
`progress++; if (progress >= target) completed = true;`. -/
def advance (q : Quest) : Quest :=
  { q with progress := q.progress + 1,
           completed := if q.progress + 1 ≥ q.target then true else q.completed }

/-- One branch of `updateQuests`: `if (cond && !quests_[k].completed) { ... }`;
`quests_[k]` is only read when `cond` holds. `none` when `k` is out of range. -/
def questStep (quests : List Quest) (k : Nat) (cond : Bool) : Option (List Quest) :=
  if cond then
    match quests[k]? with
    | none => none
    | some q => if q.completed then some quests else some (quests.set k (advance q))
  else some quests

/-- `Canvas::updateQuests(x, y, color, mood)`: quest 0 counts `color == 2`, quest 1 counts
`x < 10 && y < 10`, quest 2 counts `mood == PixelMood::Calm`. -/
def updateQuests (quests : List Quest) (x y : Int) (color : Nat) (mood : PixelMood) :
    Option (List Quest) :=
  match questStep quests 0 (decide (color = 2)) with
  | none => none
  | some q1 =>
    match questStep q1 1 (decide (x < 10 ∧ y < 10)) with
    | none => none
    | some q2 => questStep q2 2 (decide (mood = PixelMood.Calm))

/-- The write `canvas_[y][x] = p`; `none` when the row or the column does not exist. -/
def setCell (g : List (List Pixel)) (y x : Nat) (p : Pixel) : Option (List (List Pixel)) :=
  match g[y]? with
  | none => none
  | some row => if x < row.length then some (g.set y (row.set x p)) else none

/-- The read `canvas_[j][i]` with `int` indices; `none` when an index is negative or past
the end of its vector. -/
def getCell (g : List (List Pixel)) (j i : Int) : Option Pixel :=
  if j < 0 ∨ i < 0 then none
  else
    match g[j.toNat]? with
    | none => none
    | some row => row[i.toNat]?

/-- The cooldown test of `placePixel`: `it = cooldowns_.find(userId)` is present and
`now - it->second < (uint64_t)cooldown`. -/
def cooldownActive (s : Canvas) (now userId : Nat) (cooldown : Int) : Bool :=
  match s.cooldowns userId with
  | some last => decide (sub64 now last < cooldown.toNat)
  | none => false

/-- `Canvas::placePixel(x, y, color, mood, userId, isLoggedIn)` with the clock reading
`now = getCurrentTime()`. Returns the `bool` result and the state left behind. -/
def placePixel (s : Canvas) (now : Nat) (x y : Int) (color : Nat) (mood : PixelMood)
    (userId : Nat) (isLoggedIn : Bool) : Option (Bool × Canvas) :=
  if s.episodeFrozen then some (false, s)
  else if x < 0 ∨ x ≥ CANVAS_SIZE ∨ y < 0 ∨ y ≥ CANVAS_SIZE then some (false, s)
  else
    if cooldownActive s now userId (if isLoggedIn then USER_COOLDOWN else GUEST_COOLDOWN)
    then some (false, s)
    else
      match setCell s.canvas y.toNat x.toNat ⟨x, y, color, mood, now, userId⟩,
          updateQuests s.quests x y color mood with
      | some g, some q =>
        some (true, { s with
          canvas := g
          cooldowns := fun u => if u = userId then some now else s.cooldowns u
          quests := q })
      | _, _ => none

/-- Addition of two `int`; `none` on signed overflow. -/
def addInt (a b : Int) : Option Int :=
  if -(2 : Int) ^ 31 ≤ a + b ∧ a + b < (2 : Int) ^ 31 then some (a + b) else none

/-- The values taken by `k` in `for (int k = a; k < b; ++k)`. -/
def intRange (a b : Int) : List Int :=
  (List.range (b - a).toNat).map (fun (k : Nat) => a + (k : Int))

/-- The index pairs `(j, i)` visited by the two nested loops of `getRegion`, in order. -/
def regionIndices (x y endX endY : Int) : List (Int × Int) :=
  (intRange y endY).flatMap (fun j => (intRange x endX).map (fun i => (j, i)))

/-- All reads succeeded. -/
def allSome {α : Type} : List (Option α) → Option (List α)
  | [] => some []
  | none :: _ => none
  | some a :: rest =>
    match allSome rest with
    | none => none
    | some l => some (a :: l)

/-- `Canvas::getRegion(x, y, width, height)`: the cells `canvas_[j][i]` for
`y <= j < min(y + height, 50)`, `x <= i < min(x + width, 50)`, row by row. -/
def getRegion (s : Canvas) (x y width height : Int) : Option (List Pixel) :=
  match addInt x width, addInt y height with
  | some sx, some sy =>
    allSome ((regionIndices x y (min sx CANVAS_SIZE) (min sy CANVAS_SIZE)).map
      (fun ji => getCell s.canvas ji.1 ji.2))
  | _, _ => none

/-- `Canvas::getAllPixelsUnlocked()` / `getAllPixels()`. -/
def getAllPixels (s : Canvas) : Option (List Pixel) :=
  allSome ((regionIndices 0 0 CANVAS_SIZE CANVAS_SIZE).map
    (fun ji => getCell s.canvas ji.1 ji.2))

/-- Class invariant established by the constructor: a 50 x 50 grid and three quests. -/
structure Shape (s : Canvas) : Prop where
  rows : s.canvas.length = 50
  cols : ∀ row ∈ s.canvas, row.length = 50
  quests : s.quests.length = 3

/-! ### Facts about the canvas operations -/

theorem sub64_eq {a b : Nat} (ha : a < 2 ^ 64) (hb : b ≤ a) : sub64 a b = a - b := by
  unfold sub64
  have hb2 : b % 2 ^ 64 = b := Nat.mod_eq_of_lt (by omega)
  rw [hb2]
  have : a + 2 ^ 64 - b = (a - b) + 2 ^ 64 := by omega
  rw [this, Nat.add_mod_right]
  exact Nat.mod_eq_of_lt (by omega)

theorem questStep_some {quests : List Quest} {k : Nat} (cond : Bool) (hk : k < quests.length) :
    ∃ q, questStep quests k cond = some q ∧ q.length = quests.length := by
  unfold questStep
  cases cond with
  | false => exact ⟨quests, rfl, rfl⟩
  | true =>
    simp only [if_true, List.getElem?_eq_getElem hk]
    split
    · exact ⟨quests, rfl, rfl⟩
    · exact ⟨_, rfl, by simp⟩

theorem updateQuests_some {quests : List Quest} (x y : Int) (color : Nat) (mood : PixelMood)
    (h : quests.length = 3) :
    ∃ q, updateQuests quests x y color mood = some q ∧ q.length = 3 := by
  unfold updateQuests
  obtain ⟨q1, h1, l1⟩ := questStep_some (decide (color = 2)) (by omega : 0 < quests.length)
  obtain ⟨q2, h2, l2⟩ := questStep_some (decide (x < 10 ∧ y < 10)) (by omega : 1 < q1.length)
  obtain ⟨q3, h3, l3⟩ := questStep_some (decide (mood = PixelMood.Calm))
    (by omega : 2 < q2.length)
  exact ⟨q3, by simp only [h1, h2, h3], by omega⟩

theorem setCell_some {g : List (List Pixel)} {y x : Nat} (p : Pixel)
    (hrows : g.length = 50) (hcols : ∀ row ∈ g, row.length = 50) (hy : y < 50) (hx : x < 50) :
    ∃ row, g[y]? = some row ∧ setCell g y x p = some (g.set y (row.set x p)) := by
  have hy2 : y < g.length := by omega
  have hrow : g[y]? = some g[y] := List.getElem?_eq_getElem hy2
  have hlen : g[y].length = 50 := hcols _ (List.getElem_mem hy2)
  refine ⟨g[y], hrow, ?_⟩
  unfold setCell
  simp only [hrow]
  rw [if_pos (by omega)]

/-- The condition under which `placePixel` accepts a placement. -/
def Accepts (s : Canvas) (now : Nat) (x y : Int) (userId : Nat) (isLoggedIn : Bool) : Prop :=
  s.episodeFrozen = false ∧ 0 ≤ x ∧ x < 50 ∧ 0 ≤ y ∧ y < 50
    ∧ (s.cooldowns userId = none
        ∨ ∃ last, s.cooldowns userId = some last
            ∧ (if isLoggedIn then 5 else 10) ≤ now - last)

theorem placePixel_spec (s : Canvas) (hs : Shape s) (now : Nat) (x y : Int) (color : Nat)
    (mood : PixelMood) (userId : Nat) (isLoggedIn : Bool) (hnow : now < 2 ^ 64)
    (hpast : ∀ last, s.cooldowns userId = some last → last ≤ now) :
    (Accepts s now x y userId isLoggedIn →
      ∃ row q, s.canvas[y.toNat]? = some row
        ∧ updateQuests s.quests x y color mood = some q
        ∧ placePixel s now x y color mood userId isLoggedIn = some (true, { s with
            canvas := s.canvas.set y.toNat (row.set x.toNat ⟨x, y, color, mood, now, userId⟩)
            cooldowns := fun u => if u = userId then some now else s.cooldowns u
            quests := q }))
    ∧ (¬ Accepts s now x y userId isLoggedIn →
        placePixel s now x y color mood userId isLoggedIn = some (false, s)) := by
  constructor
  · rintro ⟨hf, hx0, hx1, hy0, hy1, hcd⟩
    obtain ⟨q, hq, -⟩ := updateQuests_some x y color mood hs.quests
    obtain ⟨row, hrow, hset⟩ := setCell_some (g := s.canvas) (y := y.toNat) (x := x.toNat)
      ⟨x, y, color, mood, now, userId⟩ hs.rows hs.cols (by omega) (by omega)
    refine ⟨row, q, hrow, hq, ?_⟩
    unfold placePixel
    have hb : ¬ (x < 0 ∨ x ≥ CANVAS_SIZE ∨ y < 0 ∨ y ≥ CANVAS_SIZE) := by
      simp only [CANVAS_SIZE]; omega
    rw [hf]
    simp only [Bool.false_eq_true, if_false, if_neg hb]
    have hblk : cooldownActive s now userId
        (if isLoggedIn then USER_COOLDOWN else GUEST_COOLDOWN) = false := by
      unfold cooldownActive
      rcases hcd with h | ⟨last, h, hge⟩
      · rw [h]
      · rw [h]
        simp only [decide_eq_false_iff_not, Nat.not_lt]
        rw [sub64_eq hnow (hpast last h)]
        cases isLoggedIn <;> simpa [USER_COOLDOWN, GUEST_COOLDOWN] using hge
    rw [hblk]
    simp only [Bool.false_eq_true, if_false, hset, hq]
  · intro hna
    unfold placePixel
    cases hf : s.episodeFrozen with
    | true => simp
    | false =>
      simp only [Bool.false_eq_true, if_false]
      by_cases hb : x < 0 ∨ x ≥ CANVAS_SIZE ∨ y < 0 ∨ y ≥ CANVAS_SIZE
      · rw [if_pos hb]
      · rw [if_neg hb]
        have hb2 : 0 ≤ x ∧ x < 50 ∧ 0 ≤ y ∧ y < 50 := by
          simp only [CANVAS_SIZE] at hb; omega
        cases hc : s.cooldowns userId with
        | none => exact absurd ⟨hf, hb2.1, hb2.2.1, hb2.2.2.1, hb2.2.2.2, Or.inl hc⟩ hna
        | some last =>
          have hlt : sub64 now last
              < (if isLoggedIn then USER_COOLDOWN else GUEST_COOLDOWN).toNat := by
            rw [sub64_eq hnow (hpast last hc)]
            by_contra hge
            apply hna
            refine ⟨hf, hb2.1, hb2.2.1, hb2.2.2.1, hb2.2.2.2, Or.inr ⟨last, hc, ?_⟩⟩
            cases isLoggedIn <;> simpa [USER_COOLDOWN, GUEST_COOLDOWN] using hge
          have hblk : cooldownActive s now userId
              (if isLoggedIn then USER_COOLDOWN else GUEST_COOLDOWN) = true := by
            unfold cooldownActive
            rw [hc]
            exact decide_eq_true hlt
          rw [hblk]; rfl

theorem new_Shape : Shape Canvas.new := by
  refine ⟨by simp [Canvas.new], ?_, rfl⟩
  intro row hrow
  simp only [Canvas.new, List.mem_map] at hrow
  obtain ⟨i, -, rfl⟩ := hrow
  simp

theorem placePixel_true {s s1 : Canvas} {now : Nat} {x y : Int} {color : Nat}
    {mood : PixelMood} {userId : Nat} {isLoggedIn : Bool}
    (h : placePixel s now x y color mood userId isLoggedIn = some (true, s1)) :
    s.episodeFrozen = false ∧ 0 ≤ x ∧ x < 50 ∧ 0 ≤ y ∧ y < 50
      ∧ ∃ g q, setCell s.canvas y.toNat x.toNat ⟨x, y, color, mood, now, userId⟩ = some g
          ∧ updateQuests s.quests x y color mood = some q
          ∧ s1 = { s with
              canvas := g
              cooldowns := fun u => if u = userId then some now else s.cooldowns u
              quests := q } := by
  unfold placePixel at h
  cases hf : s.episodeFrozen with
  | true => simp [hf] at h
  | false =>
    simp only [hf, Bool.false_eq_true, if_false] at h
    by_cases hb : x < 0 ∨ x ≥ CANVAS_SIZE ∨ y < 0 ∨ y ≥ CANVAS_SIZE
    · simp [if_pos hb] at h
    · rw [if_neg hb] at h
      have hb2 : 0 ≤ x ∧ x < 50 ∧ 0 ≤ y ∧ y < 50 := by
        simp only [CANVAS_SIZE] at hb; omega
      refine ⟨rfl, hb2.1, hb2.2.1, hb2.2.2.1, hb2.2.2.2, ?_⟩
      cases hblk : cooldownActive s now userId
          (if isLoggedIn then USER_COOLDOWN else GUEST_COOLDOWN) with
      | true => simp [hblk] at h
      | false =>
        simp only [hblk, Bool.false_eq_true, if_false] at h
        split at h
        · rename_i g q hg hq
          simp only [Option.some.injEq, Prod.mk.injEq, true_and] at h
          exact ⟨g, q, hg, hq, h.symm⟩
        · cases h

theorem setCell_eq_some {g g1 : List (List Pixel)} {y x : Nat} {p : Pixel}
    (h : setCell g y x p = some g1) :
    ∃ row, g[y]? = some row ∧ x < row.length ∧ g1 = g.set y (row.set x p) := by
  unfold setCell at h
  cases hrow : g[y]? with
  | none => simp [hrow] at h
  | some row =>
    simp only [hrow] at h
    split at h
    · rename_i hx
      exact ⟨row, rfl, hx, (Option.some.inj h).symm⟩
    · cases h

theorem getCell_set {g : List (List Pixel)} {y x : Int} (hy : 0 ≤ y) (hx : 0 ≤ x)
    {row : List Pixel} (hrow : g[y.toNat]? = some row) (hxl : x.toNat < row.length) (p : Pixel)
    (j i : Int) :
    getCell (g.set y.toNat (row.set x.toNat p)) j i
      = if j = y ∧ i = x then some p else getCell g j i := by
  have hyl : y.toNat < g.length := (List.getElem?_eq_some_iff.1 hrow).1
  unfold getCell
  by_cases hneg : j < 0 ∨ i < 0
  · rw [if_pos hneg, if_pos hneg, if_neg (by omega)]
  · rw [if_neg hneg, if_neg hneg]
    by_cases hj : j = y
    · subst hj
      simp only [List.getElem?_set, if_true, if_pos hyl, true_and, hrow]
      by_cases hi : i = x
      · subst hi
        simp [hxl]
      · have : x.toNat ≠ i.toNat := by omega
        simp [hi, this]
    · have : y.toNat ≠ j.toNat := by omega
      simp [List.getElem?_set, this, hj]

theorem mem_intRange {a b k : Int} : k ∈ intRange a b ↔ a ≤ k ∧ k < b := by
  unfold intRange
  simp only [List.mem_map, List.mem_range]
  constructor
  · rintro ⟨n, hn, rfl⟩
    omega
  · intro h
    exact ⟨(k - a).toNat, by omega, by omega⟩

theorem mem_regionIndices {x y endX endY : Int} {ji : Int × Int} :
    ji ∈ regionIndices x y endX endY ↔ (y ≤ ji.1 ∧ ji.1 < endY) ∧ (x ≤ ji.2 ∧ ji.2 < endX) := by
  unfold regionIndices
  simp only [List.mem_flatMap, List.mem_map, mem_intRange]
  constructor
  · rintro ⟨j, hj, i, hi, rfl⟩
    exact ⟨hj, hi⟩
  · intro h
    exact ⟨ji.1, h.1, ji.2, h.2, rfl⟩

theorem allSome_map {α β : Type} (f : α → Option β) (g : α → β) :
    ∀ (l : List α), (∀ a ∈ l, f a = some (g a)) → allSome (l.map f) = some (l.map g)
  | [], _ => rfl
  | a :: l, h => by
    have h1 := h a (List.mem_cons_self _ _)
    have h2 := allSome_map f g l (fun b hb => h b (List.mem_cons_of_mem _ hb))
    simp only [List.map_cons, h1, allSome, h2]

theorem zipWith_map_self {α β γ : Type} (f : α → β → γ) (g : α → β) :
    ∀ (l : List α), List.zipWith f l (l.map g) = l.map (fun a => f a (g a))
  | [] => rfl
  | a :: l => by simp [zipWith_map_self f g l]

/-- The pixel of an in-range cell (a default value elsewhere). -/
def cellD (g : List (List Pixel)) (ji : Int × Int) : Pixel :=
  (getCell g ji.1 ji.2).getD ⟨0, 0, 0, 0, 0, 0⟩

theorem getCell_some_of_shape {g : List (List Pixel)} (hrows : g.length = 50)
    (hcols : ∀ row ∈ g, row.length = 50) {j i : Int} (hj : 0 ≤ j ∧ j < 50)
    (hi : 0 ≤ i ∧ i < 50) : getCell g j i = some (cellD g (j, i)) := by
  have hjl : j.toNat < g.length := by omega
  have hlen : g[j.toNat].length = 50 := hcols _ (List.getElem_mem hjl)
  have hil : i.toNat < g[j.toNat].length := by omega
  have : getCell g j i = some (g[j.toNat][i.toNat]) := by
    unfold getCell
    rw [if_neg (by omega), List.getElem?_eq_getElem hjl]
    exact List.getElem?_eq_getElem hil
  rw [cellD, this]; rfl

theorem getRegion_of_shape {s : Canvas} (hrows : s.canvas.length = 50)
    (hcols : ∀ row ∈ s.canvas, row.length = 50) {x y width height : Int} (hx : 0 ≤ x)
    (hy : 0 ≤ y) (hw : -(2 : Int) ^ 31 ≤ x + width ∧ x + width < (2 : Int) ^ 31)
    (hh : -(2 : Int) ^ 31 ≤ y + height ∧ y + height < (2 : Int) ^ 31) :
    getRegion s x y width height
      = some ((regionIndices x y (min (x + width) 50) (min (y + height) 50)).map
          (cellD s.canvas)) := by
  unfold getRegion addInt
  rw [if_pos hw, if_pos hh]
  simp only [CANVAS_SIZE]
  apply allSome_map
  intro ji hji
  obtain ⟨h1, h2⟩ := mem_regionIndices.1 hji
  exact getCell_some_of_shape hrows hcols (by omega) (by omega)

theorem set_shape {g : List (List Pixel)} (hrows : g.length = 50)
    (hcols : ∀ row ∈ g, row.length = 50) {y x : Nat} {row : List Pixel}
    (hrow : g[y]? = some row) (p : Pixel) :
    (g.set y (row.set x p)).length = 50 ∧ ∀ r ∈ g.set y (row.set x p), r.length = 50 := by
  refine ⟨by rw [List.length_set]; exact hrows, ?_⟩
  intro r hr
  rcases List.mem_or_eq_of_mem_set hr with h | h
  · exact hcols r h
  · rw [h, List.length_set]
    exact hcols row (List.getElem?_mem hrow)

theorem placePixel_total (s : Canvas) (hs : Shape s) (now : Nat) (x y : Int) (color : Nat)
    (mood : PixelMood) (userId : Nat) (isLoggedIn : Bool) :
    ∃ ok s1, placePixel s now x y color mood userId isLoggedIn = some (ok, s1) ∧ Shape s1
      ∧ s1.episodeFrozen = s.episodeFrozen
      ∧ ∀ u, u ≠ userId → s1.cooldowns u = s.cooldowns u := by
  have hstay : ∃ ok s1, some (false, s) = some (ok, s1) ∧ Shape s1
      ∧ s1.episodeFrozen = s.episodeFrozen ∧ ∀ u, u ≠ userId → s1.cooldowns u = s.cooldowns u :=
    ⟨false, s, rfl, hs, rfl, fun _ _ => rfl⟩
  unfold placePixel
  cases hf : s.episodeFrozen with
  | true => simpa [hf] using hstay
  | false =>
    simp only [Bool.false_eq_true, if_false]
    by_cases hb : x < 0 ∨ x ≥ CANVAS_SIZE ∨ y < 0 ∨ y ≥ CANVAS_SIZE
    · rw [if_pos hb]; simpa [hf] using hstay
    · rw [if_neg hb]
      have hb2 : 0 ≤ x ∧ x < 50 ∧ 0 ≤ y ∧ y < 50 := by
        simp only [CANVAS_SIZE] at hb; omega
      cases hblk : cooldownActive s now userId
          (if isLoggedIn then USER_COOLDOWN else GUEST_COOLDOWN) with
      | true => simpa [hf] using hstay
      | false =>
        simp only [Bool.false_eq_true, if_false]
        obtain ⟨q, hq, hql⟩ := updateQuests_some x y color mood hs.quests
        obtain ⟨row, hrow, hset⟩ := setCell_some (g := s.canvas) (y := y.toNat) (x := x.toNat)
          ⟨x, y, color, mood, now, userId⟩ hs.rows hs.cols (by omega) (by omega)
        obtain ⟨h1, h2⟩ := set_shape hs.rows hs.cols hrow (x := x.toNat)
          ⟨x, y, color, mood, now, userId⟩
        simp only [hset, hq]
        refine ⟨true, _, rfl, ⟨h1, h2, hql⟩, rfl, ?_⟩
        intro u hu
        simp only [if_neg hu]

/-- One `placePixel` call: clock reading and arguments. -/
structure Call where
  now : Nat
  x : Int
  y : Int
  color : Nat
  mood : PixelMood
  userId : Nat
  isLoggedIn : Bool

/-- A run of `placePixel` calls, whatever each of them returns. -/
def runCalls (s : Canvas) : List Call → Option Canvas
  | [] => some s
  | c :: rest =>
    match placePixel s c.now c.x c.y c.color c.mood c.userId c.isLoggedIn with
    | none => none
    | some r => runCalls r.2 rest

theorem runCalls_spec (u : Nat) :
    ∀ (calls : List Call) (s : Canvas), Shape s → (∀ c ∈ calls, c.userId ≠ u) →
      ∃ s2, runCalls s calls = some s2 ∧ Shape s2 ∧ s2.episodeFrozen = s.episodeFrozen
        ∧ s2.cooldowns u = s.cooldowns u
  | [], s, hs, _ => ⟨s, rfl, hs, rfl, rfl⟩
  | c :: rest, s, hs, hu => by
    obtain ⟨ok, s1, h1, hs1, hf1, hc1⟩ :=
      placePixel_total s hs c.now c.x c.y c.color c.mood c.userId c.isLoggedIn
    obtain ⟨s2, h2, hs2, hf2, hc2⟩ := runCalls_spec u rest s1 hs1
      (fun d hd => hu d (List.mem_cons_of_mem _ hd))
    refine ⟨s2, by simp only [runCalls, h1, h2], hs2, hf2.trans hf1, ?_⟩
    rw [hc2]
    exact hc1 u (fun h => hu c (List.mem_cons_self _ _) h.symm)

/-! ### The placement claims -/

/-- C2: on a canvas of the constructor's shape, at a clock reading `now` (a `uint64_t`) not
earlier than any recorded cooldown timestamp, `placePixel` returns, and it returns `true`
exactly when the episode is not frozen, `0 <= x < 50`, `0 <= y < 50`, and the user has no
cooldown entry or `now - last >= c` with `c = 5` for a logged-in caller and `10` otherwise. -/
theorem c2_placePixel_true_iff (s : Canvas) (hs : Shape s) (now : Nat) (x y : Int)
    (color : Nat) (mood : PixelMood) (userId : Nat) (isLoggedIn : Bool) (hnow : now < 2 ^ 64)
    (hpast : ∀ u last, s.cooldowns u = some last → last ≤ now) :
    ∃ ok s1, placePixel s now x y color mood userId isLoggedIn = some (ok, s1)
      ∧ (ok = true ↔
          (s.episodeFrozen = false ∧ 0 ≤ x ∧ x < 50 ∧ 0 ≤ y ∧ y < 50
            ∧ (s.cooldowns userId = none
                ∨ ∃ last, s.cooldowns userId = some last
                    ∧ (if isLoggedIn then 5 else 10) ≤ now - last))) := by
  obtain ⟨hyes, hno⟩ := placePixel_spec s hs now x y color mood userId isLoggedIn hnow
    (hpast userId)
  by_cases ha : Accepts s now x y userId isLoggedIn
  · obtain ⟨row, q, -, -, h⟩ := hyes ha
    exact ⟨true, _, h, Iff.intro (fun _ => ha) (fun _ => rfl)⟩
  · exact ⟨false, s, hno ha, Iff.intro (fun h => by cases h) (fun h => absurd h ha)⟩

/-- Witness of C2: the freshly constructed canvas at clock reading 100. -/
theorem c2_placePixel_true_iff_witness :
    Shape Canvas.new ∧ (100 : Nat) < 2 ^ 64
      ∧ (∀ u last, Canvas.new.cooldowns u = some last → last ≤ 100)
      ∧ ∃ ok s1, placePixel Canvas.new 100 3 4 2 PixelMood.Calm 7 true = some (ok, s1)
          ∧ (ok = true ↔
              (Canvas.new.episodeFrozen = false ∧ (0 : Int) ≤ 3 ∧ (3 : Int) < 50
                ∧ (0 : Int) ≤ 4 ∧ (4 : Int) < 50
                ∧ (Canvas.new.cooldowns 7 = none
                    ∨ ∃ last, Canvas.new.cooldowns 7 = some last
                        ∧ (if true = true then 5 else 10) ≤ 100 - last))) :=
  ⟨new_Shape, by norm_num, fun u last h => by simp [Canvas.new] at h,
    c2_placePixel_true_iff Canvas.new new_Shape 100 3 4 2 PixelMood.Calm 7 true (by norm_num)
      (fun u last h => by simp [Canvas.new] at h)⟩

/-- When `placePixel(x, y, color, mood, userId, _)` succeeds at clock reading `now`, the
grid afterwards is the grid before with only cell `(x, y)` replaced by
`Pixel{x, y, color, mood, now, userId}`; and for every rectangle with non-negative origin
that covers `(x, y)`, `getRegion` returns before and after the call, one pixel per index
pair of the clipped rectangle in row-major order, `(y, x)` is among these pairs, and the
list returned after the call has the new pixel at that pair and at every other pair the
pixel returned before. -/
theorem placePixel_getRegion (s s1 : Canvas) (hs : Shape s) (now : Nat) (x y : Int)
    (color : Nat) (mood : PixelMood) (userId : Nat) (isLoggedIn : Bool)
    (h : placePixel s now x y color mood userId isLoggedIn = some (true, s1)) :
    (∀ j i : Int, getCell s1.canvas j i
        = if j = y ∧ i = x then some ⟨x, y, color, mood, now, userId⟩
          else getCell s.canvas j i)
    ∧ ∀ rx ry w hgt : Int, 0 ≤ rx → rx ≤ x → x < rx + w → rx + w < 2 ^ 31 →
        0 ≤ ry → ry ≤ y → y < ry + hgt → ry + hgt < 2 ^ 31 →
        (y, x) ∈ regionIndices rx ry (min (rx + w) 50) (min (ry + hgt) 50)
          ∧ getRegion s rx ry w hgt
              = some ((regionIndices rx ry (min (rx + w) 50) (min (ry + hgt) 50)).map
                  (cellD s.canvas))
          ∧ getRegion s1 rx ry w hgt
              = some ((regionIndices rx ry (min (rx + w) 50) (min (ry + hgt) 50)).map
                  (fun ji => if ji = (y, x) then ⟨x, y, color, mood, now, userId⟩
                    else cellD s.canvas ji)) := by
  obtain ⟨-, hx0, hx1, hy0, hy1, g, q, hg, -, rfl⟩ := placePixel_true h
  obtain ⟨row, hrow, hxl, rfl⟩ := setCell_eq_some hg
  have hcell := getCell_set hy0 hx0 hrow hxl ⟨x, y, color, mood, now, userId⟩
  refine ⟨hcell, ?_⟩
  intro rx ry w hgt hrx0 hrx hxw hwo hry0 hry hyh hho
  obtain ⟨h1, h2⟩ := set_shape hs.rows hs.cols hrow (x := x.toNat)
    ⟨x, y, color, mood, now, userId⟩
  have hb := @getRegion_of_shape s hs.rows hs.cols rx ry w hgt hrx0 hry0
    ⟨by omega, hwo⟩ ⟨by omega, hho⟩
  have ha := @getRegion_of_shape { s with
      canvas := s.canvas.set y.toNat (row.set x.toNat ⟨x, y, color, mood, now, userId⟩)
      cooldowns := fun u => if u = userId then some now else s.cooldowns u
      quests := q } h1 h2 rx ry w hgt hrx0 hry0
    ⟨by omega, hwo⟩ ⟨by omega, hho⟩
  refine ⟨mem_regionIndices.2 ⟨⟨hry, by omega⟩, ⟨hrx, by omega⟩⟩, hb, ?_⟩
  rw [ha]
  congr 1
  apply List.map_congr_left
  intro ji hji
  simp only [cellD, hcell]
  by_cases he : ji = (y, x)
  · rw [he]; simp
  · have : ¬ (ji.1 = y ∧ ji.2 = x) := fun hc => he (Prod.ext hc.1 hc.2)
    rw [if_neg this, if_neg he]

/-- C4: after a successful `placePixel` by user id `u` at `t1`, followed by any number of
`placePixel` calls by other user ids (and no episode end), the next call by `u`, with
in-bounds coordinates at a clock reading `t2 >= t1`, succeeds exactly when
`t2 - t1 >= 5` if made as logged in, and exactly when `t2 - t1 >= 10` if made as guest. -/
theorem c4_cooldown_between_placements (s0 s1 : Canvas) (hs : Shape s0) (u t1 : Nat)
    (x1 y1 : Int) (c1 : Nat) (m1 : PixelMood) (l1 : Bool)
    (h1 : placePixel s0 t1 x1 y1 c1 m1 u l1 = some (true, s1))
    (others : List Call) (ho : ∀ c ∈ others, c.userId ≠ u)
    (t2 : Nat) (x2 y2 : Int) (c2 : Nat) (m2 : PixelMood) (l2 : Bool)
    (ht : t1 ≤ t2) (ht2 : t2 < 2 ^ 64) (hx : 0 ≤ x2 ∧ x2 < 50) (hy : 0 ≤ y2 ∧ y2 < 50) :
    ∃ s2 ok s3, runCalls s1 others = some s2
      ∧ placePixel s2 t2 x2 y2 c2 m2 u l2 = some (ok, s3)
      ∧ (ok = true ↔ (if l2 then 5 else 10) ≤ t2 - t1) := by
  obtain ⟨ok1, s1b, h1b, hs1, hf1, -⟩ := placePixel_total s0 hs t1 x1 y1 c1 m1 u l1
  rw [h1] at h1b
  obtain ⟨-, rfl⟩ := Prod.mk.inj (Option.some.inj h1b)
  obtain ⟨hf0, -, -, -, -, g, q, -, -, hs1eq⟩ := placePixel_true h1
  have hcd1 : s1.cooldowns u = some t1 := by rw [hs1eq]; simp
  obtain ⟨s2, h2, hs2, hf2, hc2⟩ := runCalls_spec u others s1 hs1 ho
  have hcd2 : s2.cooldowns u = some t1 := hc2.trans hcd1
  have hfz : s2.episodeFrozen = false := by rw [hf2, hf1, hf0]
  obtain ⟨hyes, hno⟩ := placePixel_spec s2 hs2 t2 x2 y2 c2 m2 u l2 ht2
    (fun last hl => by rw [hcd2] at hl; cases hl; exact ht)
  by_cases hge : (if l2 then 5 else 10) ≤ t2 - t1
  · obtain ⟨row, q2, -, -, h3⟩ := hyes
      ⟨hfz, hx.1, hx.2, hy.1, hy.2, Or.inr ⟨t1, hcd2, hge⟩⟩
    exact ⟨s2, true, _, h2, h3, Iff.intro (fun _ => hge) (fun _ => rfl)⟩
  · have hna : ¬ Accepts s2 t2 x2 y2 u l2 := by
      rintro ⟨-, -, -, -, -, hc | ⟨last, hc, hle⟩⟩
      · rw [hcd2] at hc; cases hc
      · rw [hcd2] at hc; cases hc; exact hge hle
    exact ⟨s2, false, s2, h2, hno hna, Iff.intro (fun h => by cases h) (fun h => absurd h hge)⟩

/-- Witness of C4: user 7 places at 100, user 8 and a guest place in between, user 7
places again at 103 as a logged-in caller. -/
theorem c4_cooldown_between_placements_witness :
    ∃ s1, Shape Canvas.new
      ∧ placePixel Canvas.new 100 3 4 2 PixelMood.Calm 7 true = some (true, s1)
      ∧ ∃ s2 ok s3,
          runCalls s1 [⟨101, 1, 1, 0, 0, 8, true⟩, ⟨102, 2, 2, 0, 0, 0, false⟩] = some s2
          ∧ placePixel s2 103 5 5 1 PixelMood.Sad 7 true = some (ok, s3)
          ∧ (ok = true ↔ (if true = true then 5 else 10) ≤ 103 - 100) := by
  obtain ⟨hyes, -⟩ := placePixel_spec Canvas.new new_Shape 100 3 4 2 PixelMood.Calm 7 true
    (by norm_num) (fun last h => by simp [Canvas.new] at h)
  obtain ⟨row, q, -, -, h⟩ := hyes
    ⟨rfl, by norm_num, by norm_num, by norm_num, by norm_num, Or.inl rfl⟩
  exact ⟨_, new_Shape, h,
    c4_cooldown_between_placements Canvas.new _ new_Shape 7 100 3 4 2 PixelMood.Calm true h
      [⟨101, 1, 1, 0, 0, 8, true⟩, ⟨102, 2, 2, 0, 0, 0, false⟩]
      (by intro c hc; simp at hc; rcases hc with rfl | rfl <;> decide)
      103 5 5 1 PixelMood.Sad true (by norm_num) (by norm_num) (by norm_num) (by norm_num)⟩

end Canvas

/-! ## `database.h` -/

/-- `struct User`: `uint32_t id`, three strings, `uint64_t registrationTime`. -/
structure User where
  id : Nat
  email : Str
  username : Str
  passwordHash : Str
  registrationTime : Nat
  deriving DecidableEq, Repr

/-- `struct EpisodeMetadata`: `uint32_t episodeNumber`, `uint64_t` start and end. -/
structure EpisodeMetadata where
  episodeNumber : Nat
  startTimestamp : Nat
  endTimestamp : Nat
  deriving DecidableEq, Repr

/-- The data members of `class Database` (the file name apart): `nextUserId_`, the id
index, the two `std::unordered_map<std::string, uint32_t>` (as association lists with
distinct keys, in their iteration order), the user list and the episode history. -/
structure Database where
  nextUserId : Nat
  userIdIndex : BTree
  emailToUserId : List (Str × Nat)
  sessions : List (Str × Nat)
  users : List User
  episodes : List EpisodeMetadata

/-- `unordered_map::find(key)`: the mapped value, if any. -/
def mapFind : List (Str × Nat) → Str → Option Nat
  | [], _ => none
  | (k, v) :: rest, key => if k = key then some v else mapFind rest key

/-- `map[key] = value`: overwrite the entry of `key`, or add one. -/
def mapSet : List (Str × Nat) → Str → Nat → List (Str × Nat)
  | [], key, value => [(key, value)]
  | (k, v) :: rest, key, value =>
    if k = key then (k, value) :: rest else (k, v) :: mapSet rest key value

/-- `unordered_map::erase(key)`. -/
def mapErase (m : List (Str × Nat)) (key : Str) : List (Str × Nat) :=
  m.filter (fun p => decide (p.1 ≠ key))

/-- Conversion of a `size_t` or `uint32_t` to `int` (two's complement, 32 bits). -/
def toInt32 (n : Nat) : Int :=
  if n % 2 ^ 32 < 2 ^ 31 then ((n % 2 ^ 32 : Nat) : Int) else ((n % 2 ^ 32 : Nat) : Int) - 2 ^ 32

namespace Database

/-! ## `database.cpp` -/

/-- `Database::Database(filename)`: `nextUserId_(1)`, `userIdIndex_(5)`, empty
containers. -/
def new : Database where
  nextUserId := 1
  userIdIndex := BTree.new 5
  emailToUserId := []
  sessions := []
  users := []
  episodes := []

/-- `Database::registerUser(email, username, password)`; `sha256` is the hash of the
absent header `sha256.h` and `now` the value of `std::time(nullptr)` as `uint64_t`.
Returns the id (0 for an email already present) and the state left behind. -/
def registerUser (sha256 : Str → Str) (db : Database) (now : Nat)
    (email username password : Str) : Option (Nat × Database) :=
  match mapFind db.emailToUserId email with
  | some _ => some (0, db)
  | none =>
    let user : User := ⟨db.nextUserId, email, username, sha256 password, now⟩
    match db.userIdIndex.insert user.id (toInt32 ((db.users ++ [user]).length - 1)) with
    | none => none
    | some index =>
      some (user.id, { db with
        nextUserId := (db.nextUserId + 1) % 2 ^ 32
        users := db.users ++ [user]
        emailToUserId := mapSet db.emailToUserId email user.id
        userIdIndex := index })

/-- `Database::getUserById(userId)`: the outer `Option` is the B-tree search returning at
all, the inner one the `shared_ptr<User>` (`none` for `nullptr`). -/
def getUserById (db : Database) (userId : Nat) : Option (Option User) :=
  match db.userIdIndex.search userId with
  | none => none
  | some userIndex =>
    if 0 ≤ userIndex ∧ userIndex < toInt32 db.users.length then
      match db.users[userIndex.toNat]? with
      | none => none
      | some u => some (some u)
    else some none

/-- `Database::getUserByEmail(email)`. -/
def getUserByEmail (db : Database) (email : Str) : Option (Option User) :=
  match mapFind db.emailToUserId email with
  | some userId => getUserById db userId
  | none => some none

/-- `Database::authenticateUser(email, password)`; `verifyPassword` is
`sha256(password) == hash`. -/
def authenticateUser (sha256 : Str → Str) (db : Database) (email password : Str) :
    Option Nat :=
  match mapFind db.emailToUserId email with
  | none => some 0
  | some userId =>
    match getUserById db userId with
    | none => none
    | some none => some 0
    | some (some user) => if sha256 password = user.passwordHash then some userId else some 0

/-- `Database::createSession(sessionId, userId)`. -/
def createSession (db : Database) (sessionId : Str) (userId : Nat) : Database :=
  { db with sessions := mapSet db.sessions sessionId userId }

/-- `Database::getUserIdFromSession(sessionId)`. -/
def getUserIdFromSession (db : Database) (sessionId : Str) : Nat :=
  match mapFind db.sessions sessionId with
  | some userId => userId
  | none => 0

/-- `Database::removeSession(sessionId)`. -/
def removeSession (db : Database) (sessionId : Str) : Database :=
  { db with sessions := mapErase db.sessions sessionId }

/-- `Database::saveEpisode(episodeNumber, startTime, endTime)`: append, then drop the
oldest entry when more than 10 are held. -/
def saveEpisode (db : Database) (episodeNumber startTime endTime : Nat) : Database :=
  let episodes := db.episodes ++ [⟨episodeNumber, startTime, endTime⟩]
  { db with episodes := if episodes.length > 10 then episodes.drop 1 else episodes }

/-! ### Serialization -/

/-- The `k` low-order bytes of `n`, least significant first (the in-memory bytes of an
unsigned integer on the little-endian host that `out.write` copies). -/
def leBytes : Nat → Nat → List Nat
  | 0, _ => []
  | k + 1, n => n % 256 :: leBytes k (n / 256)

/-- The unsigned integer whose in-memory bytes are given, least significant first. -/
def leDecode : List Nat → Nat
  | [] => 0
  | b :: rest => b + 256 * leDecode rest

/-- A `uint32_t` as written by `out.write(reinterpret_cast<const char*>(&v), 4)`. -/
def le32 (n : Nat) : List Nat := leBytes 4 n

/-- A `uint64_t` as written by `out.write(reinterpret_cast<const char*>(&v), 8)`. -/
def le64 (n : Nat) : List Nat := leBytes 8 n

/-- `uint32_t len = s.size(); out.write(&len, 4); out.write(s.c_str(), len);`. -/
def serStr (s : Str) : List Nat := le32 s.length ++ s.take (s.length % 2 ^ 32)

/-- The bytes written for one user. -/
def serUser (u : User) : List Nat :=
  le32 u.id ++ serStr u.email ++ serStr u.username ++ serStr u.passwordHash
    ++ le64 u.registrationTime

/-- The bytes written for one episode. -/
def serEpisode (e : EpisodeMetadata) : List Nat :=
  le32 e.episodeNumber ++ le64 e.startTimestamp ++ le64 e.endTimestamp

/-- The bytes written for one session. -/
def serSession (p : Str × Nat) : List Nat := serStr p.1 ++ le32 p.2

/-- The magic number `0x4F4D4E49` ("OMNI"). -/
def MAGIC : Nat := 0x4F4D4E49

/-- `Database::serialize(out)`: the bytes written to the stream. -/
def serialize (db : Database) : List Nat :=
  le32 MAGIC ++ le32 db.nextUserId
    ++ le32 db.users.length ++ db.users.flatMap serUser
    ++ le32 db.episodes.length ++ db.episodes.flatMap serEpisode
    ++ le32 db.sessions.length ++ db.sessions.flatMap serSession

/-- `Database::save()` when the output file can be opened: the file contents. -/
def save (db : Database) : List Nat := serialize db

/-! ### Deserialization -/

/-- An `std::ifstream`: the bytes not yet read and the fail bit. -/
structure In where
  bytes : List Nat
  fail : Bool

/-- `in.read(buf, n)`: the bytes stored into the buffer and the stream afterwards. On a
failed stream nothing is read; when fewer than `n` bytes are left they are all read and
the fail bit is set. -/
def In.read (s : In) (n : Nat) : List Nat × In :=
  if s.fail then ([], s)
  else if n ≤ s.bytes.length then (s.bytes.take n, ⟨s.bytes.drop n, false⟩)
  else (s.bytes, ⟨[], true⟩)

/-- Result of running code that may throw or read an indeterminate value. -/
inductive Outcome (α : Type) where
  | ok (a : α)
  | thrown
  | undefined

/-- Sequencing of two steps. -/
def Outcome.bind {α β : Type} (x : Outcome α) (f : α → Outcome β) : Outcome β :=
  match x with
  | Outcome.ok a => f a
  | Outcome.thrown => Outcome.thrown
  | Outcome.undefined => Outcome.undefined

instance : Monad Outcome where
  pure := Outcome.ok
  bind := Outcome.bind

/-- `in.read` of `k` bytes into an uninitialized integer variable that is used afterwards:
its value when all `k` bytes arrive, an indeterminate value otherwise. -/
def readFresh (k : Nat) (s : In) : Outcome (Nat × In) :=
  if (s.read k).1.length = k then Outcome.ok (leDecode (s.read k).1, (s.read k).2)
  else Outcome.undefined

/-- `in.read` of `k` bytes into an integer variable holding `old`: the bytes that arrive
replace the low-order bytes. -/
def readOver (k : Nat) (old : Nat) (s : In) : Nat × In :=
  (leDecode ((s.read k).1 ++ (leBytes k old).drop (s.read k).1.length), (s.read k).2)

/-- `str.resize(len); in.read(&str[0], len);`: the bytes that arrive, then zeros. -/
def readStr (len : Nat) (s : In) : Str × In :=
  ((s.read len).1 ++ List.replicate (len - (s.read len).1.length) 0, (s.read len).2)

/-- One iteration of the user loop of `deserialize`: the record read and the stream. -/
def readUser (s : In) : Outcome (User × In) := do
  let (id, s) ← readFresh 4 s
  let (emailLen, s) ← readFresh 4 s
  let (email, s) := readStr emailLen s
  let (usernameLen, s) ← readFresh 4 s
  let (username, s) := readStr usernameLen s
  let (hashLen, s) ← readFresh 4 s
  let (hash, s) := readStr hashLen s
  let (registrationTime, s) ← readFresh 8 s
  pure (⟨id, email, username, hash, registrationTime⟩, s)

/-- The three containers filled by the user loop. -/
structure UserTables where
  users : List User
  emailToUserId : List (Str × Nat)
  userIdIndex : BTree

/-- `users_.push_back(user); emailToUserId_[user.email] = user.id;
userIdIndex_.insert(user.id, users_.size() - 1);`. -/
def addUser (t : UserTables) (user : User) : Option UserTables :=
  match t.userIdIndex.insert user.id (toInt32 ((t.users ++ [user]).length - 1)) with
  | none => none
  | some index => some ⟨t.users ++ [user], mapSet t.emailToUserId user.email user.id, index⟩

/-- The user loop of `deserialize`, `count` iterations. -/
def readUsers : Nat → UserTables → In → Outcome (UserTables × In)
  | 0, t, s => Outcome.ok (t, s)
  | count + 1, t, s => do
    let (user, s) ← readUser s
    match addUser t user with
    | none => Outcome.undefined
    | some t1 => readUsers count t1 s

/-- The episode loop of `deserialize`, `count` iterations. -/
def readEpisodes : Nat → List EpisodeMetadata → In → Outcome (List EpisodeMetadata × In)
  | 0, eps, s => Outcome.ok (eps, s)
  | count + 1, eps, s => do
    let (number, s) ← readFresh 4 s
    let (start, s) ← readFresh 8 s
    let (stop, s) ← readFresh 8 s
    readEpisodes count (eps ++ [⟨number, start, stop⟩]) s

/-- The session loop of `deserialize`, `count` iterations (`sidLen` and `uid` start
at 0). -/
def readSessions : Nat → List (Str × Nat) → In → List (Str × Nat) × In
  | 0, m, s => (m, s)
  | count + 1, m, s =>
    let (sidLen, s1) := readOver 4 0 s
    let (sid, s2) := readStr sidLen s1
    let (uid, s3) := readOver 4 0 s2
    readSessions count (mapSet m sid uid) s3

/-- `Database::deserialize(in)` on a stream holding `input`, started in state `db`. A bad
magic number throws before anything is assigned; the user containers are rebuilt from
empty, the episode list is cleared, the sessions are added to those already present. -/
def deserialize (db : Database) (input : List Nat) : Outcome Database := do
  let (magic, s) ← readFresh 4 ⟨input, false⟩
  if magic ≠ MAGIC then Outcome.thrown
  else
    let (nextUserId, s) := readOver 4 db.nextUserId s
    let (userCount, s) ← readFresh 4 s
    let (t, s) ← readUsers userCount ⟨[], [], BTree.new 5⟩ s
    let (episodeCount, s) ← readFresh 4 s
    let (episodes, s) ← readEpisodes episodeCount [] s
    let (sessionCount, s) := readOver 4 0 s
    let (sessions, _) := readSessions sessionCount db.sessions s
    pure { nextUserId := nextUserId, userIdIndex := t.userIdIndex,
           emailToUserId := t.emailToUserId, sessions := sessions, users := t.users,
           episodes := episodes }

/-- `Database::load()`: `file` is the content of the file, `none` when it cannot be
opened. Returns the `bool` result and the state left behind; `none` when the run reads an
indeterminate value. -/
def load (db : Database) (file : Option (List Nat)) : Option (Bool × Database) :=
  match file with
  | none => some (false, db)
  | some input =>
    match deserialize db input with
    | Outcome.ok db1 => some (true, db1)
    | Outcome.thrown => some (false, db)
    | Outcome.undefined => none

/-! ### Association lists -/

theorem mapFind_mapSet (m : List (Str × Nat)) (k : Str) (v : Nat) (k1 : Str) :
    mapFind (mapSet m k v) k1 = if k = k1 then some v else mapFind m k1 := by
  induction m with
  | nil => simp [mapSet, mapFind]
  | cons p rest ih =>
    obtain ⟨a, b⟩ := p
    simp only [mapSet]
    by_cases hak : a = k
    · subst hak
      simp only [if_true, mapFind]
      by_cases h1 : a = k1 <;> simp [h1]
    · simp only [if_neg hak, mapFind, ih]
      by_cases h1 : a = k1
      · have : ¬ k = k1 := fun h => hak (h1.trans h.symm)
        simp [h1, this]
      · simp [h1]

theorem mapFind_eq_none_iff (m : List (Str × Nat)) (k : Str) :
    mapFind m k = none ↔ k ∉ m.map Prod.fst := by
  induction m with
  | nil => simp [mapFind]
  | cons p rest ih =>
    obtain ⟨a, b⟩ := p
    simp only [mapFind, List.map_cons, List.mem_cons, not_or]
    by_cases h : a = k
    · simp [h]
    · simp only [if_neg h, ih]
      exact ⟨fun h2 => ⟨fun h3 => h h3.symm, h2⟩, fun h2 => h2.2⟩

theorem mapSet_of_not_mem (m : List (Str × Nat)) (k : Str) (v : Nat)
    (h : k ∉ m.map Prod.fst) : mapSet m k v = m ++ [(k, v)] := by
  induction m with
  | nil => rfl
  | cons p rest ih =>
    obtain ⟨a, b⟩ := p
    simp only [List.map_cons, List.mem_cons, not_or] at h
    have hne : ¬ a = k := fun h2 => h.1 h2.symm
    simp only [mapSet, if_neg hne, ih h.2, List.cons_append]

theorem mapSet_keys (m : List (Str × Nat)) (k : Str) (v : Nat) :
    (mapSet m k v).map Prod.fst
      = if k ∈ m.map Prod.fst then m.map Prod.fst else m.map Prod.fst ++ [k] := by
  induction m with
  | nil => simp [mapSet]
  | cons p rest ih =>
    obtain ⟨a, b⟩ := p
    by_cases hak : a = k
    · subst hak
      simp [mapSet]
    · have hka : ¬ k = a := fun h => hak h.symm
      simp only [mapSet, if_neg hak, List.map_cons, ih, List.mem_cons, hka, false_or]
      split <;> simp

theorem mapSet_nodup (m : List (Str × Nat)) (k : Str) (v : Nat)
    (h : (m.map Prod.fst).Nodup) : ((mapSet m k v).map Prod.fst).Nodup := by
  rw [mapSet_keys]
  split
  · exact h
  · rename_i hk
    exact List.Nodup.append h (List.nodup_singleton k) (by
      intro a ha hb
      rw [List.mem_singleton] at hb
      exact hk (hb ▸ ha))

theorem mapErase_nodup (m : List (Str × Nat)) (k : Str)
    (h : (m.map Prod.fst).Nodup) : ((mapErase m k).map Prod.fst).Nodup := by
  unfold mapErase
  exact (List.Nodup.sublist (List.Sublist.map _ (List.filter_sublist _)) h)

/-- Re-inserting the entries of an association list with distinct keys, in order, into a
map that holds none of them appends them. -/
theorem foldl_mapSet_append :
    ∀ (l acc : List (Str × Nat)), ((acc ++ l).map Prod.fst).Nodup →
      l.foldl (fun m p => mapSet m p.1 p.2) acc = acc ++ l
  | [], acc, _ => by simp
  | p :: l, acc, h => by
    have hp : p.1 ∉ acc.map Prod.fst := by
      intro hmem
      rw [List.map_append, List.map_cons] at h
      have := (List.nodup_append.1 h).2.2
      exact this hmem (List.mem_cons_self _ _)
    rw [List.foldl_cons, mapSet_of_not_mem acc p.1 p.2 hp]
    have h2 : ((acc ++ [(p.1, p.2)] ++ l).map Prod.fst).Nodup := by
      simpa using h
    rw [foldl_mapSet_append l (acc ++ [(p.1, p.2)]) h2]
    simp

end Database

namespace BTree

theorem search_of_mem {t : BTree} {d : Nat} (hinv : Inv t d) {k : Nat} {v : Int}
    (hmem : (k, v) ∈ inorder t.root) (hnd : ((inorder t.root).map Prod.fst).Nodup) :
    t.search k = some v := by
  obtain ⟨r, hr, hres⟩ := search_spec k t.root.height t.root (Nat.le_refl _) hinv.wf hinv.sorted
  rw [search, hr]
  rcases hres with hres | ⟨-, hres⟩
  · have := List.inj_on_of_nodup_map hnd hres hmem rfl
    rw [Prod.mk.injEq] at this
    rw [this.2]
  · exact absurd hmem (hres v)

theorem search_of_not_mem {t : BTree} {d : Nat} (hinv : Inv t d) {k : Nat}
    (hmem : k ∉ (inorder t.root).map Prod.fst) : t.search k = some (-1) := by
  obtain ⟨r, hr, hres⟩ := search_spec k t.root.height t.root (Nat.le_refl _) hinv.wf hinv.sorted
  rw [search, hr]
  rcases hres with hres | ⟨h1, -⟩
  · exact absurd (List.mem_map_of_mem Prod.fst hres) hmem
  · rw [h1]

end BTree

namespace Database

/-! ### Invariant of the stores built by `registerUser` -/

/-- The user loop body applied to a list of users, in order. -/
def addUsers : UserTables → List User → Option UserTables
  | t, [] => some t
  | t, u :: us =>
    match addUser t u with
    | none => none
    | some t1 => addUsers t1 us

/-- The `(id, position)` pairs handed to the id index for users stored from position `k`
on (`users_.size() - 1` converted to `int`). -/
def indexEntriesFrom : Nat → List User → List (Nat × Int)
  | _, [] => []
  | k, u :: us => (u.id, toInt32 k) :: indexEntriesFrom (k + 1) us

theorem indexEntriesFrom_append (k : Nat) (us : List User) (u : User) :
    indexEntriesFrom k (us ++ [u]) = indexEntriesFrom k us ++ [(u.id, toInt32 (k + us.length))] := by
  induction us generalizing k with
  | nil => simp [indexEntriesFrom]
  | cons a l ih =>
    rw [List.cons_append, indexEntriesFrom, indexEntriesFrom, ih (k + 1), List.length_cons,
      List.cons_append]
    rw [show k + 1 + l.length = k + (l.length + 1) by omega]

theorem mem_indexEntriesFrom {k : Nat} {us : List User} {p : Nat × Int} :
    p ∈ indexEntriesFrom k us ↔ ∃ i u, us[i]? = some u ∧ p = (u.id, toInt32 (k + i)) := by
  induction us generalizing k with
  | nil => simp [indexEntriesFrom]
  | cons a l ih =>
    simp only [indexEntriesFrom, List.mem_cons, ih]
    constructor
    · rintro (h | ⟨i, u, hu, hp⟩)
      · exact ⟨0, a, by simp, by simpa using h⟩
      · exact ⟨i + 1, u, by simpa using hu, by rw [hp]; congr 2; omega⟩
    · rintro ⟨i, u, hu, hp⟩
      cases i with
      | zero =>
        left
        simp only [List.getElem?_cons_zero, Option.some.injEq] at hu
        rw [hp, hu]; simp
      | succ j =>
        right
        exact ⟨j, u, by simpa using hu, by rw [hp]; congr 2; omega⟩

theorem addUsers_append (t : UserTables) (us : List User) (u : User) :
    addUsers t (us ++ [u])
      = match addUsers t us with
        | none => none
        | some t1 => addUser t1 u := by
  induction us generalizing t with
  | nil =>
    simp only [List.nil_append, addUsers]
    cases addUser t u <;> rfl
  | cons a l ih =>
    simp only [List.cons_append, addUsers]
    cases addUser t a with
    | none => rfl
    | some t1 => exact ih t1

/-- Invariant of the stores built by the public operations. -/
structure DbInv (db : Database) : Prop where
  tables : addUsers ⟨[], [], BTree.new 5⟩ db.users
    = some ⟨db.users, db.emailToUserId, db.userIdIndex⟩
  ids : ∀ i u, db.users[i]? = some u → u.id = (i + 1) % 2 ^ 32
  next : db.nextUserId = (db.users.length + 1) % 2 ^ 32
  emap : db.emailToUserId = db.users.map (fun u => (u.email, u.id))
  emails : (db.users.map (fun u => u.email)).Nodup
  sess : (db.sessions.map Prod.fst).Nodup
  eps : db.episodes.length ≤ 10
  index : ∃ d, BTree.Inv db.userIdIndex d
    ∧ List.Perm (BTree.inorder db.userIdIndex.root) (indexEntriesFrom 0 db.users)

theorem new_DbInv : DbInv Database.new := by
  refine ⟨rfl, ?_, rfl, rfl, by simp [Database.new], by simp [Database.new],
    by simp [Database.new], ?_⟩
  · intro i u h; simp [Database.new] at h
  · refine ⟨0, BTree.new_Inv (by decide), ?_⟩
    simp [Database.new, BTree.new, BTree.inorder_mk, BTree.interleave_nil_right,
      indexEntriesFrom]

theorem emap_keys {db : Database} (h : DbInv db) :
    db.emailToUserId.map Prod.fst = db.users.map (fun u => u.email) := by
  rw [h.emap, List.map_map]; rfl

theorem registerUser_existing (sha256 : Str → Str) {db : Database} (hinv : DbInv db)
    (now : Nat) (email username password : Str)
    (he : email ∈ db.users.map (fun u => u.email)) :
    registerUser sha256 db now email username password = some (0, db) := by
  unfold registerUser
  cases hf : mapFind db.emailToUserId email with
  | some id => rfl
  | none =>
    rw [mapFind_eq_none_iff, emap_keys hinv] at hf
    exact absurd he hf

theorem registerUser_fresh (sha256 : Str → Str) {db : Database} (hinv : DbInv db)
    (now : Nat) (email username password : Str)
    (he : email ∉ db.users.map (fun u => u.email)) :
    ∃ db1, registerUser sha256 db now email username password = some (db.nextUserId, db1)
      ∧ DbInv db1
      ∧ db1.users = db.users ++ [⟨db.nextUserId, email, username, sha256 password, now⟩]
      ∧ db1.nextUserId = (db.nextUserId + 1) % 2 ^ 32
      ∧ db1.sessions = db.sessions ∧ db1.episodes = db.episodes := by
  obtain ⟨d, hbt, hperm⟩ := hinv.index
  have hf : mapFind db.emailToUserId email = none := by
    rw [mapFind_eq_none_iff, emap_keys hinv]; exact he
  obtain ⟨t1, hins, -, hinv1, hrel⟩ := BTree.insert_spec hbt db.nextUserId
    (toInt32 ((db.users
      ++ [(⟨db.nextUserId, email, username, sha256 password, now⟩ : User)]).length - 1))
  unfold registerUser
  simp only [hf]
  rw [hins]
  refine ⟨_, rfl, ?_, rfl, rfl, rfl, rfl⟩
  refine DbInv.mk ?_ ?_ ?_ ?_ ?_ hinv.sess hinv.eps ?_
  · simp only [addUsers_append, hinv.tables, addUser, hins]
  · intro i u hu
    by_cases hi : i < db.users.length
    · rw [List.getElem?_append_left hi] at hu
      exact hinv.ids i u hu
    · rw [List.getElem?_append_right (by omega)] at hu
      have hi0 : i - db.users.length = 0 := by
        by_contra hne
        rw [List.getElem?_eq_none (by simp; omega)] at hu
        cases hu
      rw [hi0] at hu
      simp only [List.getElem?_cons_zero, Option.some.injEq] at hu
      rw [← hu]
      simp only
      rw [hinv.next]
      congr 2
      omega
  · simp only [List.length_append, List.length_singleton, hinv.next]
    omega
  · simp only
    rw [hinv.emap, mapSet_of_not_mem _ _ _ (by rw [List.map_map]; exact he), List.map_append]
    rfl
  · rw [List.map_append]
    exact List.Nodup.append hinv.emails (List.nodup_singleton _) (by
      intro a ha hb
      simp only [List.map_cons, List.map_nil, List.mem_singleton] at hb
      exact he (hb ▸ ha))
  · refine ⟨_, hinv1, ?_⟩
    simp only
    rw [indexEntriesFrom_append]
    refine (hrel.perm).trans ?_
    have h1 : (db.users
        ++ [(⟨db.nextUserId, email, username, sha256 password, now⟩ : User)]).length - 1
        = 0 + db.users.length := by simp
    rw [h1]
    exact (List.perm_append_singleton _ _).symm.trans (List.Perm.append_right _ hperm)

/-! ### Lookups -/

theorem toInt32_of_lt {n : Nat} (h : n < 2 ^ 31) : toInt32 n = (n : Int) := by
  unfold toInt32
  have : n % 2 ^ 32 = n := Nat.mod_eq_of_lt (by omega)
  rw [this, if_pos h]

theorem indexEntries_keys (k : Nat) (us : List User) :
    (indexEntriesFrom k us).map Prod.fst = us.map (fun u => u.id) := by
  induction us generalizing k with
  | nil => rfl
  | cons a l ih => simp [indexEntriesFrom, ih]

theorem ids_nodup {db : Database} (hinv : DbInv db) (hn : db.users.length < 2 ^ 32) :
    (db.users.map (fun u => u.id)).Nodup := by
  rw [List.nodup_iff_getElem?_ne_getElem?]
  intro i j hij hj
  rw [List.length_map] at hj
  have hi : i < db.users.length := by omega
  rw [List.getElem?_map, List.getElem?_map, List.getElem?_eq_getElem hi,
    List.getElem?_eq_getElem hj]
  simp only [Option.map_some', ne_eq, Option.some.injEq]
  rw [hinv.ids i _ (List.getElem?_eq_getElem hi), hinv.ids j _ (List.getElem?_eq_getElem hj),
    Nat.mod_eq_of_lt (by omega), Nat.mod_eq_of_lt (by omega)]
  omega

theorem search_user {db : Database} (hinv : DbInv db) (hn : db.users.length < 2 ^ 32)
    {i : Nat} {u : User} (hu : db.users[i]? = some u) :
    db.userIdIndex.search u.id = some (toInt32 i) := by
  obtain ⟨d, hbt, hperm⟩ := hinv.index
  apply BTree.search_of_mem hbt
  · rw [hperm.mem_iff, mem_indexEntriesFrom]
    exact ⟨i, u, hu, by rw [Nat.zero_add]⟩
  · rw [(hperm.map Prod.fst).nodup_iff, indexEntries_keys]
    exact ids_nodup hinv hn

theorem search_no_user {db : Database} (hinv : DbInv db) {id : Nat}
    (hid : ∀ u ∈ db.users, u.id ≠ id) : db.userIdIndex.search id = some (-1) := by
  obtain ⟨d, hbt, hperm⟩ := hinv.index
  apply BTree.search_of_not_mem hbt
  rw [(hperm.map Prod.fst).mem_iff, indexEntries_keys]
  intro hmem
  obtain ⟨u, hu, he⟩ := List.mem_map.1 hmem
  exact hid u hu he

theorem getUserById_user {db : Database} (hinv : DbInv db) (hn : db.users.length < 2 ^ 31)
    {i : Nat} {u : User} (hu : db.users[i]? = some u) : getUserById db u.id = some (some u) := by
  have hi : i < db.users.length := (List.getElem?_eq_some_iff.1 hu).1
  unfold getUserById
  rw [search_user hinv (by omega) hu, toInt32_of_lt (by omega), toInt32_of_lt hn]
  simp only [Int.toNat_ofNat, hu]
  rw [if_pos ⟨by omega, by omega⟩]

theorem getUserById_none {db : Database} (hinv : DbInv db) {id : Nat}
    (hid : ∀ u ∈ db.users, u.id ≠ id) : getUserById db id = some none := by
  unfold getUserById
  rw [search_no_user hinv hid]
  simp

theorem mapFind_map_user {us : List User} (hnd : (us.map (fun u => u.email)).Nodup)
    {u : User} (hu : u ∈ us) :
    mapFind (us.map (fun u => (u.email, u.id))) u.email = some u.id := by
  induction us with
  | nil => cases hu
  | cons a l ih =>
    simp only [List.map_cons, List.nodup_cons] at hnd
    simp only [List.map_cons, mapFind]
    rcases List.mem_cons.1 hu with h | h
    · rw [h]; simp
    · have hne : ¬ a.email = u.email := by
        intro he
        exact hnd.1 (he ▸ List.mem_map_of_mem (fun u => u.email) h)
      rw [if_neg hne]
      exact ih hnd.2 h

theorem getUserByEmail_user {db : Database} (hinv : DbInv db) (hn : db.users.length < 2 ^ 31)
    {u : User} (hu : u ∈ db.users) : getUserByEmail db u.email = some (some u) := by
  obtain ⟨i, hi⟩ := List.getElem?_of_mem hu
  unfold getUserByEmail
  rw [hinv.emap, mapFind_map_user hinv.emails hu]
  exact getUserById_user hinv hn hi

theorem getUserByEmail_none {db : Database} (hinv : DbInv db) {email : Str}
    (he : email ∉ db.users.map (fun u => u.email)) : getUserByEmail db email = some none := by
  unfold getUserByEmail
  have : mapFind db.emailToUserId email = none := by
    rw [mapFind_eq_none_iff, emap_keys hinv]; exact he
  rw [this]

theorem mapFind_map_none {us : List User} {email : Str}
    (he : email ∉ us.map (fun u => u.email)) :
    mapFind (us.map (fun u => (u.email, u.id))) email = none := by
  rw [mapFind_eq_none_iff, List.map_map]; exact he

/-- The user stored under an email, if any. -/
def userOfEmail (db : Database) (email : Str) : Option User :=
  db.users.find? (fun u => decide (u.email = email))

theorem authenticateUser_spec (sha256 : Str → Str) {db : Database} (hinv : DbInv db)
    (hn : db.users.length < 2 ^ 31) (email password : Str) :
    authenticateUser sha256 db email password
      = some (match userOfEmail db email with
          | some u => if sha256 password = u.passwordHash then u.id else 0
          | none => 0) := by
  unfold authenticateUser userOfEmail
  cases hf : db.users.find? (fun u => decide (u.email = email)) with
  | none =>
    have he : email ∉ db.users.map (fun u => u.email) := by
      intro hmem
      obtain ⟨u, hu, hue⟩ := List.mem_map.1 hmem
      have := List.find?_eq_none.1 hf u hu
      simp at this
      exact this hue
    rw [hinv.emap, mapFind_map_none he]
  | some u =>
    have hu : u ∈ db.users := List.mem_of_find?_eq_some hf
    have hue : u.email = email := by
      have := List.find?_some hf
      simpa using this
    obtain ⟨i, hi⟩ := List.getElem?_of_mem hu
    rw [hinv.emap, ← hue, mapFind_map_user hinv.emails hu]
    simp only [getUserById_user hinv hn hi]
    split <;> rfl

/-! ### Runs of operations -/

/-- A public operation of the Store that changes it, with its arguments (`now` is the
clock reading taken by `registerUser`). -/
inductive Op where
  | register (email username password : Str) (now : Nat)
  | createSession (sessionId : Str) (userId : Nat)
  | removeSession (sessionId : Str)
  | saveEpisode (episodeNumber startTime endTime : Nat)

/-- The state left by one operation. -/
def applyOp (sha256 : Str → Str) (db : Database) : Op → Option Database
  | Op.register email username password now =>
    match registerUser sha256 db now email username password with
    | none => none
    | some r => some r.2
  | Op.createSession sessionId userId => some (createSession db sessionId userId)
  | Op.removeSession sessionId => some (removeSession db sessionId)
  | Op.saveEpisode episodeNumber startTime endTime =>
    some (saveEpisode db episodeNumber startTime endTime)

/-- The state left by a sequence of operations. -/
def runOps (sha256 : Str → Str) : Database → List Op → Option Database
  | db, [] => some db
  | db, op :: rest =>
    match applyOp sha256 db op with
    | none => none
    | some db1 => runOps sha256 db1 rest

/-- The arguments of one `registerUser` call and its clock reading. -/
structure Reg where
  email : Str
  username : Str
  password : Str
  now : Nat

/-- A sequence of `registerUser` calls: the final state and the returned ids, in call
order. -/
def runRegs (sha256 : Str → Str) : Database → List Reg → Option (Database × List Nat)
  | db, [] => some (db, [])
  | db, r :: rest =>
    match registerUser sha256 db r.now r.email r.username r.password with
    | none => none
    | some (id, db1) =>
      match runRegs sha256 db1 rest with
      | none => none
      | some (db2, ids) => some (db2, id :: ids)

theorem registerUser_inv (sha256 : Str → Str) {db : Database} (hinv : DbInv db) (now : Nat)
    (email username password : Str) :
    ∃ id db1, registerUser sha256 db now email username password = some (id, db1)
      ∧ DbInv db1 := by
  by_cases he : email ∈ db.users.map (fun u => u.email)
  · exact ⟨0, db, registerUser_existing sha256 hinv now email username password he, hinv⟩
  · obtain ⟨db1, h1, hinv1, -⟩ := registerUser_fresh sha256 hinv now email username password he
    exact ⟨_, db1, h1, hinv1⟩

theorem applyOp_inv (sha256 : Str → Str) {db : Database} (hinv : DbInv db) (op : Op) :
    ∃ db1, applyOp sha256 db op = some db1 ∧ DbInv db1 := by
  cases op with
  | register email username password now =>
    obtain ⟨id, db1, h1, hinv1⟩ := registerUser_inv sha256 hinv now email username password
    exact ⟨db1, by simp only [applyOp, h1], hinv1⟩
  | createSession sessionId userId =>
    exact ⟨_, rfl, ⟨hinv.tables, hinv.ids, hinv.next, hinv.emap, hinv.emails,
      mapSet_nodup _ _ _ hinv.sess, hinv.eps, hinv.index⟩⟩
  | removeSession sessionId =>
    exact ⟨_, rfl, ⟨hinv.tables, hinv.ids, hinv.next, hinv.emap, hinv.emails,
      mapErase_nodup _ _ hinv.sess, hinv.eps, hinv.index⟩⟩
  | saveEpisode episodeNumber startTime endTime =>
    refine ⟨_, rfl, ⟨hinv.tables, hinv.ids, hinv.next, hinv.emap, hinv.emails,
      hinv.sess, ?_, hinv.index⟩⟩
    have := hinv.eps
    simp only [saveEpisode]
    split
    · simp only [List.length_drop, List.length_append, List.length_singleton]
      omega
    · omega

theorem runOps_inv (sha256 : Str → Str) :
    ∀ (ops : List Op) (db : Database), DbInv db →
      ∃ db1, runOps sha256 db ops = some db1 ∧ DbInv db1
  | [], db, hinv => ⟨db, rfl, hinv⟩
  | op :: rest, db, hinv => by
    obtain ⟨db1, h1, hinv1⟩ := applyOp_inv sha256 hinv op
    obtain ⟨db2, h2, hinv2⟩ := runOps_inv sha256 rest db1 hinv1
    exact ⟨db2, by simp only [runOps, h1, h2], hinv2⟩

theorem runOps_DbInv {sha256 : Str → Str} {ops : List Op} {db : Database}
    (h : runOps sha256 Database.new ops = some db) : DbInv db := by
  obtain ⟨db1, h1, hinv1⟩ := runOps_inv sha256 ops Database.new new_DbInv
  rw [h] at h1
  cases h1
  exact hinv1

/-- The record that a successful registration stores. -/
def Reg.user (sha256 : Str → Str) (r : Reg) (id : Nat) : User :=
  ⟨id, r.email, r.username, sha256 r.password, r.now⟩

theorem runRegs_spec (sha256 : Str → Str) :
    ∀ (regs : List Reg) (db0 : Database), DbInv db0 →
      ∃ db ids added, runRegs sha256 db0 regs = some (db, ids) ∧ DbInv db
        ∧ ids.length = regs.length
        ∧ db.users = db0.users ++ added ∧ added.length ≤ regs.length
        ∧ (∀ u ∈ added, u.id ∈ ids ∧ ∃ r ∈ regs, u.email = r.email)
        ∧ (∀ (k : Nat) (r : Reg) (id : Nat), regs[k]? = some r → ids[k]? = some id →
            id ≠ 0 → Reg.user sha256 r id ∈ db.users)
        ∧ (∀ r ∈ regs, r.email ∈ db.users.map (fun u => u.email))
  | [], db0, hinv => ⟨db0, [], [], rfl, hinv, rfl, by simp, by simp, by simp, by simp, by simp⟩
  | r :: rest, db0, hinv => by
    by_cases he : r.email ∈ db0.users.map (fun u => u.email)
    · have h1 := registerUser_existing sha256 hinv r.now r.email r.username r.password he
      obtain ⟨db, ids, added, h2, hinv2, hlen, husers, hadd, hnew, hreg, hem⟩ :=
        runRegs_spec sha256 rest db0 hinv
      refine ⟨db, 0 :: ids, added, by simp only [runRegs, h1, h2], hinv2, by simp [hlen],
        husers, by simp; omega, ?_, ?_, ?_⟩
      · intro u hu
        obtain ⟨h3, r1, hr1, h4⟩ := hnew u hu
        exact ⟨List.mem_cons_of_mem _ h3, r1, List.mem_cons_of_mem _ hr1, h4⟩
      · intro k r1 id hr1 hid hne
        cases k with
        | zero =>
          simp only [List.getElem?_cons_zero, Option.some.injEq] at hid
          exact absurd hid.symm hne
        | succ j =>
          simp only [List.getElem?_cons_succ] at hr1 hid
          exact hreg j r1 id hr1 hid hne
      · intro r1 hr1
        rcases List.mem_cons.1 hr1 with h | h
        · rw [h, husers, List.map_append]
          exact List.mem_append_left _ he
        · exact hem r1 h
    · obtain ⟨db1, h1, hinv1, husers1, -, -, -⟩ :=
        registerUser_fresh sha256 hinv r.now r.email r.username r.password he
      obtain ⟨db, ids, added, h2, hinv2, hlen, husers, hadd, hnew, hreg, hem⟩ :=
        runRegs_spec sha256 rest db1 hinv1
      have hmem : Reg.user sha256 r db0.nextUserId ∈ db.users := by
        rw [husers, husers1]
        simp [Reg.user]
      refine ⟨db, db0.nextUserId :: ids,
        Reg.user sha256 r db0.nextUserId :: added, by simp only [runRegs, h1, h2], hinv2,
        by simp [hlen], ?_, by simp; omega, ?_, ?_, ?_⟩
      · rw [husers, husers1]; simp [Reg.user]
      · intro u hu
        rcases List.mem_cons.1 hu with h | h
        · rw [h]
          exact ⟨List.mem_cons_self _ _, r, List.mem_cons_self _ _, rfl⟩
        · obtain ⟨h3, r1, hr1, h4⟩ := hnew u h
          exact ⟨List.mem_cons_of_mem _ h3, r1, List.mem_cons_of_mem _ hr1, h4⟩
      · intro k r1 id hr1 hid hne
        cases k with
        | zero =>
          simp only [List.getElem?_cons_zero, Option.some.injEq] at hid hr1
          rw [← hid, ← hr1]
          exact hmem
        | succ j =>
          simp only [List.getElem?_cons_succ] at hr1 hid
          exact hreg j r1 id hr1 hid hne
      · intro r1 hr1
        rcases List.mem_cons.1 hr1 with h | h
        · rw [h]
          exact List.mem_map_of_mem (fun u => u.email) hmem
        · exact hem r1 h

/-! ### The Store claims on registration and lookup -/

/-- C6: in a Store reached from a fresh one by public operations, `registerUser` with an
email that some stored user already has returns 0 and leaves the whole Store as it was
(user list, email index, id index, `nextUserId`, sessions, episodes). -/
theorem c6_registerUser_duplicate_email (sha256 : Str → Str) (ops : List Op) (db : Database)
    (hrun : runOps sha256 Database.new ops = some db) (now : Nat)
    (email username password : Str) (he : email ∈ db.users.map (fun u => u.email)) :
    registerUser sha256 db now email username password = some (0, db) :=
  registerUser_existing sha256 (runOps_DbInv hrun) now email username password he

/-- Witness of C6: the email `[1]` is registered, then registered again. -/
theorem c6_registerUser_duplicate_email_witness :
    ∃ db, runOps (fun p => p) Database.new [Op.register [1] [2] [3] 5] = some db
      ∧ [1] ∈ db.users.map (fun u => u.email)
      ∧ registerUser (fun p => p) db 9 [1] [7] [8] = some (0, db) := by
  obtain ⟨db1, h1, -, husers, -⟩ := registerUser_fresh (fun p => p) new_DbInv 5 [1] [2] [3]
    (by simp [Database.new])
  have hrun : runOps (fun p => p) Database.new [Op.register [1] [2] [3] 5] = some db1 := by
    simp only [runOps, applyOp, h1]
  have hmem : [1] ∈ db1.users.map (fun u => u.email) := by
    rw [husers]; simp [Database.new]
  exact ⟨db1, hrun, hmem,
    c6_registerUser_duplicate_email (fun p => p) [Op.register [1] [2] [3] 5] db1 hrun 9
      [1] [7] [8] hmem⟩

/-- C7 (amended): any sequence of `registerUser` calls on a fresh Store returns, with at
most one stored user per call; and as long as fewer than `2 ^ 31` users are stored, for
every successful call (returned id not 0) `getUserById(id)` and `getUserByEmail(email)`
both return the record with exactly that id, email, username, `sha256(password)` and
registration time, `getUserById` of an id that no call returned (or of 0) returns no user,
and `getUserByEmail` of an email that no call registered returns no user. -/
theorem c7_lookups_after_registrations (sha256 : Str → Str) (regs : List Reg) :
    ∃ db ids, runRegs sha256 Database.new regs = some (db, ids)
      ∧ ids.length = regs.length ∧ db.users.length ≤ regs.length
      ∧ (db.users.length < 2 ^ 31 →
          (∀ (k : Nat) (r : Reg) (id : Nat), regs[k]? = some r → ids[k]? = some id → id ≠ 0 →
              getUserById db id = some (some (Reg.user sha256 r id))
                ∧ getUserByEmail db r.email = some (some (Reg.user sha256 r id)))
          ∧ (∀ id, id ∉ ids ∨ id = 0 → getUserById db id = some none)
          ∧ (∀ email, (∀ r ∈ regs, r.email ≠ email) → getUserByEmail db email = some none)) := by
  obtain ⟨db, ids, added, h2, hinv, hlen, husers, hadd, hnew, hreg, -⟩ :=
    runRegs_spec sha256 regs Database.new new_DbInv
  have husers2 : db.users = added := by rw [husers]; rfl
  refine ⟨db, ids, h2, hlen, by rw [husers2]; exact hadd, ?_⟩
  intro hn
  refine ⟨?_, ?_, ?_⟩
  · intro k r id hr hid hne
    have hmem := hreg k r id hr hid hne
    obtain ⟨i, hi⟩ := List.getElem?_of_mem hmem
    exact ⟨getUserById_user hinv hn hi, getUserByEmail_user hinv hn hmem⟩
  · intro id hid
    apply getUserById_none hinv
    intro u hu hue
    rcases hid with hid | hid
    · rw [husers2] at hu
      exact hid (hue ▸ (hnew u hu).1)
    · obtain ⟨i, hi⟩ := List.getElem?_of_mem hu
      have h1 := hinv.ids i u hi
      have h3 : i < db.users.length := (List.getElem?_eq_some_iff.1 hi).1
      rw [Nat.mod_eq_of_lt (by omega)] at h1
      omega
  · intro email he
    apply getUserByEmail_none hinv
    intro hmem
    obtain ⟨u, hu, hue⟩ := List.mem_map.1 hmem
    rw [husers2] at hu
    obtain ⟨-, r, hr, h4⟩ := hnew u hu
    exact he r hr (h4.symm.trans hue)

/-- Witness of C7: two registrations and a repeated email. -/
theorem c7_lookups_after_registrations_witness :
    ∃ db ids, runRegs (fun p => p) Database.new
        [⟨[1], [2], [3], 5⟩, ⟨[4], [5], [6], 6⟩, ⟨[1], [7], [8], 7⟩] = some (db, ids)
      ∧ db.users.length < 2 ^ 31
      ∧ (∀ id, id ∉ ids ∨ id = 0 → getUserById db id = some none) := by
  obtain ⟨db, ids, h1, -, hle, himp⟩ := c7_lookups_after_registrations (fun p => p)
    [⟨[1], [2], [3], 5⟩, ⟨[4], [5], [6], 6⟩, ⟨[1], [7], [8], 7⟩]
  have hn : db.users.length < 2 ^ 31 := by
    simp only [List.length_cons, List.length_nil] at hle
    omega
  exact ⟨db, ids, h1, hn, (himp hn).2.1⟩

/-- C8 (amended): in a Store reached from a fresh one by public operations and holding
fewer than `2 ^ 31` users, `authenticateUser(email, password)` returns the id of the user
stored under `email` when there is one and `sha256(password)` equals its stored hash, and
0 in every other case (no such user, or another hash). It computes a value only: no member
of the Store is assigned. -/
theorem c8_authenticateUser_result (sha256 : Str → Str) (ops : List Op) (db : Database)
    (hrun : runOps sha256 Database.new ops = some db) (hn : db.users.length < 2 ^ 31)
    (email password : Str) :
    authenticateUser sha256 db email password
      = some (match userOfEmail db email with
          | some u => if sha256 password = u.passwordHash then u.id else 0
          | none => 0) :=
  authenticateUser_spec sha256 (runOps_DbInv hrun) hn email password

/-- Witness of C8: one registered user. -/
theorem c8_authenticateUser_result_witness :
    ∃ db, runOps (fun p => p) Database.new [Op.register [1] [2] [3] 5] = some db
      ∧ db.users.length < 2 ^ 31
      ∧ authenticateUser (fun p => p) db [1] [3]
          = some (match userOfEmail db [1] with
              | some u => if (fun p => p) [3] = u.passwordHash then u.id else 0
              | none => 0) := by
  obtain ⟨db1, h1, -, husers, -⟩ := registerUser_fresh (fun p => p) new_DbInv 5 [1] [2] [3]
    (by simp [Database.new])
  have hrun : runOps (fun p => p) Database.new [Op.register [1] [2] [3] 5] = some db1 := by
    simp only [runOps, applyOp, h1]
  have hn : db1.users.length < 2 ^ 31 := by
    rw [husers]; simp [Database.new]
  exact ⟨db1, hrun, hn,
    c8_authenticateUser_result (fun p => p) [Op.register [1] [2] [3] 5] db1 hrun hn [1] [3]⟩

/-! ### A Store holding `2 ^ 31` users -/

/-- `n` registrations with pairwise distinct emails (`i` zero bytes for the `i`-th), empty
username and password, clock reading 0. -/
def bigRegs (n : Nat) : List Reg :=
  (List.range n).map (fun i => ⟨List.replicate i 0, [], [], 0⟩)

/-- A `registerUser` call as an operation. -/
def Reg.toOp (r : Reg) : Op := Op.register r.email r.username r.password r.now

theorem runOps_map_toOp (sha256 : Str → Str) :
    ∀ (regs : List Reg) (db : Database),
      runOps sha256 db (regs.map Reg.toOp)
        = match runRegs sha256 db regs with
          | none => none
          | some r => some r.1
  | [], db => rfl
  | r :: rest, db => by
    simp only [List.map_cons, runOps, Reg.toOp, applyOp, runRegs]
    cases h1 : registerUser sha256 db r.now r.email r.username r.password with
    | none => rfl
    | some p =>
      obtain ⟨id, db1⟩ := p
      simp only
      rw [runOps_map_toOp sha256 rest db1]
      cases runRegs sha256 db1 rest with
      | none => rfl
      | some q => rfl

theorem runRegs_fresh (sha256 : Str → Str) :
    ∀ (regs : List Reg) (db0 : Database), DbInv db0 →
      (regs.map (fun r => r.email)).Nodup →
      (∀ r ∈ regs, r.email ∉ db0.users.map (fun u => u.email)) →
      ∃ db ids, runRegs sha256 db0 regs = some (db, ids) ∧ DbInv db
        ∧ db.users.length = db0.users.length + regs.length
        ∧ (∀ u ∈ db0.users, u ∈ db.users)
        ∧ (∀ r, regs[0]? = some r →
            ids[0]? = some db0.nextUserId ∧ Reg.user sha256 r db0.nextUserId ∈ db.users)
  | [], db0, hinv, _, _ => ⟨db0, [], rfl, hinv, rfl, fun _ h => h, fun r h => by simp at h⟩
  | r :: rest, db0, hinv, hnd, hfresh => by
    have he : r.email ∉ db0.users.map (fun u => u.email) := hfresh r (List.mem_cons_self _ _)
    obtain ⟨db1, h1, hinv1, husers1, -, -, -⟩ :=
      registerUser_fresh sha256 hinv r.now r.email r.username r.password he
    simp only [List.map_cons, List.nodup_cons] at hnd
    have hfresh1 : ∀ r1 ∈ rest, r1.email ∉ db1.users.map (fun u => u.email) := by
      intro r1 hr1 hmem
      rw [husers1, List.map_append] at hmem
      rcases List.mem_append.1 hmem with h | h
      · exact hfresh r1 (List.mem_cons_of_mem _ hr1) h
      · simp only [List.map_cons, List.map_nil, List.mem_singleton] at h
        exact hnd.1 (h ▸ List.mem_map_of_mem (fun r => r.email) hr1)
    obtain ⟨db, ids, h2, hinv2, hlen, hsub, -⟩ :=
      runRegs_fresh sha256 rest db1 hinv1 hnd.2 hfresh1
    have hmem : Reg.user sha256 r db0.nextUserId ∈ db.users := by
      apply hsub
      rw [husers1]
      simp [Reg.user]
    refine ⟨db, db0.nextUserId :: ids, by simp only [runRegs, h1, h2], hinv2, ?_, ?_, ?_⟩
    · rw [hlen, husers1]
      simp only [List.length_append, List.length_cons, List.length_nil]
      omega
    · intro u hu
      apply hsub
      rw [husers1]
      exact List.mem_append_left _ hu
    · intro r1 hr1
      simp only [List.getElem?_cons_zero, Option.some.injEq] at hr1
      rw [← hr1]
      exact ⟨by simp, hmem⟩

theorem bigRegs_store (sha256 : Str → Str) (n : Nat) (hn : 0 < n) :
    ∃ db ids, runRegs sha256 Database.new (bigRegs n) = some (db, ids) ∧ DbInv db
      ∧ db.users.length = n ∧ ids[0]? = some 1
      ∧ (⟨1, [], [], sha256 [], 0⟩ : User) ∈ db.users := by
  have hnd : ((bigRegs n).map (fun r => r.email)).Nodup := by
    unfold bigRegs
    rw [List.map_map]
    apply List.Nodup.map _ (List.nodup_range n)
    intro i j hij
    have := congrArg List.length hij
    simpa using this
  obtain ⟨db, ids, h1, hinv, hlen, -, hfirst⟩ :=
    runRegs_fresh sha256 (bigRegs n) Database.new new_DbInv hnd (by simp [Database.new])
  have h0 : (bigRegs n)[0]? = some ⟨[], [], [], 0⟩ := by
    unfold bigRegs
    rw [List.getElem?_map, List.getElem?_range hn]
    rfl
  obtain ⟨hid, hmem⟩ := hfirst _ h0
  refine ⟨db, ids, h1, hinv, ?_, hid, hmem⟩
  rw [hlen]
  simp [Database.new, bigRegs]

theorem toInt32_ge (k : Nat) : -(2 : Int) ^ 31 ≤ toInt32 k := by
  unfold toInt32
  have : k % 2 ^ 32 < 2 ^ 32 := Nat.mod_lt _ (by norm_num)
  split <;> omega

theorem toInt32_two_pow_31 : toInt32 (2 ^ 31) = -(2 : Int) ^ 31 := by
  unfold toInt32
  norm_num

theorem getUserById_overflow {db : Database} (hinv : DbInv db)
    (hn : db.users.length = 2 ^ 31) {u : User} (hu : u ∈ db.users) :
    getUserById db u.id = some none := by
  obtain ⟨i, hi⟩ := List.getElem?_of_mem hu
  unfold getUserById
  rw [search_user hinv (by rw [hn]; norm_num) hi, hn, toInt32_two_pow_31]
  have := toInt32_ge i
  simp only
  rw [if_neg (by omega)]

/-- C7 as stated fails: after `2 ^ 31` registrations with pairwise distinct emails, the
first of which returned id 1, `getUserById(1)` returns no user (`(int)users_.size()` is
negative). -/
theorem c7_counterexample :
    ∃ db ids, runRegs (fun p => p) Database.new (bigRegs (2 ^ 31)) = some (db, ids)
      ∧ ids[0]? = some 1 ∧ getUserById db 1 = some none := by
  obtain ⟨db, ids, h1, hinv, hlen, hid, hmem⟩ :=
    bigRegs_store (fun p => p) (2 ^ 31) (by norm_num)
  exact ⟨db, ids, h1, hid, getUserById_overflow hinv hlen hmem⟩

/-- C8 as stated fails: in the Store holding `2 ^ 31` users, the user with id 1 is stored
under the empty email with the hash of the empty password, yet
`authenticateUser("", "")` returns 0. -/
theorem c8_counterexample :
    ∃ db, runOps (fun p => p) Database.new ((bigRegs (2 ^ 31)).map Reg.toOp) = some db
      ∧ (⟨1, [], [], (fun p => p) [], 0⟩ : User) ∈ db.users
      ∧ authenticateUser (fun p => p) db [] [] = some 0 := by
  obtain ⟨db, ids, h1, hinv, hlen, hid, hmem⟩ :=
    bigRegs_store (fun p => p) (2 ^ 31) (by norm_num)
  refine ⟨db, by rw [runOps_map_toOp, h1], hmem, ?_⟩
  have hfind := mapFind_map_user hinv.emails hmem
  rw [← hinv.emap] at hfind
  have hget := getUserById_overflow hinv hlen hmem
  unfold authenticateUser
  simp only at hfind hget
  rw [hfind]
  simp only [hget]

/-! ### Reading back what `serialize` wrote -/

theorem length_leBytes (k n : Nat) : (leBytes k n).length = k := by
  induction k generalizing n with
  | zero => rfl
  | succ k ih => simp [leBytes, ih]

theorem leDecode_leBytes (k n : Nat) : leDecode (leBytes k n) = n % 256 ^ k := by
  induction k generalizing n with
  | zero => simp [leBytes, leDecode, Nat.mod_one]
  | succ k ih =>
    simp only [leBytes, leDecode, ih]
    rw [Nat.pow_succ, Nat.mul_comm (256 ^ k) 256, Nat.mod_mul]

theorem leDecode_le32 (n : Nat) : leDecode (le32 n) = n % 2 ^ 32 := by
  rw [le32, leDecode_leBytes]; norm_num

theorem leDecode_le64 (n : Nat) : leDecode (le64 n) = n % 2 ^ 64 := by
  rw [le64, leDecode_leBytes]; norm_num

theorem read_append (a rest : List Nat) :
    In.read ⟨a ++ rest, false⟩ a.length = (a, ⟨rest, false⟩) := by
  unfold In.read
  simp

theorem readFresh_leBytes (k n : Nat) (rest : List Nat) :
    readFresh k ⟨leBytes k n ++ rest, false⟩ = Outcome.ok (n % 256 ^ k, ⟨rest, false⟩) := by
  have h := read_append (leBytes k n) rest
  rw [length_leBytes] at h
  unfold readFresh
  rw [h]
  simp only [length_leBytes, if_true, leDecode_leBytes]

theorem readFresh_le32 (n : Nat) (rest : List Nat) :
    readFresh 4 ⟨le32 n ++ rest, false⟩ = Outcome.ok (n % 2 ^ 32, ⟨rest, false⟩) := by
  have h := readFresh_leBytes 4 n rest
  rwa [show (256 : Nat) ^ 4 = 2 ^ 32 by norm_num] at h

theorem readFresh_le64 (n : Nat) (rest : List Nat) :
    readFresh 8 ⟨le64 n ++ rest, false⟩ = Outcome.ok (n % 2 ^ 64, ⟨rest, false⟩) := by
  have h := readFresh_leBytes 8 n rest
  rwa [show (256 : Nat) ^ 8 = 2 ^ 64 by norm_num] at h

theorem readOver_le32 (old n : Nat) (rest : List Nat) :
    readOver 4 old ⟨le32 n ++ rest, false⟩ = (n % 2 ^ 32, ⟨rest, false⟩) := by
  have h := read_append (leBytes 4 n) rest
  rw [length_leBytes] at h
  unfold readOver le32
  rw [h]
  rw [length_leBytes, List.drop_eq_nil_of_le (by rw [length_leBytes]), List.append_nil,
    leDecode_leBytes]
  norm_num

theorem readStr_append (a rest : List Nat) :
    readStr a.length ⟨a ++ rest, false⟩ = (a, ⟨rest, false⟩) := by
  unfold readStr
  rw [read_append]
  simp

/-- What survives of a string written with a 32-bit length prefix. -/
def truncStr (s : Str) : Str := s.take (s.length % 2 ^ 32)

theorem truncStr_of_lt {s : Str} (h : s.length < 2 ^ 32) : truncStr s = s := by
  unfold truncStr
  rw [Nat.mod_eq_of_lt h, List.take_length]

theorem serStr_eq (s : Str) : serStr s = le32 s.length ++ truncStr s := rfl

theorem length_truncStr (s : Str) : (truncStr s).length = s.length % 2 ^ 32 := by
  unfold truncStr
  rw [List.length_take]
  exact Nat.min_eq_left (Nat.mod_le _ _)

/-- Reading a length-prefixed string back. -/
theorem readStr_serStr (s : Str) (rest : List Nat) :
    ∃ len, readFresh 4 ⟨serStr s ++ rest, false⟩
        = Outcome.ok (len, ⟨truncStr s ++ rest, false⟩)
      ∧ readStr len ⟨truncStr s ++ rest, false⟩ = (truncStr s, ⟨rest, false⟩) := by
  refine ⟨s.length % 2 ^ 32, ?_, ?_⟩
  · rw [serStr_eq, List.append_assoc]
    exact readFresh_le32 _ _
  · rw [← length_truncStr]
    exact readStr_append _ _

theorem Outcome.ok_bind {α β : Type} (a : α) (f : α → Outcome β) :
    (Outcome.ok a >>= f) = f a := rfl

theorem Outcome.pure_eq {α : Type} (a : α) : (pure a : Outcome α) = Outcome.ok a := rfl

theorem readStr_trunc (s : Str) (rest : List Nat) :
    readStr (s.length % 2 ^ 32) ⟨truncStr s ++ rest, false⟩ = (truncStr s, ⟨rest, false⟩) := by
  rw [← length_truncStr]
  exact readStr_append _ _

/-- What survives of a user record written by `serialize`. -/
def truncUser (u : User) : User :=
  ⟨u.id % 2 ^ 32, truncStr u.email, truncStr u.username, truncStr u.passwordHash,
    u.registrationTime % 2 ^ 64⟩

/-- What survives of an episode written by `serialize`. -/
def truncEpisode (e : EpisodeMetadata) : EpisodeMetadata :=
  ⟨e.episodeNumber % 2 ^ 32, e.startTimestamp % 2 ^ 64, e.endTimestamp % 2 ^ 64⟩

/-- What survives of a session written by `serialize`. -/
def truncSession (p : Str × Nat) : Str × Nat := (truncStr p.1, p.2 % 2 ^ 32)

theorem readUser_serUser (u : User) (rest : List Nat) :
    readUser ⟨serUser u ++ rest, false⟩ = Outcome.ok (truncUser u, ⟨rest, false⟩) := by
  unfold readUser
  simp only [serUser, serStr_eq, List.append_assoc, readFresh_le32, readFresh_le64,
    Outcome.ok_bind, readStr_trunc, Outcome.pure_eq, truncUser]

theorem readUsers_flatMap :
    ∀ (us : List User) (t : UserTables) (rest : List Nat),
      readUsers us.length t ⟨us.flatMap serUser ++ rest, false⟩
        = match addUsers t (us.map truncUser) with
          | some t1 => Outcome.ok (t1, ⟨rest, false⟩)
          | none => Outcome.undefined
  | [], t, rest => rfl
  | u :: us, t, rest => by
    simp only [List.length_cons, List.flatMap_cons, List.append_assoc, readUsers,
      readUser_serUser, Outcome.ok_bind, List.map_cons, addUsers]
    cases addUser t (truncUser u) with
    | none => rfl
    | some t1 => exact readUsers_flatMap us t1 rest

theorem readEpisodes_flatMap :
    ∀ (eps acc : List EpisodeMetadata) (rest : List Nat),
      readEpisodes eps.length acc ⟨eps.flatMap serEpisode ++ rest, false⟩
        = Outcome.ok (acc ++ eps.map truncEpisode, ⟨rest, false⟩)
  | [], acc, rest => by simp [readEpisodes]
  | e :: eps, acc, rest => by
    simp only [List.length_cons, List.flatMap_cons, List.append_assoc, readEpisodes, serEpisode,
      readFresh_le32, readFresh_le64, Outcome.ok_bind]
    rw [readEpisodes_flatMap eps _ rest]
    simp [truncEpisode]

theorem readSessions_flatMap :
    ∀ (l m : List (Str × Nat)) (rest : List Nat),
      readSessions l.length m ⟨l.flatMap serSession ++ rest, false⟩
        = ((l.map truncSession).foldl (fun m p => mapSet m p.1 p.2) m, ⟨rest, false⟩)
  | [], m, rest => rfl
  | p :: l, m, rest => by
    simp only [List.length_cons, List.flatMap_cons, List.append_assoc, readSessions, serSession,
      serStr_eq, readOver_le32, readStr_trunc, List.map_cons, List.foldl_cons]
    rw [readSessions_flatMap l _ rest]
    rfl

theorem MAGIC_mod : MAGIC % 2 ^ 32 = MAGIC := by norm_num [MAGIC]

theorem serialize_eq (db : Database) :
    serialize db = le32 MAGIC ++ (le32 db.nextUserId ++ (le32 db.users.length ++
      (db.users.flatMap serUser ++ (le32 db.episodes.length ++ (db.episodes.flatMap serEpisode
        ++ (le32 db.sessions.length ++ (db.sessions.flatMap serSession ++ []))))))) := by
  unfold serialize
  simp only [List.append_assoc, List.append_nil]

theorem deserialize_serialize (db0 db : Database) (hu : db.users.length < 2 ^ 32)
    (he : db.episodes.length < 2 ^ 32) (hs : db.sessions.length < 2 ^ 32) :
    deserialize db0 (serialize db)
      = match addUsers ⟨[], [], BTree.new 5⟩ (db.users.map truncUser) with
        | some t => Outcome.ok
            { nextUserId := db.nextUserId % 2 ^ 32, userIdIndex := t.userIdIndex,
              emailToUserId := t.emailToUserId,
              sessions := (db.sessions.map truncSession).foldl
                (fun m p => mapSet m p.1 p.2) db0.sessions,
              users := t.users, episodes := db.episodes.map truncEpisode }
        | none => Outcome.undefined := by
  have hm : MAGIC % 2 ^ 32 = MAGIC := MAGIC_mod
  have h1 := readUsers_flatMap db.users ⟨[], [], BTree.new 5⟩
    (le32 db.episodes.length ++ (db.episodes.flatMap serEpisode
      ++ (le32 db.sessions.length ++ (db.sessions.flatMap serSession ++ []))))
  have h2 := readEpisodes_flatMap db.episodes []
    (le32 db.sessions.length ++ (db.sessions.flatMap serSession ++ []))
  have h3 := readSessions_flatMap db.sessions db0.sessions []
  rw [serialize_eq]
  unfold deserialize
  rw [readFresh_le32, Outcome.ok_bind]
  dsimp only
  rw [hm, if_neg (not_not.mpr rfl), readOver_le32]
  dsimp only
  rw [readFresh_le32, Outcome.ok_bind]
  dsimp only
  rw [Nat.mod_eq_of_lt hu, h1]
  cases addUsers ⟨[], [], BTree.new 5⟩ (db.users.map truncUser) with
  | none => rfl
  | some t =>
    dsimp only
    rw [Outcome.ok_bind]
    dsimp only
    rw [readFresh_le32, Outcome.ok_bind]
    dsimp only
    rw [Nat.mod_eq_of_lt he, h2, Outcome.ok_bind]
    dsimp only
    rw [readOver_le32]
    dsimp only
    rw [Nat.mod_eq_of_lt hs, h3]
    rfl

/-! ### Saving and loading -/

theorem addUsers_total :
    ∀ (us : List User) (t : UserTables) (d : Nat), BTree.Inv t.userIdIndex d →
      ∃ t1, addUsers t us = some t1 ∧ t1.users = t.users ++ us
  | [], t, d, _ => ⟨t, rfl, by simp⟩
  | u :: us, t, d, hinv => by
    obtain ⟨i1, hins, -, hinv1, -⟩ :=
      BTree.insert_spec hinv u.id (toInt32 ((t.users ++ [u]).length - 1))
    obtain ⟨t2, h2, husers⟩ := addUsers_total us
      ⟨t.users ++ [u], mapSet t.emailToUserId u.email u.id, i1⟩ _ hinv1
    refine ⟨t2, ?_, ?_⟩
    · simp only [addUsers, addUser, hins]
      exact h2
    · rw [husers]
      simp

/-- What `serialize` writes of the Store is all of it: there are fewer than `2 ^ 32` users
and sessions, every stored string is shorter than `2 ^ 32` bytes, and every stored number
is a value of the C++ type of its field. -/
structure Fits (db : Database) : Prop where
  users : db.users.length < 2 ^ 32
  sessions : db.sessions.length < 2 ^ 32
  user : ∀ u ∈ db.users, u.email.length < 2 ^ 32 ∧ u.username.length < 2 ^ 32
    ∧ u.passwordHash.length < 2 ^ 32 ∧ u.registrationTime < 2 ^ 64
  session : ∀ p ∈ db.sessions, p.1.length < 2 ^ 32 ∧ p.2 < 2 ^ 32
  episode : ∀ e ∈ db.episodes, e.episodeNumber < 2 ^ 32 ∧ e.startTimestamp < 2 ^ 64
    ∧ e.endTimestamp < 2 ^ 64

theorem map_truncUser {db : Database} (hinv : DbInv db) (hfit : Fits db) :
    db.users.map truncUser = db.users := by
  refine (List.map_congr_left ?_).trans (List.map_id _)
  intro u hu
  obtain ⟨i, hi⟩ := List.getElem?_of_mem hu
  obtain ⟨h1, h2, h3, h4⟩ := hfit.user u hu
  have hid : u.id % 2 ^ 32 = u.id := by
    rw [hinv.ids i u hi]
    exact Nat.mod_mod _ _
  unfold truncUser
  rw [hid, truncStr_of_lt h1, truncStr_of_lt h2, truncStr_of_lt h3, Nat.mod_eq_of_lt h4]
  rfl

theorem map_truncEpisode {db : Database} (hfit : Fits db) :
    db.episodes.map truncEpisode = db.episodes := by
  refine (List.map_congr_left ?_).trans (List.map_id _)
  intro e he
  obtain ⟨h1, h2, h3⟩ := hfit.episode e he
  unfold truncEpisode
  rw [Nat.mod_eq_of_lt h1, Nat.mod_eq_of_lt h2, Nat.mod_eq_of_lt h3]
  rfl

theorem map_truncSession {db : Database} (hfit : Fits db) :
    db.sessions.map truncSession = db.sessions := by
  refine (List.map_congr_left ?_).trans (List.map_id _)
  intro p hp
  obtain ⟨h1, h2⟩ := hfit.session p hp
  unfold truncSession
  rw [truncStr_of_lt h1, Nat.mod_eq_of_lt h2]
  rfl

theorem load_some (db : Database) (input : List Nat) :
    load db (some input)
      = match deserialize db input with
        | Outcome.ok db1 => some (true, db1)
        | Outcome.thrown => some (false, db)
        | Outcome.undefined => none := rfl

theorem save_eq (db : Database) : save db = serialize db := rfl

/-- Loading what `save` wrote into a fresh Store gives the saved Store back. -/
theorem load_save {db : Database} (hinv : DbInv db) (hfit : Fits db) :
    load Database.new (some (save db)) = some (true, db) := by
  have hn : db.nextUserId % 2 ^ 32 = db.nextUserId := by
    rw [hinv.next]
    exact Nat.mod_mod _ _
  have hf : db.sessions.foldl (fun m p => mapSet m p.1 p.2) Database.new.sessions
      = db.sessions :=
    (foldl_mapSet_append db.sessions [] (by simpa using hinv.sess)).trans (List.nil_append _)
  have he : db.episodes.length < 2 ^ 32 := lt_of_le_of_lt hinv.eps (by norm_num)
  have hd := deserialize_serialize Database.new db hfit.users he hfit.sessions
  rw [map_truncUser hinv hfit, map_truncEpisode hfit, map_truncSession hfit, hinv.tables] at hd
  simp only at hd
  rw [hn, hf] at hd
  rw [load_some, save_eq, hd]

theorem authenticateUser_user (sha256 : Str → Str) {db : Database} (hinv : DbInv db)
    (hn : db.users.length < 2 ^ 31) {u : User} (hu : u ∈ db.users) {password : Str}
    (hp : sha256 password = u.passwordHash) :
    authenticateUser sha256 db u.email password = some u.id := by
  obtain ⟨i, hi⟩ := List.getElem?_of_mem hu
  unfold authenticateUser
  rw [hinv.emap, mapFind_map_user hinv.emails hu]
  simp only [getUserById_user hinv hn hi]
  rw [if_pos hp]

/-- C5 (amended): let a Store be reached from a fresh one by public operations, hold fewer
than `2 ^ 32` users and sessions, only strings shorter than `2 ^ 32` bytes, and only numbers
that are values of their fields' types. Then `load` of the bytes written by `save` into a
fresh Store returns true and leaves the same `nextUserId`, the same user list, the same
episode history and the same sessions; and if fewer than `2 ^ 31` users are stored, then for
each stored user `getUserByEmail` of its email returns its record and `authenticateUser`
with a password whose hash is the stored one returns its id. -/
theorem c5_save_load_round_trip (sha256 : Str → Str) (ops : List Op) (db : Database)
    (hrun : runOps sha256 Database.new ops = some db) (hfit : Fits db) :
    ∃ db1, load Database.new (some (save db)) = some (true, db1)
      ∧ db1.nextUserId = db.nextUserId ∧ db1.users = db.users
      ∧ db1.episodes = db.episodes ∧ List.Perm db1.sessions db.sessions
      ∧ (db.users.length < 2 ^ 31 → ∀ u ∈ db.users,
          getUserByEmail db1 u.email = some (some u)
            ∧ ∀ password, sha256 password = u.passwordHash →
                authenticateUser sha256 db1 u.email password = some u.id) :=
  ⟨db, load_save (runOps_DbInv hrun) hfit, rfl, rfl, rfl, List.Perm.refl _,
    fun hn u hu => ⟨getUserByEmail_user (runOps_DbInv hrun) hn hu,
      fun _ hp => authenticateUser_user sha256 (runOps_DbInv hrun) hn hu hp⟩⟩

/-- Witness of C5: one registered user, one session and one saved episode. -/
theorem c5_save_load_round_trip_witness :
    ∃ db, runOps (fun p => p) Database.new
        [Op.register [1] [2] [3] 5, Op.createSession [9] 1, Op.saveEpisode 1 10 20] = some db
      ∧ Fits db
      ∧ ∃ db1, load Database.new (some (save db)) = some (true, db1)
          ∧ db1.users = db.users ∧ db1.episodes = db.episodes := by
  obtain ⟨db1, h1, -, husers, -, hsess, heps⟩ :=
    registerUser_fresh (fun p => p) new_DbInv 5 [1] [2] [3] (by simp [Database.new])
  have hrun : runOps (fun p => p) Database.new
      [Op.register [1] [2] [3] 5, Op.createSession [9] 1, Op.saveEpisode 1 10 20]
      = some (saveEpisode (createSession db1 [9] 1) 1 10 20) := by
    simp only [runOps, applyOp, h1]
  have hfit : Fits (saveEpisode (createSession db1 [9] 1) 1 10 20) := by
    refine Fits.mk ?_ ?_ ?_ ?_ ?_
    · simp [saveEpisode, createSession, husers, Database.new]
    · simp [saveEpisode, createSession, hsess, Database.new, mapSet]
    · intro u hu
      simp [saveEpisode, createSession, husers, Database.new] at hu
      rw [hu]
      simp
    · intro p hp
      simp [saveEpisode, createSession, hsess, Database.new, mapSet] at hp
      rw [hp]
      simp
    · intro e he
      simp [saveEpisode, createSession, heps, Database.new] at he
      rw [he]
      simp
  obtain ⟨db2, h2, -, h3, h4, -⟩ := c5_save_load_round_trip (fun p => p) _ _ hrun hfit
  exact ⟨_, hrun, hfit, db2, h2, h3, h4⟩

/-- A user registered with an email of `2 ^ 32` bytes comes back from `save` and `load`
with the empty email. -/
theorem load_save_long_email (E : Str) (hE : E.length = 2 ^ 32) :
    ∃ db db1, runOps (fun p => p) Database.new [Op.register E [] [] 0] = some db
      ∧ db.users = [⟨1, E, [], [], 0⟩]
      ∧ load Database.new (some (save db)) = some (true, db1)
      ∧ db1.users = [⟨1, [], [], [], 0⟩] ∧ db1.users ≠ db.users := by
  obtain ⟨db, h1, hinv, husers, -, hsess, heps⟩ :=
    registerUser_fresh (fun p => p) new_DbInv 0 E [] [] (by simp [Database.new])
  have hrun : runOps (fun p => p) Database.new [Op.register E [] [] 0] = some db := by
    simp only [runOps, applyOp, h1]
  have husers1 : db.users = [⟨1, E, [], [], 0⟩] := by rw [husers]; rfl
  have hl : db.users.length < 2 ^ 32 := by rw [husers1]; norm_num
  have hs : db.sessions.length < 2 ^ 32 := by rw [hsess]; norm_num [Database.new]
  have ht : truncStr E = [] := by
    unfold truncStr
    rw [hE, Nat.mod_self]
    rfl
  have htu : db.users.map truncUser = [⟨1, [], [], [], 0⟩] := by
    rw [husers1]
    simp only [List.map_cons, List.map_nil, truncUser, ht]
    norm_num [truncStr]
  obtain ⟨t1, hadd, ht1⟩ := addUsers_total (db.users.map truncUser)
    ⟨[], [], BTree.new 5⟩ 0 (BTree.new_Inv (by decide))
  have hload := deserialize_serialize Database.new db hl
    (lt_of_le_of_lt hinv.eps (by norm_num)) hs
  rw [hadd] at hload
  simp only at hload
  have hne : ([⟨1, [], [], [], 0⟩] : List User) ≠ db.users := by
    rw [husers1]
    intro h
    have h2 : ([] : Str) = E := by simpa using h
    rw [← h2] at hE
    simp at hE
  have hu1 : t1.users = [⟨1, [], [], [], 0⟩] := by
    rw [ht1, htu]
    rfl
  refine ⟨db, Database.mk (db.nextUserId % 2 ^ 32) t1.userIdIndex t1.emailToUserId
    ((db.sessions.map truncSession).foldl (fun m p => mapSet m p.1 p.2) Database.new.sessions)
    t1.users (db.episodes.map truncEpisode), hrun, husers1, ?_, hu1, ?_⟩
  · rw [load_some, save_eq, hload]
  · rw [hu1]
    exact hne

/-- C5 as stated fails: a user is registered with an email of `2 ^ 32` zero bytes (the
length does not fit the `uint32_t` length prefix, which becomes 0); after `save` and `load`
into a fresh Store the user list holds the empty email instead. -/
theorem c5_counterexample :
    ∃ db db1, runOps (fun p => p) Database.new
        [Op.register (List.replicate (2 ^ 32) 0) [] [] 0] = some db
      ∧ db.users = [⟨1, List.replicate (2 ^ 32) 0, [], [], 0⟩]
      ∧ load Database.new (some (save db)) = some (true, db1)
      ∧ db1.users = [⟨1, [], [], [], 0⟩] ∧ db1.users ≠ db.users :=
  load_save_long_email (List.replicate (2 ^ 32) 0) (List.length_replicate _ _)

end Database

/-! ## Node-level invariants of the ordered index -/

namespace BTree

mutual
/-- Every node of the subtree of a node, the node itself first. -/
def nodes : BTreeNode → List BTreeNode
  | BTreeNode.mk l ks vs cs => BTreeNode.mk l ks vs cs :: nodesList cs
/-- Every node of the subtrees of a list of siblings. -/
def nodesList : List BTreeNode → List BTreeNode
  | [] => []
  | c :: cs => nodes c ++ nodesList cs
end

theorem nodes_eq (n : BTreeNode) : nodes n = n :: nodesList n.children := by
  cases n; rw [nodes]; rfl

theorem mem_nodesList {x : BTreeNode} :
    ∀ {cs : List BTreeNode}, x ∈ nodesList cs ↔ ∃ c ∈ cs, x ∈ nodes c
  | [] => by simp [nodesList]
  | c :: cs => by
    rw [nodesList, List.mem_append, mem_nodesList]
    simp

theorem mem_nodes {x n : BTreeNode} :
    x ∈ nodes n ↔ x = n ∨ ∃ c ∈ n.children, x ∈ nodes c := by
  rw [nodes_eq, List.mem_cons, mem_nodesList]

theorem self_mem_nodes (n : BTreeNode) : n ∈ nodes n := mem_nodes.2 (Or.inl rfl)

theorem insertNonFull_internal (order : Nat) (ks : List Nat) (vs : List Int)
    (cs : List BTreeNode) (key : Nat) (value : Int) :
    insertNonFull order (BTreeNode.mk false ks vs cs) key value
      = match scanDown key ks ks.length with
        | none => none
        | some i =>
          match cs[i]? with
          | none => none
          | some child =>
            if child.keys.length = order - 1 then
              match splitChild order (BTreeNode.mk false ks vs cs) i with
              | none => none
              | some node1 =>
                match node1.keys[i]? with
                | none => none
                | some ki =>
                  match node1.children[if key > ki then i + 1 else i]? with
                  | none => none
                  | some target =>
                    match insertNonFull order target key value with
                    | none => none
                    | some r => some (setChild node1 (if key > ki then i + 1 else i) r)
            else
              match insertNonFull order child key value with
              | none => none
              | some r => some (setChild (BTreeNode.mk false ks vs cs) i r) := by
  rw [insertNonFull_eq]; rfl

/-! ### Key counts -/

/-- Every node of the subtree of `n` holds between `lo` and `hi` keys. -/
def Counts (lo hi : Nat) (n : BTreeNode) : Prop :=
  ∀ x ∈ nodes n, lo ≤ x.keys.length ∧ x.keys.length ≤ hi

theorem Counts.of_child {lo hi : Nat} {n c : BTreeNode} (h : Counts lo hi n)
    (hc : c ∈ n.children) : Counts lo hi c :=
  fun x hx => h x (mem_nodes.2 (Or.inr ⟨c, hc, hx⟩))

theorem Counts.intro {lo hi : Nat} {n : BTreeNode} (h1 : lo ≤ n.keys.length)
    (h2 : n.keys.length ≤ hi) (hc : ∀ c ∈ n.children, Counts lo hi c) : Counts lo hi n := by
  intro x hx
  rcases mem_nodes.1 hx with h | ⟨c, hcm, hxc⟩
  · rw [h]; exact ⟨h1, h2⟩
  · exact hc c hcm x hxc

theorem splitLeft_children_mem {order : Nat} {fc c : BTreeNode}
    (h : c ∈ (splitLeft order fc).children) : c ∈ fc.children := by
  simp only [splitLeft, BTreeNode.children_mk] at h
  split at h
  · exact h
  · exact List.mem_of_mem_take h

theorem splitRight_children_mem {order : Nat} {fc c : BTreeNode}
    (h : c ∈ (splitRight order fc).children) : c ∈ fc.children := by
  simp only [splitRight, BTreeNode.children_mk] at h
  split at h
  · cases h
  · exact List.mem_of_mem_drop h

theorem splitLeft_keys_length (order : Nat) (fc : BTreeNode) :
    (splitLeft order fc).keys.length = min (order / 2) fc.keys.length := by
  simp only [splitLeft, BTreeNode.keys_mk, List.length_take]

theorem splitRight_keys_length (order : Nat) (fc : BTreeNode) :
    (splitRight order fc).keys.length = fc.keys.length - (order / 2 + 1) := by
  simp only [splitRight, BTreeNode.keys_mk, List.length_drop]

/-- After `splitChild(parent, index)` the original child, truncated, is still child
`index` of the parent. -/
theorem splitChild_child_left {order : Nat} {parent p fc : BTreeNode} {index : Nat}
    (hfc : parent.children[index]? = some fc) (h : splitChild order parent index = some p) :
    p.children[index]? = some (splitLeft order fc) := by
  obtain ⟨fc1, km, vm, hfc1, -, -, -, -, -, rfl⟩ := splitChild_eq_some h
  rw [hfc] at hfc1
  cases hfc1
  have hi : index < parent.children.length := (List.getElem?_eq_some_iff.1 hfc).1
  have hlen : (parent.children.take index).length = index := by
    rw [List.length_take]; omega
  have := getElem?_mid (parent.children.take index)
    (splitRight order fc :: parent.children.drop (index + 1)) (splitLeft order fc)
  rw [hlen] at this
  exact this

/-- After `splitChild(parent, index)` the new sibling is child `index + 1` of the parent. -/
theorem splitChild_child_right {order : Nat} {parent p fc : BTreeNode} {index : Nat}
    (hfc : parent.children[index]? = some fc) (h : splitChild order parent index = some p) :
    p.children[index + 1]? = some (splitRight order fc) := by
  obtain ⟨fc1, km, vm, hfc1, -, -, -, -, -, rfl⟩ := splitChild_eq_some h
  rw [hfc] at hfc1
  cases hfc1
  have hi : index < parent.children.length := (List.getElem?_eq_some_iff.1 hfc).1
  have hlen : (parent.children.take index).length = index := by
    rw [List.length_take]; omega
  simp only [BTreeNode.children_mk]
  rw [List.getElem?_append_right (by rw [hlen]; omega), hlen]
  have e : index + 1 - index = 1 := by omega
  rw [e]
  simp

theorem splitChild_keys_length {order : Nat} {parent p : BTreeNode} {index : Nat}
    (h : splitChild order parent index = some p) : p.keys.length = parent.keys.length + 1 := by
  obtain ⟨fc1, km, vm, -, -, -, -, hik, -, rfl⟩ := splitChild_eq_some h
  simp only [BTreeNode.keys_mk, List.length_append, List.length_take, List.length_cons,
    List.length_drop]
  omega

theorem splitChild_children_mem {order : Nat} {parent p fc c : BTreeNode} {index : Nat}
    (hfc : parent.children[index]? = some fc) (h : splitChild order parent index = some p)
    (hc : c ∈ p.children) :
    c ∈ parent.children ∨ c = splitLeft order fc ∨ c = splitRight order fc := by
  obtain ⟨fc1, km, vm, hfc1, -, -, -, -, -, rfl⟩ := splitChild_eq_some h
  rw [hfc] at hfc1
  cases hfc1
  simp only [BTreeNode.children_mk, List.mem_append, List.mem_cons] at hc
  rcases hc with hc | hc | hc | hc
  · exact Or.inl (List.mem_of_mem_take hc)
  · exact Or.inr (Or.inl hc)
  · exact Or.inr (Or.inr hc)
  · exact Or.inl (List.mem_of_mem_drop hc)

/-- The node that `insertNonFull` enters after a split is one of the two halves. -/
theorem split_target {order key ki : Nat} {node child node1 target : BTreeNode} {i : Nat}
    (hc : node.children[i]? = some child) (hs : splitChild order node i = some node1)
    (ht : node1.children[if key > ki then i + 1 else i]? = some target) :
    target = splitLeft order child ∨ target = splitRight order child := by
  by_cases hgt : key > ki
  · rw [if_pos hgt, splitChild_child_right hc hs] at ht
    exact Or.inr (Option.some.inj ht).symm
  · rw [if_neg hgt, splitChild_child_left hc hs] at ht
    exact Or.inl (Option.some.inj ht).symm

theorem splitLeft_Counts {lo order : Nat} {fc : BTreeNode} (hlo : lo ≤ order / 2)
    (hf : fc.keys.length = order - 1) (hord : 3 ≤ order) (h : Counts lo (order - 1) fc) :
    Counts lo (order - 1) (splitLeft order fc) := by
  refine Counts.intro ?_ ?_ (fun c hc => h.of_child (splitLeft_children_mem hc))
  · rw [splitLeft_keys_length, hf]; omega
  · rw [splitLeft_keys_length, hf]; omega

theorem splitRight_Counts {lo order : Nat} {fc : BTreeNode} (hlo : lo + order / 2 + 2 ≤ order)
    (hf : fc.keys.length = order - 1) (h : Counts lo (order - 1) fc) :
    Counts lo (order - 1) (splitRight order fc) := by
  refine Counts.intro ?_ ?_ (fun c hc => h.of_child (splitRight_children_mem hc))
  · rw [splitRight_keys_length, hf]; omega
  · rw [splitRight_keys_length, hf]; omega

/-- One run of `insertNonFull` on a node that is not full: the node gains at most one
key and stays within `order - 1` keys, and the key counts below it stay within
`lo .. order - 1`, for every `lo` that both halves of a split reach. -/
theorem InsNF.counts {lo order key : Nat} {value : Int} {node r : BTreeNode}
    (h : InsNF order key value node r) (hord : 3 ≤ order) (hlo1 : lo ≤ order / 2)
    (hlo2 : lo + order / 2 + 2 ≤ order) :
    WF node → node.keys.length < order - 1 →
      (∀ c ∈ node.children, Counts lo (order - 1) c) →
      node.keys.length ≤ r.keys.length ∧ r.keys.length ≤ order - 1
        ∧ ∀ c ∈ r.children, Counts lo (order - 1) c := by
  induction h with
  | leaf node r hl h =>
    intro hwf hnf hcs
    obtain ⟨j, -, hj, he⟩ := insertLeaf_spec node key value hwf.values_length
    rw [h] at he
    cases he
    simp only [BTreeNode.keys_mk, BTreeNode.children_mk, List.length_append, List.length_take,
      List.length_cons, List.length_drop]
    exact ⟨by omega, by omega, hcs⟩
  | descend node child r i hl hi hc hnf hr ih =>
    intro hwf hlt hcs
    have hcm : child ∈ node.children := List.getElem?_mem hc
    have hcc := hcs child hcm
    have hck := hcc child (self_mem_nodes child)
    obtain ⟨h1, h2, h3⟩ := ih (hwf.child hcm) (by omega) (fun c hc2 => hcc.of_child hc2)
    refine ⟨Nat.le_refl _, by simp only [setChild, BTreeNode.keys_mk]; omega, ?_⟩
    intro c hc2
    simp only [setChild, BTreeNode.children_mk] at hc2
    rcases List.mem_or_eq_of_mem_set hc2 with h | h
    · exact hcs c h
    · rw [h]
      exact Counts.intro (by omega) h2 h3
  | split node child node1 target r i ki hl hi hc hf hs hk ht hr ih =>
    intro hwf hlt hcs
    have hcm : child ∈ node.children := List.getElem?_mem hc
    have hcc := hcs child hcm
    have hw1 := splitChild_WF hwf hs
    have hL := splitLeft_Counts hlo1 hf hord hcc
    have hR := splitRight_Counts hlo2 hf hcc
    have hkl := splitChild_keys_length hs
    have htc : Counts lo (order - 1) target ∧ target.keys.length < order - 1 := by
      rcases split_target hc hs ht with h | h
      · rw [h]
        exact ⟨hL, by rw [splitLeft_keys_length, hf]; omega⟩
      · rw [h]
        exact ⟨hR, by rw [splitRight_keys_length, hf]; omega⟩
    obtain ⟨h1, h2, h3⟩ := ih (hw1.child (List.getElem?_mem ht)) htc.2
      (fun c hc2 => htc.1.of_child hc2)
    have htk := htc.1 target (self_mem_nodes target)
    refine ⟨by simp only [setChild, BTreeNode.keys_mk]; omega,
      by simp only [setChild, BTreeNode.keys_mk]; omega, ?_⟩
    intro c hc2
    simp only [setChild, BTreeNode.children_mk] at hc2
    rcases List.mem_or_eq_of_mem_set hc2 with h | h
    · rcases splitChild_children_mem hc hs h with h4 | h4 | h4
      · exact hcs c h4
      · rw [h4]; exact hL
      · rw [h4]; exact hR
    · rw [h]
      exact Counts.intro (by omega) h2 h3

/-- The node on which `insert` calls `insertNonFull`: the root when it is not full, else
the fresh internal root after `splitChild(newRoot, 0)`. -/
def insertStart (t : BTree) : Option BTreeNode :=
  if t.root.keys.length = t.order - 1 then
    splitChild t.order (BTreeNode.mk false [] [] [t.root]) 0
  else some t.root

theorem insert_eq_start (t : BTree) (key : Nat) (value : Int) :
    t.insert key value
      = match insertStart t with
        | none => none
        | some s =>
          match insertNonFull t.order s key value with
          | none => none
          | some r => some ⟨r, t.order⟩ := by
  unfold insert insertStart
  split <;> rfl

/-- `Visits order key node n`: the run of `insertNonFull(node, key, _)` calls
`insertNonFull` on `n`; the outermost call counts, and each recursive call is the one at
the end of the internal branch, on the child found (after its split when it was full). -/
inductive Visits (order key : Nat) : BTreeNode → BTreeNode → Prop
  | self (node : BTreeNode) : Visits order key node node
  | descend (node child n : BTreeNode) (i : Nat) (hl : node.isLeaf = false)
      (hi : scanDown key node.keys node.keys.length = some i)
      (hc : node.children[i]? = some child) (hnf : child.keys.length ≠ order - 1)
      (hv : Visits order key child n) : Visits order key node n
  | split (node child node1 target n : BTreeNode) (i ki : Nat) (hl : node.isLeaf = false)
      (hi : scanDown key node.keys node.keys.length = some i)
      (hc : node.children[i]? = some child) (hf : child.keys.length = order - 1)
      (hs : splitChild order node i = some node1) (hk : node1.keys[i]? = some ki)
      (ht : node1.children[if key > ki then i + 1 else i]? = some target)
      (hv : Visits order key target n) : Visits order key node n

theorem Visits.not_full {order key : Nat} {node n : BTreeNode} (h : Visits order key node n)
    (hord : 3 ≤ order) :
    WF node → node.keys.length < order - 1 →
      (∀ c ∈ node.children, Counts 0 (order - 1) c) → n.keys.length < order - 1 := by
  induction h with
  | self node => intro _ h _; exact h
  | descend node child n i hl hi hc hnf hv ih =>
    intro hwf hlt hcs
    have hcm : child ∈ node.children := List.getElem?_mem hc
    have hcc := hcs child hcm
    have hck := hcc child (self_mem_nodes child)
    exact ih (hwf.child hcm) (by omega) (fun c hc2 => hcc.of_child hc2)
  | split node child node1 target n i ki hl hi hc hf hs hk ht hv ih =>
    intro hwf hlt hcs
    have hcm : child ∈ node.children := List.getElem?_mem hc
    have hcc := hcs child hcm
    have hw1 := splitChild_WF hwf hs
    have htc : Counts 0 (order - 1) target ∧ target.keys.length < order - 1 := by
      rcases split_target hc hs ht with h | h
      · rw [h]
        exact ⟨splitLeft_Counts (Nat.zero_le _) hf hord hcc,
          by rw [splitLeft_keys_length, hf]; omega⟩
      · rw [h]
        exact ⟨splitRight_Counts (by omega) hf hcc, by rw [splitRight_keys_length, hf]; omega⟩
    exact ih (hw1.child (List.getElem?_mem ht)) htc.2 (fun c hc2 => htc.1.of_child hc2)

/-- Key counts of a tree: at most `order - 1` keys in the root, between `lo` and
`order - 1` keys in every other node. -/
structure KeyInv (lo : Nat) (t : BTree) : Prop where
  root : t.root.keys.length ≤ t.order - 1
  below : ∀ c ∈ t.root.children, Counts lo (t.order - 1) c

theorem insertStart_spec {lo : Nat} {t : BTree} {d : Nat} (hinv : Inv t d) (hk : KeyInv lo t)
    (hlo1 : lo ≤ t.order / 2) (hlo2 : lo + t.order / 2 + 2 ≤ t.order) :
    ∃ s, insertStart t = some s ∧ WF s ∧ s.keys.length < t.order - 1
      ∧ ∀ c ∈ s.children, Counts lo (t.order - 1) c := by
  have hord := hinv.order_ge
  unfold insertStart
  by_cases hf : t.root.keys.length = t.order - 1
  · rw [if_pos hf]
    have hw0 : WF (BTreeNode.mk false [] [] [t.root]) := by
      refine WF.mk _ rfl (fun h => by cases h) (fun _ => rfl) ?_
      intro c hc
      have : c = t.root := by simpa using hc
      rw [this]; exact hinv.wf
    have hc0 : (BTreeNode.mk false [] [] [t.root]).children[0]? = some t.root := rfl
    obtain ⟨s, hs⟩ := splitChild_some_of_full hord hw0 hc0 hf
    have hroot : Counts lo (t.order - 1) t.root :=
      Counts.intro (by omega) hk.root hk.below
    refine ⟨s, hs, splitChild_WF hw0 hs, ?_, ?_⟩
    · rw [splitChild_keys_length hs]
      simp only [BTreeNode.keys_mk, List.length_nil]
      omega
    · intro c hc
      rcases splitChild_children_mem hc0 hs hc with h | h | h
      · have : c = t.root := by simpa using h
        rw [this]; exact hroot
      · rw [h]; exact splitLeft_Counts hlo1 hf hord hroot
      · rw [h]; exact splitRight_Counts hlo2 hf hroot
  · rw [if_neg hf]
    have := hk.root
    exact ⟨t.root, rfl, hinv.wf, by omega, hk.below⟩

theorem insert_keyInv {lo : Nat} {t t1 : BTree} {d : Nat} (hinv : Inv t d)
    (hk : KeyInv lo t) (hlo1 : lo ≤ t.order / 2) (hlo2 : lo + t.order / 2 + 2 ≤ t.order)
    {key : Nat} {value : Int} (h : t.insert key value = some t1) : KeyInv lo t1 := by
  obtain ⟨s, hs, hws, hlt, hcs⟩ := insertStart_spec hinv hk hlo1 hlo2
  rw [insert_eq_start, hs] at h
  simp only at h
  cases hr : insertNonFull t.order s key value with
  | none => rw [hr] at h; cases h
  | some r =>
    rw [hr] at h
    simp only [Option.some.injEq] at h
    obtain ⟨-, h2, h3⟩ := (insNF_of_insertNonFull hr).counts hinv.order_ge hlo1 hlo2 hws hlt hcs
    rw [← h]
    exact ⟨h2, h3⟩

theorem insertAll_keyInv {lo : Nat} :
    ∀ (kvs : List (Nat × Int)) (t : BTree) (d : Nat), Inv t d → KeyInv lo t →
      lo ≤ t.order / 2 → lo + t.order / 2 + 2 ≤ t.order →
      ∃ t1 d1, insertAll t kvs = some t1 ∧ t1.order = t.order ∧ Inv t1 d1 ∧ KeyInv lo t1
  | [], t, d, hinv, hk, _, _ => ⟨t, d, rfl, rfl, hinv, hk⟩
  | kv :: rest, t, d, hinv, hk, hlo1, hlo2 => by
    obtain ⟨t1, h1, ho1, hinv1, -⟩ := insert_spec hinv kv.1 kv.2
    have hk1 := insert_keyInv hinv hk hlo1 hlo2 h1
    obtain ⟨t2, d2, h2, ho2, hinv2, hk2⟩ := insertAll_keyInv rest t1 _ hinv1 hk1
      (by rw [ho1]; exact hlo1) (by rw [ho1]; exact hlo2)
    exact ⟨t2, d2, by simp only [insertAll, h1, h2], ho2.trans ho1, hinv2, hk2⟩

theorem new_KeyInv (lo order : Nat) : KeyInv lo (new order) :=
  ⟨Nat.zero_le _, fun c hc => by cases hc⟩

/-- C11: after any sequence of inserts into an empty order-5 tree every node holds at most
4 keys; and in the next `insert`, whatever its key, `insertNonFull` is first called on a
node with fewer than 4 keys (the root, or the fresh root over the split halves of a full
root) and every recursive call it makes is on a node with fewer than 4 keys. -/
theorem c11_at_most_four_keys (kvs : List (Nat × Int)) :
    ∃ t, insertAll (new 5) kvs = some t
      ∧ (∀ n ∈ nodes t.root, n.keys.length ≤ 4)
      ∧ ∀ (key : Nat) (value : Int), ∃ s t1, insertStart t = some s
          ∧ t.insert key value = some t1
          ∧ ∀ n, Visits 5 key s n → n.keys.length < 4 := by
  obtain ⟨t, d, h1, ho, hinv, hk⟩ := insertAll_keyInv kvs (new 5) 0
    (new_Inv (by decide)) (new_KeyInv 0 5) (by decide) (by decide)
  have ho5 : t.order = 5 := ho
  refine ⟨t, h1, ?_, ?_⟩
  · intro n hn
    have hroot : Counts 0 (t.order - 1) t.root :=
      Counts.intro (Nat.zero_le _) hk.root hk.below
    have := (hroot n hn).2
    rw [ho5] at this
    exact this
  · intro key value
    obtain ⟨s, hs, hws, hlt, hcs⟩ := insertStart_spec hinv hk (by rw [ho5]; decide)
      (by rw [ho5]; decide)
    obtain ⟨t1, h2, -⟩ := insert_spec hinv key value
    refine ⟨s, t1, hs, h2, ?_⟩
    intro n hv
    rw [ho5] at hlt hcs
    exact hv.not_full (by decide) hws hlt hcs

/-- C12 as stated fails: after inserting the keys 1, 2, 3, 4, 0 into an empty order-5 tree
the root was split (keys 1, 2 stay, 3 moves up, 4 goes to the new sibling) and the second
child of the root holds the single key 4. -/
theorem c12_counterexample :
    ∃ t c, insertAll (new 5) [(1, 1), (2, 2), (3, 3), (4, 4), (0, 0)] = some t
      ∧ t.root.children[1]? = some c ∧ c.keys = [4] ∧ ¬ 2 ≤ c.keys.length := by
  refine ⟨⟨BTreeNode.mk false [3] [3]
    [BTreeNode.mk true [0, 1, 2] [0, 1, 2] [], BTreeNode.mk true [4] [4] []], 5⟩,
    BTreeNode.mk true [4] [4] [], ?_, rfl, rfl, by decide⟩
  simp [insertAll, insert, new, insertNonFull_leaf, insertNonFull_internal, insertLeaf,
    shiftDown, scanDown, splitChild, splitLeft, splitRight, setChild]

/-- C12 (amended): after any sequence of inserts into an empty order-5 tree every node
except the root holds at least 1 key; and `splitChild` on a full child (4 keys) promotes
the key at index 2, leaves the original child with 2 keys and gives the new sibling, placed
right after it, 1 key. -/
theorem c12_at_least_one_key (kvs : List (Nat × Int)) :
    ∃ t, insertAll (new 5) kvs = some t
      ∧ (∀ c ∈ t.root.children, ∀ n ∈ nodes c, 1 ≤ n.keys.length)
      ∧ ∀ (parent fc p : BTreeNode) (index : Nat), parent.children[index]? = some fc →
          fc.keys.length = 4 → splitChild 5 parent index = some p →
          p.keys[index]? = fc.keys[2]?
            ∧ ∃ l r, p.children[index]? = some l ∧ p.children[index + 1]? = some r
              ∧ l.keys = fc.keys.take 2 ∧ r.keys = fc.keys.drop 3
              ∧ l.keys.length = 2 ∧ r.keys.length = 1 := by
  obtain ⟨t, d, h1, ho, hinv, hk⟩ := insertAll_keyInv kvs (new 5) 0
    (new_Inv (by decide)) (new_KeyInv 1 5) (by decide) (by decide)
  have ho5 : t.order = 5 := ho
  refine ⟨t, h1, fun c hc n hn => (hk.below c hc n hn).1, ?_⟩
  intro parent fc p index hfc hf hs
  refine ⟨?_, splitLeft 5 fc, splitRight 5 fc, splitChild_child_left hfc hs,
    splitChild_child_right hfc hs, rfl, rfl, ?_, ?_⟩
  · obtain ⟨fc1, km, vm, hfc1, hkm, -, -, hik, -, rfl⟩ := splitChild_eq_some hs
    rw [hfc] at hfc1
    cases hfc1
    have hlen : (parent.keys.take index).length = index := by
      rw [List.length_take]; omega
    have := getElem?_mid (parent.keys.take index) (parent.keys.drop index) km
    rw [hlen] at this
    simp only [BTreeNode.keys_mk]
    rw [this]
    exact hkm.symm
  · rw [splitLeft_keys_length, hf]; rfl
  · rw [splitRight_keys_length, hf]

/-- Witness of C11: after four inserts the root is full; the next insert starts
`insertNonFull` on the fresh root, which has fewer than 4 keys. -/
theorem c11_at_most_four_keys_witness :
    ∃ t, insertAll (new 5) [(1, 1), (2, 2), (3, 3), (4, 4)] = some t
      ∧ (∀ n ∈ nodes t.root, n.keys.length ≤ 4)
      ∧ ∃ s, insertStart t = some s ∧ Visits 5 0 s s ∧ s.keys.length < 4 := by
  obtain ⟨t, h1, h2, h3⟩ := c11_at_most_four_keys [(1, 1), (2, 2), (3, 3), (4, 4)]
  obtain ⟨s, t1, hs, -, hv⟩ := h3 0 0
  exact ⟨t, h1, h2, s, hs, Visits.self s, hv s (Visits.self s)⟩

/-- Witness of C12: the split of a full leaf under a fresh root. -/
theorem c12_at_least_one_key_witness :
    ∃ p l r, splitChild 5 (BTreeNode.mk false [] []
        [BTreeNode.mk true [1, 2, 3, 4] [1, 2, 3, 4] []]) 0 = some p
      ∧ p.children[0]? = some l ∧ p.children[0 + 1]? = some r
      ∧ l.keys.length = 2 ∧ r.keys.length = 1 := by
  obtain ⟨t, -, -, h⟩ := c12_at_least_one_key []
  have hs : splitChild 5 (BTreeNode.mk false [] []
      [BTreeNode.mk true [1, 2, 3, 4] [1, 2, 3, 4] []]) 0
      = some (BTreeNode.mk false [3] [3]
          [BTreeNode.mk true [1, 2] [1, 2] [], BTreeNode.mk true [4] [4] []]) := by
    simp [splitChild, splitLeft, splitRight]
  obtain ⟨-, l, r, hl, hr, -, -, h2, h3⟩ := h
    (BTreeNode.mk false [] [] [BTreeNode.mk true [1, 2, 3, 4] [1, 2, 3, 4] []])
    (BTreeNode.mk true [1, 2, 3, 4] [1, 2, 3, 4] []) _ 0 rfl rfl hs
  exact ⟨_, l, r, hs, hl, hr, h2, h3⟩

/-! ### Search results -/

theorem inorder_new (order : Nat) : inorder (new order).root = [] := by
  simp [new, inorder_mk, interleave_nil_right]

/-- C13: for every sequence of inserts into an empty order-5 tree (whatever the values)
and every key that is not among the inserted keys, `search` returns the sentinel -1; on
the empty tree `search` returns -1 for every key. -/
theorem c13_absent_key_not_found (kvs : List (Nat × Int)) (k : Nat)
    (hk : k ∉ kvs.map Prod.fst) :
    (∃ t, insertAll (new 5) kvs = some t ∧ t.search k = some (-1))
      ∧ ∀ key, (new 5).search key = some (-1) := by
  constructor
  · obtain ⟨t, d, h1, hinv, hperm⟩ := insertAll_new_spec (by decide : 3 ≤ 5) kvs
    refine ⟨t, h1, search_of_not_mem hinv ?_⟩
    intro hmem
    exact hk ((hperm.map Prod.fst).mem_iff.1 hmem)
  · intro key
    apply search_of_not_mem (new_Inv (by decide : 3 ≤ 5))
    rw [inorder_new]
    simp

/-- Witness of C13: five inserts, then a search for the key 7. -/
theorem c13_absent_key_not_found_witness :
    (∃ t, insertAll (new 5) [(1, 10), (2, 20), (3, 30), (4, 40), (5, 50)] = some t
        ∧ t.search 7 = some (-1))
      ∧ ∀ key, (new 5).search key = some (-1) :=
  c13_absent_key_not_found [(1, 10), (2, 20), (3, 30), (4, 40), (5, 50)] 7 (by decide)

theorem searchNode_mk (l : Bool) (ks : List Nat) (vs : List Int) (cs : List BTreeNode)
    (key : Nat) :
    searchNode (BTreeNode.mk l ks vs cs) key
      = if ks[searchIdx key ks]? = some key then vs[searchIdx key ks]?
        else if l then some (-1)
        else
          match cs[searchIdx key ks]? with
          | none => none
          | some child => searchNode child key := by
  rw [searchNode_eq]; rfl

/-- C14 as stated fails: after `insert(1, 10)` and `insert(1, 20)` on an empty tree,
`search(1)` returns 10, the value of the first insert (the second entry is stored after
the first and the search stops at the first match). -/
theorem c14_counterexample :
    ∃ t, insertAll (new 5) [(1, 10), (1, 20)] = some t ∧ t.search 1 = some 10
      ∧ t.search 1 ≠ some 20 := by
  refine ⟨⟨BTreeNode.mk true [1, 1] [10, 20] [], 5⟩, ?_, ?_, ?_⟩
  · simp [insertAll, insert, new, insertNonFull_leaf, insertLeaf, shiftDown]
  · simp [search, searchNode_mk, searchIdx]
  · simp [search, searchNode_mk, searchIdx]

/-- C14 (amended): after any sequence of inserts into an empty order-5 tree, `search` of
a key that was inserted (once or several times) returns the value of one of the inserts
of that key. -/
theorem c14_search_returns_an_inserted_value (kvs : List (Nat × Int)) (k : Nat)
    (hk : k ∈ kvs.map Prod.fst) :
    ∃ t v, insertAll (new 5) kvs = some t ∧ t.search k = some v ∧ (k, v) ∈ kvs := by
  obtain ⟨t, d, h1, hinv, hperm⟩ := insertAll_new_spec (by decide : 3 ≤ 5) kvs
  obtain ⟨r, hr, hres⟩ := search_spec k t.root.height t.root (Nat.le_refl _) hinv.wf
    hinv.sorted
  rcases hres with hres | ⟨-, hres⟩
  · exact ⟨t, r, h1, hr, hperm.mem_iff.1 hres⟩
  · obtain ⟨kv, hkv, hkk⟩ := List.mem_map.1 hk
    have hmem : (k, kv.2) ∈ inorder t.root := by
      rw [← hkk]
      exact hperm.mem_iff.2 hkv
    exact absurd hmem (hres kv.2)

/-- Witness of C14: the key 1 inserted twice. -/
theorem c14_search_returns_an_inserted_value_witness :
    ∃ t v, insertAll (new 5) [(1, 10), (2, 5), (1, 20)] = some t ∧ t.search 1 = some v
      ∧ (1, v) ∈ ([(1, 10), (2, 5), (1, 20)] : List (Nat × Int)) :=
  c14_search_returns_an_inserted_value [(1, 10), (2, 5), (1, 20)] 1 (by decide)

/-! ### Shape of every node -/

theorem WF.of_mem_nodes {n : BTreeNode} (h : WF n) : ∀ x ∈ nodes n, WF x := by
  induction h with
  | mk n hv hl hi hc ih =>
    intro x hx
    rcases mem_nodes.1 hx with h | ⟨c, hcm, hxc⟩
    · rw [h]; exact WF.mk n hv hl hi hc
    · exact ih c hcm x hxc

/-- C16: in every tree reached from the empty order-5 tree by inserts, each node has as
many values as keys, a leaf has no children and an internal node has one more child than
keys; and on such a tree `search` and `insert` return for every argument, that is, no
`keys[i]`, `values[i]` or `children[i]` access of `searchNode`, `insertNonFull` or
`splitChild` leaves its vector. -/
theorem c16_node_shape (kvs : List (Nat × Int)) :
    ∃ t, insertAll (new 5) kvs = some t
      ∧ (∀ n ∈ nodes t.root, n.values.length = n.keys.length
          ∧ (n.isLeaf = true → n.children = [])
          ∧ (n.isLeaf = false → n.children.length = n.keys.length + 1))
      ∧ (∀ key, ∃ r, t.search key = some r)
      ∧ ∀ (key : Nat) (value : Int), ∃ t1, t.insert key value = some t1 := by
  obtain ⟨t, d, h1, hinv, -⟩ := insertAll_new_spec (by decide : 3 ≤ 5) kvs
  refine ⟨t, h1, ?_, ?_, ?_⟩
  · intro n hn
    have hw := hinv.wf.of_mem_nodes n hn
    exact ⟨hw.values_length, hw.leaf_children, hw.children_length⟩
  · intro key
    obtain ⟨r, hr, -⟩ := search_spec key t.root.height t.root (Nat.le_refl _) hinv.wf
      hinv.sorted
    exact ⟨r, hr⟩
  · intro key value
    obtain ⟨t1, h2, -⟩ := insert_spec hinv key value
    exact ⟨t1, h2⟩

end BTree

/-! ### Separator keys -/

namespace BTree

theorem pre_succ {n c0 : BTreeNode} {j k : Nat} (hv : n.values.length = n.keys.length)
    (hcl : n.children.length = n.keys.length + 1) (hk : n.keys[j]? = some k)
    (hc : n.children[j]? = some c0) :
    ∃ v, pre n (j + 1) = pre n j ++ (inorder c0 ++ [(k, v)]) := by
  obtain ⟨hj, hkj⟩ := List.getElem?_eq_some_iff.1 hk
  have hjv : j < n.values.length := by omega
  have e1 : (n.keys.zip n.values).take (j + 1)
      = (n.keys.zip n.values).take j ++ [(k, n.values[j])] := by
    rw [List.take_succ]
    have : (n.keys.zip n.values)[j]? = some (k, n.values[j]) := by
      rw [List.getElem?_zip_eq_some]
      exact ⟨hk, List.getElem?_eq_getElem hjv⟩
    rw [this]; rfl
  have e2 : n.children.take (j + 1) = n.children.take j ++ [c0] := by
    rw [List.take_succ, hc]; rfl
  have hl : (n.children.take j).length = ((n.keys.zip n.values).take j).length := by
    rw [List.length_take, List.length_take, List.length_zip]; omega
  exact ⟨n.values[j], by rw [pre, e1, e2, prefixList_snoc _ _ hl]; rfl⟩

/-- In a well-shaped node whose in-order entries are pairwise related by `R` on their
keys, every entry of child `i` is related to key `i`, and key `i` to every entry of child
`i + 1`. -/
theorem sep_of_pairwise {R : Nat → Nat → Prop} {n c0 c1 : BTreeNode} {i k : Nat}
    (hwf : WF n) (hp : List.Pairwise (fun a b => R a.1 b.1) (inorder n))
    (hk : n.keys[i]? = some k) (hc0 : n.children[i]? = some c0)
    (hc1 : n.children[i + 1]? = some c1) :
    (∀ a ∈ inorder c0, R a.1 k) ∧ (∀ b ∈ inorder c1, R k b.1) := by
  have hl := parent_not_leaf hwf hc0
  have hcl := hwf.children_length hl
  obtain ⟨v, hpre⟩ := pre_succ hwf.values_length hcl hk hc0
  rw [inorder_at hwf.values_length hcl hc1, hpre] at hp
  obtain ⟨h1, -, h3⟩ := List.pairwise_append.1 hp
  constructor
  · intro a ha
    have h4 := (List.pairwise_append.1 (List.pairwise_append.1 h1).2.1).2.2
    exact h4 a ha (k, v) (List.mem_singleton_self _)
  · intro b hb
    exact h3 (k, v) (by simp) b (List.mem_append_left _ hb)

theorem pairwise_child {R : Nat → Nat → Prop} {n c : BTreeNode} (hwf : WF n)
    (hp : List.Pairwise (fun a b => R a.1 b.1) (inorder n)) (hc : c ∈ n.children) :
    List.Pairwise (fun a b => R a.1 b.1) (inorder c) := by
  obtain ⟨i, hi⟩ := List.getElem?_of_mem hc
  have hl := parent_not_leaf hwf hi
  rw [inorder_at hwf.values_length (hwf.children_length hl) hi] at hp
  exact (List.pairwise_append.1 (List.pairwise_append.1 hp).2.1).1

theorem inorder_child_subset {n c : BTreeNode} (hwf : WF n) (hc : c ∈ n.children) :
    ∀ a ∈ inorder c, a ∈ inorder n := by
  intro a ha
  obtain ⟨i, hi⟩ := List.getElem?_of_mem hc
  have hl := parent_not_leaf hwf hi
  rw [inorder_at hwf.values_length (hwf.children_length hl) hi]
  exact List.mem_append_right _ (List.mem_append_left _ ha)

/-- Every key stored in a node of a well-shaped subtree is met by its in-order
traversal. -/
theorem mem_inorderKeys_of_node {n : BTreeNode} (h : WF n) :
    ∀ x ∈ nodes n, ∀ a ∈ x.keys, a ∈ inorderKeys n := by
  induction h with
  | mk n hv hl hi hc ih =>
    intro x hx a ha
    have hwf : WF n := WF.mk n hv hl hi hc
    rcases mem_nodes.1 hx with h | ⟨c, hcm, hxc⟩
    · rw [h] at ha
      obtain ⟨j, hj⟩ := List.getElem?_of_mem ha
      have hjl : j < n.keys.length := (List.getElem?_eq_some_iff.1 hj).1
      have hjv : j < n.values.length := by omega
      have hz : (n.keys.zip n.values)[j]? = some (a, n.values[j]) := by
        rw [List.getElem?_zip_eq_some]
        exact ⟨hj, List.getElem?_eq_getElem hjv⟩
      have hm : (a, n.values[j]) ∈ inorder n := by
        rw [inorder_eq]
        exact mem_interleave_of_mem _ _ (List.getElem?_mem hz)
      exact List.mem_map.2 ⟨_, hm, rfl⟩
    · obtain ⟨p, hp, hpa⟩ := List.mem_map.1 (ih c hcm x hxc a ha)
      exact List.mem_map.2 ⟨p, inorder_child_subset hwf hcm p hp, hpa⟩

/-- In a well-shaped subtree whose in-order entries are pairwise related by `R` on their
keys, at every node every key stored below child `i` is related to key `i`, and key `i`
to every key stored below child `i + 1`. -/
theorem sep_all {R : Nat → Nat → Prop} {n : BTreeNode} (h : WF n) :
    List.Pairwise (fun a b => R a.1 b.1) (inorder n) →
      ∀ x ∈ nodes n, ∀ (i k : Nat) (c0 c1 : BTreeNode), x.keys[i]? = some k →
        x.children[i]? = some c0 → x.children[i + 1]? = some c1 →
        (∀ y ∈ nodes c0, ∀ a ∈ y.keys, R a k) ∧ (∀ y ∈ nodes c1, ∀ b ∈ y.keys, R k b) := by
  induction h with
  | mk n hv hl hi hc ih =>
    intro hp x hx
    have hwf : WF n := WF.mk n hv hl hi hc
    rcases mem_nodes.1 hx with h | ⟨c, hcm, hxc⟩
    · rw [h]
      intro i k c0 c1 hk hc0 hc1
      obtain ⟨h1, h2⟩ := sep_of_pairwise hwf hp hk hc0 hc1
      constructor
      · intro y hy a ha
        obtain ⟨p, hp1, hpa⟩ := List.mem_map.1
          (mem_inorderKeys_of_node (hc c0 (List.getElem?_mem hc0)) y hy a ha)
        rw [← hpa]
        exact h1 p hp1
      · intro y hy b hb
        obtain ⟨p, hp1, hpb⟩ := List.mem_map.1
          (mem_inorderKeys_of_node (hc c1 (List.getElem?_mem hc1)) y hy b hb)
        rw [← hpb]
        exact h2 p hp1
    · exact ih c hcm (pairwise_child hwf hp hcm) x hxc

/-- C15 as stated fails: after inserting the keys 1 to 5 into an empty order-5 tree the
root holds the key 3 and its child 1 is the leaf with keys 4, 5: key 0 of the root is not
a key of the subtree of child 1 at all, so it is not the smallest key there. -/
theorem c15_counterexample :
    ∃ t c, insertAll (new 5) [(1, 1), (2, 2), (3, 3), (4, 4), (5, 5)] = some t
      ∧ t.root.keys[0]? = some 3 ∧ t.root.children[0 + 1]? = some c
      ∧ nodes c = [c] ∧ c.keys = [4, 5] ∧ 3 ∉ c.keys := by
  refine ⟨⟨BTreeNode.mk false [3] [3]
    [BTreeNode.mk true [1, 2] [1, 2] [], BTreeNode.mk true [4, 5] [4, 5] []], 5⟩,
    BTreeNode.mk true [4, 5] [4, 5] [], ?_, rfl, rfl, ?_, rfl, by decide⟩
  · simp [insertAll, insert, new, insertNonFull_leaf, insertNonFull_internal, insertLeaf,
      shiftDown, scanDown, splitChild, splitLeft, splitRight, setChild]
  · simp [nodes, nodesList]

/-- C15 (amended): in every tree reached from the empty order-5 tree by inserts, at every
internal node and every key position `i`, `key[i]` is greater than or equal to every key
in the subtree of `child[i]` and less than or equal to every key in the subtree of
`child[i+1]`; when the inserted keys are pairwise distinct both comparisons are strict (so
`key[i]` lies strictly below the keys of `child[i+1]`, it is not one of them). -/
theorem c15_separator_keys (kvs : List (Nat × Int)) :
    ∃ t, insertAll (new 5) kvs = some t
      ∧ ∀ n ∈ nodes t.root, ∀ (i k : Nat) (c0 c1 : BTreeNode), n.keys[i]? = some k →
          n.children[i]? = some c0 → n.children[i + 1]? = some c1 →
          ((∀ y ∈ nodes c0, ∀ a ∈ y.keys, a ≤ k) ∧ (∀ y ∈ nodes c1, ∀ b ∈ y.keys, k ≤ b))
            ∧ ((kvs.map Prod.fst).Nodup →
                (∀ y ∈ nodes c0, ∀ a ∈ y.keys, a < k)
                  ∧ (∀ y ∈ nodes c1, ∀ b ∈ y.keys, k < b)) := by
  obtain ⟨t, d, h1, hinv, hperm⟩ := insertAll_new_spec (by decide : 3 ≤ 5) kvs
  refine ⟨t, h1, ?_⟩
  intro n hn i k c0 c1 hk hc0 hc1
  refine ⟨sep_all hinv.wf hinv.sorted n hn i k c0 c1 hk hc0 hc1, ?_⟩
  intro hnd
  have hs : List.Sorted (· ≤ ·) (inorderKeys t.root) := List.pairwise_map.2 hinv.sorted
  have hlt : List.Sorted (· < ·) (inorderKeys t.root) :=
    (sorted_lt_iff_nodup hs).2 ((hperm.map Prod.fst).nodup_iff.2 hnd)
  exact sep_all hinv.wf (List.pairwise_map.1 hlt) n hn i k c0 c1 hk hc0 hc1

/-- Witness of C15: the root after inserting the keys 2, 4, 1, 5, 3: key 4 between the
leaves with keys 1, 2, 3 and 5. -/
theorem c15_separator_keys_witness :
    ∃ t c0 c1, insertAll (new 5) [(2, 2), (4, 4), (1, 1), (5, 5), (3, 3)] = some t
      ∧ t.root ∈ nodes t.root ∧ t.root.keys[0]? = some 4
      ∧ t.root.children[0]? = some c0 ∧ t.root.children[0 + 1]? = some c1
      ∧ (([(2, 2), (4, 4), (1, 1), (5, 5), (3, 3)] : List (Nat × Int)).map Prod.fst).Nodup
      ∧ (∀ y ∈ nodes c0, ∀ a ∈ y.keys, a < 4) ∧ (∀ y ∈ nodes c1, ∀ b ∈ y.keys, 4 < b) := by
  obtain ⟨t, h1, h2⟩ := c15_separator_keys [(2, 2), (4, 4), (1, 1), (5, 5), (3, 3)]
  have heval : insertAll (new 5) [(2, 2), (4, 4), (1, 1), (5, 5), (3, 3)]
      = some ⟨BTreeNode.mk false [4] [4]
          [BTreeNode.mk true [1, 2, 3] [1, 2, 3] [], BTreeNode.mk true [5] [5] []], 5⟩ := by
    simp [insertAll, insert, new, insertNonFull_leaf, insertNonFull_internal, insertLeaf,
      shiftDown, scanDown, splitChild, splitLeft, splitRight, setChild]
  rw [heval] at h1
  cases h1
  exact ⟨_, BTreeNode.mk true [1, 2, 3] [1, 2, 3] [], BTreeNode.mk true [5] [5] [], heval,
    self_mem_nodes _, rfl, rfl, rfl, by decide,
    (h2 _ (self_mem_nodes _) 0 4 _ _ rfl rfl rfl).2 (by decide)⟩

end BTree

/-! ## Episode end (`canvas.cpp`) -/

namespace Canvas

/-- The index pairs `(i, j)` visited by the two nested loops of `resetCanvas`, in order. -/
def gridIndices : List (Nat × Nat) :=
  (List.range 50).flatMap (fun i => (List.range 50).map (fun j => (i, j)))

/-- The writes `canvas_[i][j] = {j, i, 15, PixelMood::Calm, 0, 0}` of `resetCanvas`, one
per index pair; `none` when a row or a column does not exist. -/
def resetCells : List (Nat × Nat) → List (List Pixel) → Option (List (List Pixel))
  | [], g => some g
  | ij :: rest, g =>
    match setCell g ij.1 ij.2 (defaultPixel ij.1 ij.2) with
    | none => none
    | some g1 => resetCells rest g1

/-- `Canvas::resetCanvas()`: every cell back to the default pixel, every quest back to
progress 0 and not completed, `cooldowns_.clear()`. -/
def resetCanvas (s : Canvas) : Option Canvas :=
  match resetCells gridIndices s.canvas with
  | none => none
  | some g =>
    some { s with
      canvas := g
      quests := s.quests.map (fun q => { q with progress := 0, completed := false })
      cooldowns := fun _ => none }

/-- `Canvas::endEpisode()`, run to completion under the canvas lock: freeze, copy the grid
for the PNG export (`Snapshot::exportPNG` only reads the copy and writes a file), record
the episode in the Store with the clock reading `endTime`, sleep, clear the snapshots,
`resetCanvas()`, `episodeNumber_++` (a `uint32_t`), take the clock reading `startTime` as
the new start time, unfreeze. Returns the canvas and the Store left behind. -/
def endEpisode (s : Canvas) (db : Database) (endTime startTime : Nat) :
    Option (Canvas × Database) :=
  match getAllPixels { s with episodeFrozen := true } with
  | none => none
  | some _ =>
    match resetCanvas { s with episodeFrozen := true, snapshots := [] } with
    | none => none
    | some r =>
      some ({ r with
          episodeNumber := (r.episodeNumber + 1) % 2 ^ 32
          episodeStartTime := startTime
          episodeFrozen := false },
        db.saveEpisode s.episodeNumber s.episodeStartTime endTime)

/-- The read `g[j][i]` with indices that are not negative. -/
def cellAt (g : List (List Pixel)) (j i : Nat) : Option Pixel :=
  match g[j]? with
  | none => none
  | some row => row[i]?

theorem cellAt_set {g : List (List Pixel)} {y x : Nat} {row : List Pixel}
    (hrow : g[y]? = some row) (hx : x < row.length) (p : Pixel) (j i : Nat) :
    cellAt (g.set y (row.set x p)) j i
      = if j = y ∧ i = x then some p else cellAt g j i := by
  have hyl : y < g.length := (List.getElem?_eq_some_iff.1 hrow).1
  unfold cellAt
  by_cases hj : j = y
  · subst hj
    simp only [List.getElem?_set, if_true, if_pos hyl, true_and, hrow]
    by_cases hi : i = x
    · subst hi
      simp [hx]
    · have : x ≠ i := fun h => hi h.symm
      simp [hi, this]
  · have : y ≠ j := fun h => hj h.symm
    simp [List.getElem?_set, this, hj]

theorem resetCells_spec :
    ∀ (l : List (Nat × Nat)) (g : List (List Pixel)), g.length = 50 →
      (∀ row ∈ g, row.length = 50) → (∀ ij ∈ l, ij.1 < 50 ∧ ij.2 < 50) →
      ∃ g1, resetCells l g = some g1 ∧ g1.length = 50 ∧ (∀ row ∈ g1, row.length = 50)
        ∧ ∀ j i, cellAt g1 j i
            = if (j, i) ∈ l then some (defaultPixel j i) else cellAt g j i
  | [], g, hr, hc, _ => ⟨g, rfl, hr, hc, fun j i => by simp⟩
  | ij :: rest, g, hr, hc, hl => by
    obtain ⟨h1, h2⟩ := hl ij (List.mem_cons_self _ _)
    obtain ⟨row, hrow, hset⟩ := setCell_some (defaultPixel ij.1 ij.2) hr hc h1 h2
    obtain ⟨hr1, hc1⟩ := @set_shape g hr hc ij.1 ij.2 row hrow (defaultPixel ij.1 ij.2)
    obtain ⟨g2, hg2, hr2, hc2, hcell⟩ := resetCells_spec rest _ hr1 hc1
      (fun p hp => hl p (List.mem_cons_of_mem _ hp))
    refine ⟨g2, by simp only [resetCells, hset, hg2], hr2, hc2, ?_⟩
    intro j i
    have hxl : ij.2 < row.length := by
      rw [hc row (List.getElem?_mem hrow)]; exact h2
    rw [hcell, cellAt_set hrow hxl]
    by_cases hm : (j, i) ∈ rest
    · rw [if_pos hm, if_pos (List.mem_cons_of_mem _ hm)]
    · rw [if_neg hm]
      by_cases he : j = ij.1 ∧ i = ij.2
      · rw [if_pos he, if_pos (by rw [he.1, he.2]; exact List.mem_cons_self _ _), he.1, he.2]
      · rw [if_neg he, if_neg]
        intro hmem
        rcases List.mem_cons.1 hmem with h | h
        · exact he ⟨congrArg Prod.fst h, congrArg Prod.snd h⟩
        · exact hm h

theorem mem_gridIndices {j i : Nat} : (j, i) ∈ gridIndices ↔ j < 50 ∧ i < 50 := by
  unfold gridIndices
  simp only [List.mem_flatMap, List.mem_map, List.mem_range, Prod.mk.injEq]
  constructor
  · rintro ⟨a, ha, b, hb, rfl, rfl⟩
    exact ⟨ha, hb⟩
  · intro h
    exact ⟨j, h.1, i, h.2, rfl, rfl⟩

theorem grid_ext {g1 g2 : List (List Pixel)} (h1 : g1.length = 50) (h2 : g2.length = 50)
    (c1 : ∀ row ∈ g1, row.length = 50) (c2 : ∀ row ∈ g2, row.length = 50)
    (h : ∀ j i, j < 50 → i < 50 → cellAt g1 j i = cellAt g2 j i) : g1 = g2 := by
  apply List.ext_getElem (h1.trans h2.symm)
  intro j hj1 hj2
  have hl1 : g1[j].length = 50 := c1 _ (List.getElem_mem hj1)
  have hl2 : g2[j].length = 50 := c2 _ (List.getElem_mem hj2)
  apply List.ext_getElem (hl1.trans hl2.symm)
  intro i hi1 hi2
  have := h j i (by omega) (by omega)
  unfold cellAt at this
  rw [List.getElem?_eq_getElem hj1, List.getElem?_eq_getElem hj2] at this
  simp only [List.getElem?_eq_getElem hi1, List.getElem?_eq_getElem hi2] at this
  exact Option.some.inj this

theorem cellAt_new {j i : Nat} (hj : j < 50) (hi : i < 50) :
    cellAt Canvas.new.canvas j i = some (defaultPixel j i) := by
  unfold cellAt
  simp [Canvas.new, hj, hi]

theorem resetCells_grid {g : List (List Pixel)} (hr : g.length = 50)
    (hc : ∀ row ∈ g, row.length = 50) : resetCells gridIndices g = some Canvas.new.canvas := by
  obtain ⟨g1, h1, hr1, hc1, hcell⟩ := resetCells_spec gridIndices g hr hc
    (fun ij hij => mem_gridIndices.1 hij)
  rw [h1]
  congr 1
  apply grid_ext hr1 new_Shape.rows hc1 new_Shape.cols
  intro j i hj hi
  rw [hcell, if_pos (mem_gridIndices.2 ⟨hj, hi⟩), cellAt_new hj hi]

theorem getAllPixels_of_shape {s : Canvas} (hrows : s.canvas.length = 50)
    (hcols : ∀ row ∈ s.canvas, row.length = 50) :
    getAllPixels s = some ((regionIndices 0 0 50 50).map (cellD s.canvas)) := by
  unfold getAllPixels
  simp only [CANVAS_SIZE]
  apply allSome_map
  intro ji hji
  obtain ⟨h1, h2⟩ := mem_regionIndices.1 hji
  exact getCell_some_of_shape hrows hcols h1 h2

/-- The state that `endEpisode` leaves behind on a canvas of the constructor's shape. -/
theorem endEpisode_spec (s : Canvas) (hs : Shape s) (db : Database) (endTime startTime : Nat) :
    endEpisode s db endTime startTime
      = some ({ canvas := Canvas.new.canvas
                episodeNumber := (s.episodeNumber + 1) % 2 ^ 32
                episodeStartTime := startTime
                episodeFrozen := false
                cooldowns := fun _ => none
                currentSeason := s.currentSeason
                quests := s.quests.map (fun q => { q with progress := 0, completed := false })
                chatMessages := s.chatMessages
                snapshots := [] },
              db.saveEpisode s.episodeNumber s.episodeStartTime endTime) := by
  unfold endEpisode
  rw [@getAllPixels_of_shape { s with episodeFrozen := true } hs.rows hs.cols]
  simp only [resetCanvas, resetCells_grid hs.rows hs.cols]

theorem endEpisode_Shape {s s1 : Canvas} {db db1 : Database} {endTime startTime : Nat}
    (hs : Shape s) (h : endEpisode s db endTime startTime = some (s1, db1)) : Shape s1 := by
  rw [endEpisode_spec s hs] at h
  obtain ⟨rfl, -⟩ := Prod.mk.inj (Option.some.inj h)
  exact ⟨new_Shape.rows, new_Shape.cols, by simp [hs.quests]⟩

theorem placePixel_no_cooldown {s : Canvas} (hs : Shape s) (hf : s.episodeFrozen = false)
    (now : Nat) {x y : Int} (color : Nat) (mood : PixelMood) {userId : Nat}
    (hc : s.cooldowns userId = none) (isLoggedIn : Bool)
    (hx0 : 0 ≤ x) (hx1 : x < 50) (hy0 : 0 ≤ y) (hy1 : y < 50) :
    ∃ s2, placePixel s now x y color mood userId isLoggedIn = some (true, s2) := by
  obtain ⟨q, hq, -⟩ := updateQuests_some x y color mood hs.quests
  obtain ⟨row, hrow, hset⟩ := @setCell_some s.canvas y.toNat x.toNat
    ⟨x, y, color, mood, now, userId⟩ hs.rows hs.cols (by omega) (by omega)
  have hb : ¬ (x < 0 ∨ x ≥ CANVAS_SIZE ∨ y < 0 ∨ y ≥ CANVAS_SIZE) := by
    simp only [CANVAS_SIZE]; omega
  unfold placePixel
  simp only [hf, Bool.false_eq_true, if_false, if_neg hb, cooldownActive, hc, hset, hq]
  exact ⟨_, rfl⟩

/-- C17: on a canvas of the constructor's shape, whatever its cooldown entries,
`endEpisode` completes, and in the state it leaves `placePixel` with in-bounds coordinates
returns `true` for every user id, either login status and every clock reading. -/
theorem c17_place_after_episode_end (s : Canvas) (hs : Shape s) (db : Database)
    (endTime startTime : Nat) :
    ∃ s1 db1, endEpisode s db endTime startTime = some (s1, db1)
      ∧ s1.episodeFrozen = false ∧ (∀ u, s1.cooldowns u = none)
      ∧ ∀ (now : Nat) (x y : Int) (color : Nat) (mood : PixelMood) (userId : Nat)
          (isLoggedIn : Bool), 0 ≤ x → x < 50 → 0 ≤ y → y < 50 →
          ∃ s2, placePixel s1 now x y color mood userId isLoggedIn = some (true, s2) := by
  have hspec := endEpisode_spec s hs db endTime startTime
  have hs1 := endEpisode_Shape hs hspec
  refine ⟨_, _, hspec, rfl, fun _ => rfl, ?_⟩
  intro now x y color mood userId isLoggedIn hx0 hx1 hy0 hy1
  exact placePixel_no_cooldown hs1 rfl now color mood rfl isLoggedIn hx0 hx1 hy0 hy1

/-- Witness of C17: user 7 places at clock reading 100, the episode ends, and user 7
places again at clock reading 101. -/
theorem c17_place_after_episode_end_witness :
    ∃ s0, placePixel Canvas.new 100 3 4 2 PixelMood.Calm 7 true = some (true, s0)
      ∧ Shape s0 ∧ s0.cooldowns 7 = some 100
      ∧ ∃ s1 db1, endEpisode s0 Database.new 100 101 = some (s1, db1)
          ∧ ∃ s2, placePixel s1 101 3 4 2 PixelMood.Calm 7 true = some (true, s2) := by
  obtain ⟨hyes, -⟩ := placePixel_spec Canvas.new new_Shape 100 3 4 2 PixelMood.Calm 7 true
    (by norm_num) (fun last h => by simp [Canvas.new] at h)
  obtain ⟨row, q, -, -, h⟩ := hyes
    ⟨rfl, by norm_num, by norm_num, by norm_num, by norm_num, Or.inl rfl⟩
  obtain ⟨ok, s0, h0, hs0, -, -⟩ :=
    placePixel_total Canvas.new new_Shape 100 3 4 2 PixelMood.Calm 7 true
  rw [h] at h0
  obtain ⟨-, rfl⟩ := Prod.mk.inj (Option.some.inj h0)
  obtain ⟨s1, db1, h1, -, -, h2⟩ := c17_place_after_episode_end _ hs0 Database.new 100 101
  exact ⟨_, h, hs0, by simp, s1, db1, h1,
    h2 101 3 4 2 PixelMood.Calm 7 true (by norm_num) (by norm_num) (by norm_num) (by norm_num)⟩

theorem getCell_new {j i : Int} (hj0 : 0 ≤ j) (hj : j < 50) (hi0 : 0 ≤ i) (hi : i < 50) :
    getCell Canvas.new.canvas j i = some ⟨i, j, 15, PixelMood.Calm, 0, 0⟩ := by
  have h1 : j.toNat < 50 := by omega
  have h2 : i.toNat < 50 := by omega
  have h4 : getCell Canvas.new.canvas j i = cellAt Canvas.new.canvas j.toNat i.toNat := by
    unfold getCell cellAt
    exact if_neg (by omega)
  rw [h4, cellAt_new h1 h2, defaultPixel, Int.toNat_of_nonneg hj0, Int.toNat_of_nonneg hi0]

/-- C18 as stated fails: from the state with episode number `2 ^ 32 - 1` (the largest
`uint32_t`), `endEpisode` leaves episode number 0, not `2 ^ 32`. -/
theorem c18_counterexample :
    ∃ s1 db1, endEpisode { Canvas.new with episodeNumber := 2 ^ 32 - 1 } Database.new 0 0
        = some (s1, db1)
      ∧ s1.episodeNumber = 0 ∧ s1.episodeNumber ≠ (2 ^ 32 - 1) + 1 := by
  have hs : Shape { Canvas.new with episodeNumber := 2 ^ 32 - 1 } :=
    ⟨new_Shape.rows, new_Shape.cols, new_Shape.quests⟩
  refine ⟨_, _, endEpisode_spec _ hs Database.new 0 0, ?_, ?_⟩
  · norm_num
  · norm_num

/-- C18 (amended): on a canvas of the constructor's shape with episode number `n`,
`endEpisode` completes and leaves: the constructor's grid, every cell `(x, y)` being
`{x, y, 15, Calm, 0, 0}`; the same quests with progress 0, not completed, description and
target unchanged; no cooldown entry; no snapshot; episode number `(n + 1) mod 2 ^ 32`,
which is `n + 1` unless `n` is the largest `uint32_t`; the frozen flag cleared; the chat
log and the season as they were. -/
theorem c18_episode_end_state (s : Canvas) (hs : Shape s) (db : Database)
    (endTime startTime : Nat) :
    ∃ s1 db1, endEpisode s db endTime startTime = some (s1, db1)
      ∧ s1.canvas = Canvas.new.canvas
      ∧ (∀ x y : Int, 0 ≤ x → x < 50 → 0 ≤ y → y < 50 →
          getCell s1.canvas y x = some ⟨x, y, 15, PixelMood.Calm, 0, 0⟩)
      ∧ s1.quests.length = 3
      ∧ s1.quests = s.quests.map (fun q => ⟨q.description, 0, q.target, false⟩)
      ∧ (∀ u, s1.cooldowns u = none) ∧ s1.snapshots = []
      ∧ s1.episodeNumber = (s.episodeNumber + 1) % 2 ^ 32
      ∧ (s.episodeNumber + 1 < 2 ^ 32 → s1.episodeNumber = s.episodeNumber + 1)
      ∧ s1.episodeFrozen = false ∧ s1.chatMessages = s.chatMessages
      ∧ s1.currentSeason = s.currentSeason := by
  refine ⟨_, _, endEpisode_spec s hs db endTime startTime, rfl, ?_, ?_, rfl,
    fun _ => rfl, rfl, rfl, fun h => Nat.mod_eq_of_lt h, rfl, rfl, rfl⟩
  · intro x y hx0 hx1 hy0 hy1
    exact getCell_new hy0 hy1 hx0 hx1
  · simp [hs.quests]

/-- Witness of C18: the first episode of the freshly constructed canvas ends. -/
theorem c18_episode_end_state_witness :
    Shape Canvas.new
      ∧ ∃ s1 db1, endEpisode Canvas.new Database.new 900 910 = some (s1, db1)
          ∧ s1.canvas = Canvas.new.canvas ∧ s1.episodeNumber = 2
          ∧ s1.episodeFrozen = false := by
  obtain ⟨s1, db1, h1, h2, -, -, -, -, -, -, h3, h4, -, -⟩ :=
    c18_episode_end_state Canvas.new new_Shape Database.new 900 910
  exact ⟨new_Shape, s1, db1, h1, h2, h3 (by norm_num [Canvas.new]), h4⟩

end Canvas

/-! ## Quest progress (`canvas.cpp`) -/

namespace Canvas

/-- A run of `placePixel` calls: the state left behind and the calls that returned `true`,
in call order. -/
def placed (s : Canvas) : List Call → Option (Canvas × List Call)
  | [] => some (s, [])
  | c :: rest =>
    match placePixel s c.now c.x c.y c.color c.mood c.userId c.isLoggedIn with
    | none => none
    | some r =>
      match placed r.2 rest with
      | none => none
      | some r2 => some (r2.1, if r.1 then c :: r2.2 else r2.2)

/-- The placement counts for quest 0: `color == 2`. -/
def matches0 (c : Call) : Bool := decide (c.color = 2)
/-- The placement counts for quest 1: `x < 10 && y < 10`. -/
def matches1 (c : Call) : Bool := decide (c.x < 10 ∧ c.y < 10)
/-- The placement counts for quest 2: `mood == PixelMood::Calm`. -/
def matches2 (c : Call) : Bool := decide (c.mood = PixelMood.Calm)

/-- What one branch of `updateQuests` does to its quest. -/
def stepQ (cond : Bool) (q : Quest) : Quest :=
  if cond = true ∧ q.completed = false then advance q else q

theorem questStep_zero (q0 q1 q2 : Quest) (cond : Bool) :
    questStep [q0, q1, q2] 0 cond = some [stepQ cond q0, q1, q2] := by
  cases cond <;> cases h : q0.completed <;> simp [questStep, stepQ, h]

theorem questStep_one (q0 q1 q2 : Quest) (cond : Bool) :
    questStep [q0, q1, q2] 1 cond = some [q0, stepQ cond q1, q2] := by
  cases cond <;> cases h : q1.completed <;> simp [questStep, stepQ, h]

theorem questStep_two (q0 q1 q2 : Quest) (cond : Bool) :
    questStep [q0, q1, q2] 2 cond = some [q0, q1, stepQ cond q2] := by
  cases cond <;> cases h : q2.completed <;> simp [questStep, stepQ, h]

theorem updateQuests_three (q0 q1 q2 : Quest) (x y : Int) (color : Nat) (mood : PixelMood) :
    updateQuests [q0, q1, q2] x y color mood
      = some [stepQ (decide (color = 2)) q0, stepQ (decide (x < 10 ∧ y < 10)) q1,
          stepQ (decide (mood = PixelMood.Calm)) q2] := by
  unfold updateQuests
  rw [questStep_zero]
  simp only
  rw [questStep_one]
  simp only
  rw [questStep_two]

/-- A quest with target `T` after `m` matching successful placements. -/
def QuestOK (q : Quest) (T : Int) (m : Nat) : Prop :=
  q.target = T ∧ q.progress = min T (m : Int) ∧ (q.completed = true ↔ T ≤ (m : Int))

theorem QuestOK.step {q : Quest} {T : Int} {m : Nat} (h : QuestOK q T m) (cond : Bool) :
    QuestOK (stepQ cond q) T (m + if cond then 1 else 0) := by
  obtain ⟨h1, h2, h3⟩ := h
  cases cond with
  | false => simpa [stepQ] using ⟨h1, h2, h3⟩
  | true =>
    cases hc : q.completed with
    | true =>
      have hT : T ≤ (m : Int) := h3.1 hc
      simp only [stepQ, hc, if_true]
      refine ⟨h1, ?_, ?_⟩
      · simp only [Bool.true_eq_false, and_false, if_false]
        rw [h2]
        push_cast
        omega
      · simp only [Bool.true_eq_false, and_false, if_false, hc, true_iff]
        push_cast
        omega
    | false =>
      have hT : ¬ T ≤ (m : Int) := fun hle => by
        have := h3.2 hle
        rw [hc] at this
        cases this
      simp only [stepQ, hc, and_self, if_true, advance]
      refine ⟨h1, ?_, ?_⟩
      · simp only
        rw [h2]
        push_cast
        omega
      · simp only [h1, h2, ge_iff_le, hc]
        push_cast
        have e : min T (m : Int) = m := by omega
        rw [e]
        by_cases hle : T ≤ (m : Int) + 1
        · simp [hle]
        · simp [hle]

/-- The three quests after `m0`, `m1`, `m2` matching successful placements. -/
def QuestsOK (quests : List Quest) (m0 m1 m2 : Nat) : Prop :=
  ∃ q0 q1 q2, quests = [q0, q1, q2] ∧ QuestOK q0 40 m0 ∧ QuestOK q1 100 m1 ∧ QuestOK q2 20 m2

/-- A rejected `placePixel` leaves the state as it was. -/
theorem placePixel_false {s s1 : Canvas} {now : Nat} {x y : Int} {color : Nat}
    {mood : PixelMood} {userId : Nat} {isLoggedIn : Bool}
    (h : placePixel s now x y color mood userId isLoggedIn = some (false, s1)) : s1 = s := by
  unfold placePixel at h
  cases hf : s.episodeFrozen with
  | true =>
    simp only [hf, if_true, Option.some.injEq, Prod.mk.injEq, true_and] at h
    exact h.symm
  | false =>
    simp only [hf, Bool.false_eq_true, if_false] at h
    by_cases hb : x < 0 ∨ x ≥ CANVAS_SIZE ∨ y < 0 ∨ y ≥ CANVAS_SIZE
    · simp only [if_pos hb, Option.some.injEq, Prod.mk.injEq, true_and] at h
      exact h.symm
    · rw [if_neg hb] at h
      cases hblk : cooldownActive s now userId
          (if isLoggedIn then USER_COOLDOWN else GUEST_COOLDOWN) with
      | true =>
        simp only [hblk, if_true, Option.some.injEq, Prod.mk.injEq, true_and] at h
        exact h.symm
      | false =>
        simp only [hblk, Bool.false_eq_true, if_false] at h
        split at h
        · simp at h
        · cases h

theorem placePixel_quests {s : Canvas} (hs : Shape s) {m0 m1 m2 : Nat}
    (hq : QuestsOK s.quests m0 m1 m2) (c : Call) :
    ∃ ok s1, placePixel s c.now c.x c.y c.color c.mood c.userId c.isLoggedIn = some (ok, s1)
      ∧ Shape s1
      ∧ QuestsOK s1.quests (m0 + if ok && matches0 c then 1 else 0)
          (m1 + if ok && matches1 c then 1 else 0) (m2 + if ok && matches2 c then 1 else 0) := by
  obtain ⟨ok, s1, h1, hs1, -, -⟩ :=
    placePixel_total s hs c.now c.x c.y c.color c.mood c.userId c.isLoggedIn
  refine ⟨ok, s1, h1, hs1, ?_⟩
  cases ok with
  | false =>
    have he : s1 = s := placePixel_false h1
    rw [he]
    simpa using hq
  | true =>
    obtain ⟨-, -, -, -, -, g, q, -, hu, rfl⟩ := placePixel_true h1
    obtain ⟨q0, q1, q2, hqs, h0, h1q, h2⟩ := hq
    rw [hqs, updateQuests_three] at hu
    refine ⟨_, _, _, (Option.some.inj hu).symm, ?_, ?_, ?_⟩
    · simpa [matches0] using h0.step (decide (c.color = 2))
    · simpa [matches1] using h1q.step (decide (c.x < 10 ∧ c.y < 10))
    · simpa [matches2] using h2.step (decide (c.mood = PixelMood.Calm))

theorem placed_quests :
    ∀ (calls : List Call) (s : Canvas) (m0 m1 m2 : Nat), Shape s →
      QuestsOK s.quests m0 m1 m2 →
      ∃ s1 l, placed s calls = some (s1, l) ∧ Shape s1
        ∧ QuestsOK s1.quests (m0 + l.countP matches0) (m1 + l.countP matches1)
            (m2 + l.countP matches2)
  | [], s, m0, m1, m2, hs, hq => ⟨s, [], rfl, hs, by simpa using hq⟩
  | c :: rest, s, m0, m1, m2, hs, hq => by
    obtain ⟨ok, s1, h1, hs1, hq1⟩ := placePixel_quests hs hq c
    obtain ⟨s2, l, h2, hs2, hq2⟩ := placed_quests rest s1 _ _ _ hs1 hq1
    refine ⟨s2, if ok then c :: l else l, by simp only [placed, h1, h2], hs2, ?_⟩
    cases ok with
    | false => simpa using hq2
    | true =>
      simp only [Bool.true_and, if_true, List.countP_cons] at hq2 ⊢
      have e : ∀ (m a : Nat) (b : Bool),
          m + (if b = true then 1 else 0) + a = m + (a + if b = true then 1 else 0) := by
        intro m a b; omega
      rw [e, e, e] at hq2
      exact hq2

/-- The quests as the constructor and `resetCanvas` leave them: progress 0, not completed,
targets 40, 100 and 20. -/
def FreshQuests (s : Canvas) : Prop :=
  s.quests.map (fun q => (q.progress, q.target, q.completed))
    = [(0, 40, false), (0, 100, false), (0, 20, false)]

theorem FreshQuests.ok {s : Canvas} (h : FreshQuests s) : QuestsOK s.quests 0 0 0 := by
  unfold FreshQuests at h
  have hlen : s.quests.length = 3 := by
    have := congrArg List.length h
    simpa using this
  obtain ⟨q0, q1, q2, hqs⟩ := List.length_eq_three.1 hlen
  rw [hqs] at h
  simp only [List.map_cons, List.map_nil, List.cons.injEq, Prod.mk.injEq, and_true] at h
  obtain ⟨⟨a1, a2, a3⟩, ⟨b1, b2, b3⟩, c1, c2, c3⟩ := h
  exact ⟨q0, q1, q2, hqs, ⟨a2, by rw [a1]; rfl, by rw [a3]; simp⟩,
    ⟨b2, by rw [b1]; rfl, by rw [b3]; simp⟩, ⟨c2, by rw [c1]; rfl, by rw [c3]; simp⟩⟩

/-- C19: start from a canvas of the constructor's shape whose quests are as the
constructor or the last reset left them, and run any sequence of `placePixel` calls. Then
every call returns, and with `n0`, `n1`, `n2` the numbers of calls that returned `true` and
had `color == 2`, resp. `x < 10 && y < 10`, resp. `mood == Calm`: quest `k` has
progress `min(target, nk)` and is completed exactly when `nk >= target`, for the targets
40, 100 and 20. In particular once 40 placements of color 2 have succeeded, quest 0 is
completed with progress 40, and stays so. -/
theorem c19_quest_progress (s0 : Canvas) (hs : Shape s0) (hq : FreshQuests s0)
    (calls : List Call) :
    ∃ s l q0 q1 q2, placed s0 calls = some (s, l) ∧ s.quests = [q0, q1, q2]
      ∧ q0.target = 40 ∧ q0.progress = min 40 ((l.countP matches0 : Nat) : Int)
      ∧ (q0.completed = true ↔ 40 ≤ l.countP matches0)
      ∧ q1.target = 100 ∧ q1.progress = min 100 ((l.countP matches1 : Nat) : Int)
      ∧ (q1.completed = true ↔ 100 ≤ l.countP matches1)
      ∧ q2.target = 20 ∧ q2.progress = min 20 ((l.countP matches2 : Nat) : Int)
      ∧ (q2.completed = true ↔ 20 ≤ l.countP matches2)
      ∧ (40 ≤ l.countP matches0 → q0.completed = true ∧ q0.progress = 40) := by
  obtain ⟨s, l, h1, -, q0, q1, q2, hqs, h0, h1q, h2⟩ := placed_quests calls s0 0 0 0 hs hq.ok
  simp only [Nat.zero_add] at h0 h1q h2
  obtain ⟨a1, a2, a3⟩ := h0
  obtain ⟨b1, b2, b3⟩ := h1q
  obtain ⟨c1, c2, c3⟩ := h2
  refine ⟨s, l, q0, q1, q2, h1, hqs, a1, a2, ?_, b1, b2, ?_, c1, c2, ?_, ?_⟩
  · rw [a3]; omega
  · rw [b3]; omega
  · rw [c3]; omega
  · intro h
    refine ⟨a3.2 (by omega), ?_⟩
    rw [a2]
    omega

/-- After `endEpisode` the quests are fresh, with the targets they had. -/
theorem endEpisode_FreshQuests {s s1 : Canvas} {db db1 : Database} {endTime startTime : Nat}
    (hs : Shape s) (ht : s.quests.map (fun q => q.target) = [40, 100, 20])
    (h : endEpisode s db endTime startTime = some (s1, db1)) : FreshQuests s1 := by
  rw [endEpisode_spec s hs] at h
  obtain ⟨rfl, -⟩ := Prod.mk.inj (Option.some.inj h)
  obtain ⟨q0, q1, q2, hqs⟩ := List.length_eq_three.1 hs.quests
  unfold FreshQuests
  rw [hqs] at ht ⊢
  simp only [List.map_cons, List.map_nil, List.cons.injEq, and_true] at ht
  simp only [List.map_cons, List.map_nil, ht.1, ht.2.1, ht.2.2]

/-- Witness of C19: the first episode ends, then one placement of color 2 is made. -/
theorem c19_quest_progress_witness :
    ∃ s0 db, endEpisode Canvas.new Database.new 900 910 = some (s0, db)
      ∧ Shape s0 ∧ FreshQuests s0
      ∧ ∃ s l q0 q1 q2, placed s0 [⟨911, 3, 4, 2, PixelMood.Calm, 7, true⟩] = some (s, l)
          ∧ s.quests = [q0, q1, q2]
          ∧ q0.progress = min 40 ((l.countP matches0 : Nat) : Int) := by
  have hspec := endEpisode_spec Canvas.new new_Shape Database.new 900 910
  have hs0 := endEpisode_Shape new_Shape hspec
  have hfresh := endEpisode_FreshQuests new_Shape rfl hspec
  obtain ⟨s, l, q0, q1, q2, h1, h2, -, h3, -⟩ :=
    c19_quest_progress _ hs0 hfresh [⟨911, 3, 4, 2, PixelMood.Calm, 7, true⟩]
  exact ⟨_, _, hspec, hs0, hfresh, s, l, q0, q1, q2, h1, h2, h3⟩

/-! ## Regions (`canvas.cpp`) -/

theorem allSome_eq_some {α : Type} :
    ∀ {l : List (Option α)} {r : List α}, allSome l = some r → r.map some = l
  | [], r, h => by
    simp only [allSome, Option.some.injEq] at h
    rw [← h]; rfl
  | none :: l, r, h => by simp [allSome] at h
  | some a :: l, r, h => by
    simp only [allSome] at h
    cases hl : allSome l with
    | none => rw [hl] at h; cases h
    | some l1 =>
      rw [hl] at h
      simp only [Option.some.injEq] at h
      rw [← h, List.map_cons, allSome_eq_some hl]

theorem length_intRange (a b : Int) : (intRange a b).length = (b - a).toNat := by
  simp [intRange]

theorem length_flatMap_map {α β γ : Type} (f : α → β → γ) (l2 : List β) :
    ∀ (l1 : List α), (l1.flatMap (fun a => l2.map (f a))).length = l1.length * l2.length
  | [] => by simp
  | a :: l1 => by
    rw [List.flatMap_cons, List.length_append, length_flatMap_map f l2 l1, List.length_map,
      List.length_cons]
    ring

theorem length_regionIndices (x y endX endY : Int) :
    (regionIndices x y endX endY).length = (endY - y).toNat * (endX - x).toNat := by
  unfold regionIndices
  rw [length_flatMap_map, length_intRange, length_intRange]

/-- C20: on a canvas of the constructor's shape, for `x >= 0`, `y >= 0` and any width and
height with `x + width` and `y + height` within `int`, `getRegion` returns the reads
`canvas_[j][i]` for `y <= j < min(y + height, 50)` (outer loop) and
`x <= i < min(x + width, 50)` (inner loop), each of them in range, in that order; their
number is `max(0, min(x + width, 50) - x) * max(0, min(y + height, 50) - y)`; the result
is empty when `x >= 50`, `y >= 50`, `width <= 0` or `height <= 0`; and `getAllPixels()`
returns what `getRegion(0, 0, 50, 50)` returns, 2500 pixels. -/
theorem c20_getRegion_cells (s : Canvas) (hs : Shape s) (x y width height : Int)
    (hx : 0 ≤ x) (hy : 0 ≤ y)
    (hw : -(2 : Int) ^ 31 ≤ x + width ∧ x + width < (2 : Int) ^ 31)
    (hh : -(2 : Int) ^ 31 ≤ y + height ∧ y + height < (2 : Int) ^ 31) :
    ∃ r, getRegion s x y width height = some r
      ∧ r.map some = (intRange y (min (y + height) 50)).flatMap
          (fun j => (intRange x (min (x + width) 50)).map (fun i => getCell s.canvas j i))
      ∧ (r.length : Int) = max 0 (min (x + width) 50 - x) * max 0 (min (y + height) 50 - y)
      ∧ (x ≥ 50 ∨ y ≥ 50 ∨ width ≤ 0 ∨ height ≤ 0 → r = [])
      ∧ getAllPixels s = getRegion s 0 0 50 50
      ∧ ∃ all, getAllPixels s = some all ∧ all.length = 2500 := by
  have hr := getRegion_of_shape hs.rows hs.cols hx hy hw hh
  have hlen : (((regionIndices x y (min (x + width) 50) (min (y + height) 50)).map
      (cellD s.canvas)).length : Int)
      = max 0 (min (x + width) 50 - x) * max 0 (min (y + height) 50 - y) := by
    rw [List.length_map, length_regionIndices]
    push_cast
    rw [Int.toNat_eq_max, Int.toNat_eq_max, mul_comm, max_comm 0, max_comm 0]
  refine ⟨_, hr, ?_, hlen, ?_, ?_, ?_⟩
  · have h1 : getRegion s x y width height
        = allSome ((regionIndices x y (min (x + width) 50) (min (y + height) 50)).map
            (fun ji => getCell s.canvas ji.1 ji.2)) := by
      unfold getRegion addInt
      rw [if_pos hw, if_pos hh]
      rfl
    rw [h1] at hr
    rw [allSome_eq_some hr]
    unfold regionIndices
    rw [List.map_flatMap]
    simp only [List.map_map]
    rfl
  · intro hcase
    apply List.eq_nil_of_length_eq_zero
    have hz : max 0 (min (x + width) 50 - x) * max 0 (min (y + height) 50 - y) = 0 := by
      rcases hcase with h | h | h | h
      · have : max 0 (min (x + width) 50 - x) = 0 := by omega
        rw [this, zero_mul]
      · have : max 0 (min (y + height) 50 - y) = 0 := by omega
        rw [this, mul_zero]
      · have : max 0 (min (x + width) 50 - x) = 0 := by omega
        rw [this, zero_mul]
      · have : max 0 (min (y + height) 50 - y) = 0 := by omega
        rw [this, mul_zero]
    rw [hz] at hlen
    exact_mod_cast hlen
  · rw [getAllPixels_of_shape hs.rows hs.cols,
      getRegion_of_shape hs.rows hs.cols (Int.le_refl 0) (Int.le_refl 0)
        (by norm_num) (by norm_num)]
    rfl
  · refine ⟨_, getAllPixels_of_shape hs.rows hs.cols, ?_⟩
    rw [List.length_map, length_regionIndices]
    rfl

/-- Witness of C20: a rectangle that sticks out of the grid on the right. -/
theorem c20_getRegion_cells_witness :
    Shape Canvas.new ∧ (0 : Int) ≤ 48 ∧ (0 : Int) ≤ 0
      ∧ ∃ r, getRegion Canvas.new 48 0 5 1 = some r
          ∧ (r.length : Int) = max 0 (min (48 + 5) 50 - 48) * max 0 (min (0 + 1) 50 - 0) := by
  obtain ⟨r, h1, -, h2, -⟩ := c20_getRegion_cells Canvas.new new_Shape 48 0 5 1
    (by norm_num) (by norm_num) (by norm_num) (by norm_num)
  exact ⟨new_Shape, by norm_num, by norm_num, r, h1, h2⟩

end Canvas

/-! ## Reads of the canvas engine (`canvas.cpp`) -/

namespace Canvas

/-- C21 (the failing call): `getRegion(-1, 0, 1, 1)` on the freshly constructed canvas.
`endX = min(-1 + 1, 50) = 0` and `endY = 1`, so the loops visit the single index pair
`j = 0`, `i = -1` and read `canvas_[0][-1]`, which is not a cell of the grid: only the
upper ends of the rectangle are clipped. -/
theorem c21_getRegion_negative_origin :
    regionIndices (-1) 0 (min (-1 + 1) CANVAS_SIZE) (min (0 + 1) CANVAS_SIZE) = [(0, -1)]
      ∧ getCell Canvas.new.canvas 0 (-1) = none
      ∧ getRegion Canvas.new (-1) 0 1 1 = none := by
  refine ⟨by decide, by decide, ?_⟩
  have h : regionIndices (-1) 0 (min (-1 + 1) CANVAS_SIZE) (min (0 + 1) CANVAS_SIZE)
      = [(0, -1)] := by decide
  unfold getRegion addInt
  rw [if_pos (by norm_num), if_pos (by norm_num)]
  simp only [h, List.map_cons, List.map_nil]
  rfl

/-- Subtraction of two `int`; `none` on signed overflow. -/
def subInt (a b : Int) : Option Int :=
  if -(2 : Int) ^ 31 ≤ a - b ∧ a - b < (2 : Int) ^ 31 then some (a - b) else none

/-- `Canvas::getEpisodeInfo()` at clock reading `now`:
`int elapsed = now - episodeStartTime_;` (a `uint64_t` difference converted to `int`),
`int remaining = std::max(0, EPISODE_DURATION - elapsed);`,
`return {episodeNumber_, remaining, !episodeFrozen_, episodeFrozen_};`. -/
def getEpisodeInfo (s : Canvas) (now : Nat) : Option EpisodeInfo :=
  match subInt EPISODE_DURATION (toInt32 (sub64 now s.episodeStartTime)) with
  | none => none
  | some d => some ⟨s.episodeNumber, max 0 d, !s.episodeFrozen, s.episodeFrozen⟩

/-- C22 as stated fails: on the freshly constructed canvas (start time 0) at clock reading
`2 ^ 32 - 1`, the difference converted to `int` is -1 and `getEpisodeInfo` reports 901
seconds remaining, which is neither `max(0, 900 - (now - s)) = 0` nor at most 900. -/
theorem c22_counterexample :
    getEpisodeInfo Canvas.new (2 ^ 32 - 1) = some ⟨1, 901, true, false⟩
      ∧ Canvas.new.episodeStartTime ≤ 2 ^ 32 - 1
      ∧ max (0 : Int) (900 - (((2 ^ 32 - 1 : Nat) : Int) - (Canvas.new.episodeStartTime : Int)))
          = 0 := by
  refine ⟨?_, by norm_num [Canvas.new], by norm_num [Canvas.new]⟩
  have h1 : sub64 (2 ^ 32 - 1) Canvas.new.episodeStartTime = 2 ^ 32 - 1 := by
    rw [sub64_eq (by norm_num) (by norm_num [Canvas.new])]
    norm_num [Canvas.new]
  have h2 : toInt32 (2 ^ 32 - 1) = -1 := by
    unfold toInt32
    norm_num
  unfold getEpisodeInfo subInt
  rw [h1, h2]
  norm_num [EPISODE_DURATION, Canvas.new]

/-- C22 (amended): for a start time `s` and a clock reading `now >= s` (a `uint64_t`) with
`now - s < 2 ^ 31`, `getEpisodeInfo` returns the episode number unchanged,
`timeRemaining = max(0, 900 - (now - s))`, hence `0 <= timeRemaining <= 900`, `isFrozen`
equal to the frozen flag and `isActive` equal to its negation. -/
theorem c22_getEpisodeInfo (s : Canvas) (now : Nat) (hnow : now < 2 ^ 64)
    (hge : s.episodeStartTime ≤ now) (hlt : now - s.episodeStartTime < 2 ^ 31) :
    ∃ info, getEpisodeInfo s now = some info
      ∧ info.episodeNumber = s.episodeNumber
      ∧ info.timeRemaining = max 0 (900 - ((now : Int) - (s.episodeStartTime : Int)))
      ∧ 0 ≤ info.timeRemaining ∧ info.timeRemaining ≤ 900
      ∧ info.isFrozen = s.episodeFrozen ∧ info.isActive = !s.episodeFrozen := by
  have h1 : sub64 now s.episodeStartTime = now - s.episodeStartTime := sub64_eq hnow hge
  have h2 : toInt32 (now - s.episodeStartTime) = ((now - s.episodeStartTime : Nat) : Int) :=
    Database.toInt32_of_lt hlt
  have h3 : ((now - s.episodeStartTime : Nat) : Int) = (now : Int) - (s.episodeStartTime : Int) :=
    Int.ofNat_sub hge
  have hr : -(2 : Int) ^ 31 ≤ EPISODE_DURATION - ((now : Int) - (s.episodeStartTime : Int))
      ∧ EPISODE_DURATION - ((now : Int) - (s.episodeStartTime : Int)) < (2 : Int) ^ 31 := by
    simp only [EPISODE_DURATION]
    omega
  unfold getEpisodeInfo subInt
  rw [h1, h2, h3, if_pos hr]
  refine ⟨_, rfl, rfl, ?_, ?_, ?_, rfl, rfl⟩
  · simp only [EPISODE_DURATION]
  · simp only [EPISODE_DURATION]; omega
  · simp only [EPISODE_DURATION]; omega

/-- Witness of C22: the freshly constructed canvas read 100 seconds after its start
time. -/
theorem c22_getEpisodeInfo_witness :
    (100 : Nat) < 2 ^ 64 ∧ Canvas.new.episodeStartTime ≤ 100
      ∧ 100 - Canvas.new.episodeStartTime < 2 ^ 31
      ∧ ∃ info, getEpisodeInfo Canvas.new 100 = some info
          ∧ info.timeRemaining
              = max 0 (900 - (((100 : Nat) : Int) - (Canvas.new.episodeStartTime : Int))) := by
  obtain ⟨info, h1, -, h2, -⟩ := c22_getEpisodeInfo Canvas.new 100 (by norm_num)
    (by norm_num [Canvas.new]) (by norm_num [Canvas.new])
  exact ⟨by norm_num, by norm_num [Canvas.new], by norm_num [Canvas.new], info, h1, h2⟩

end Canvas

/-! ## Bounded logs -/

/-- `v.push_back(x); if (v.size() > cap) v.erase(v.begin());`. -/
def pushBounded {α : Type} (cap : Nat) (l : List α) (x : α) : List α :=
  if (l ++ [x]).length > cap then (l ++ [x]).drop 1 else l ++ [x]

theorem length_pushBounded {α : Type} {cap : Nat} {l : List α} (h : l.length ≤ cap) (x : α) :
    (pushBounded cap l x).length ≤ cap := by
  unfold pushBounded
  split
  · simp only [List.length_drop, List.length_append, List.length_singleton]
    omega
  · rename_i hn
    omega

/-- Pushing `xs` one by one onto a log within its bound keeps the last `cap` entries of
everything pushed so far. -/
theorem foldl_pushBounded {α : Type} (cap : Nat) :
    ∀ (xs l : List α), l.length ≤ cap →
      xs.foldl (pushBounded cap) l = (l ++ xs).drop ((l ++ xs).length - cap)
  | [], l, h => by
    simp only [List.foldl_nil, List.append_nil]
    rw [Nat.sub_eq_zero_of_le h, List.drop_zero]
  | x :: xs, l, h => by
    rw [List.foldl_cons, foldl_pushBounded cap xs _ (length_pushBounded h x)]
    unfold pushBounded
    by_cases hgt : (l ++ [x]).length > cap
    · rw [if_pos hgt]
      have e1 : (l ++ [x]).drop 1 ++ xs = (l ++ x :: xs).drop 1 := by
        cases l with
        | nil => rfl
        | cons a l1 => simp
      rw [e1, List.drop_drop, List.length_drop]
      simp only [List.length_append, List.length_cons, List.length_nil] at hgt ⊢
      congr 1
      omega
    · rw [if_neg hgt]
      simp

namespace Canvas

/-- `Canvas::addChatMessage(username, message)` at clock reading `now`: append, then drop
the oldest message when more than 100 are held. -/
def addChatMessage (s : Canvas) (now : Nat) (username message : Str) : Canvas :=
  let msgs := s.chatMessages ++ [⟨username, message, now⟩]
  { s with chatMessages := if msgs.length > 100 then msgs.drop 1 else msgs }

/-- `Canvas::getChatMessages()`. -/
def getChatMessages (s : Canvas) : List ChatMessage := s.chatMessages

/-- A run of `addChatMessage` calls, each given as the message it appends (username, text
and clock reading). -/
def addChatMessages (s : Canvas) (msgs : List ChatMessage) : Canvas :=
  msgs.foldl (fun st m => addChatMessage st m.timestamp m.username m.message) s

theorem addChatMessage_chat (s : Canvas) (m : ChatMessage) :
    (addChatMessage s m.timestamp m.username m.message).chatMessages
      = pushBounded 100 s.chatMessages m := rfl

theorem addChatMessages_chat :
    ∀ (msgs : List ChatMessage) (s : Canvas),
      (addChatMessages s msgs).chatMessages = msgs.foldl (pushBounded 100) s.chatMessages
  | [], s => rfl
  | m :: rest, s => by
    unfold addChatMessages
    rw [List.foldl_cons, List.foldl_cons]
    exact addChatMessages_chat rest (addChatMessage s m.timestamp m.username m.message)

/-- C28: starting from an empty chat log, after `n` calls of `addChatMessage`
`getChatMessages` returns the messages of the last `min(n, 100)` calls, in call order,
each with the username and text given (and the clock reading of its call): at most 100
messages, and with the 101st call the first message is the one dropped. -/
theorem c28_chat_log_last_100 (s : Canvas) (hs : s.chatMessages = [])
    (msgs : List ChatMessage) :
    getChatMessages (addChatMessages s msgs) = msgs.drop (msgs.length - 100)
      ∧ (getChatMessages (addChatMessages s msgs)).length = min msgs.length 100
      ∧ (msgs.length = 101 → getChatMessages (addChatMessages s msgs) = msgs.drop 1) := by
  have h : getChatMessages (addChatMessages s msgs) = msgs.drop (msgs.length - 100) := by
    unfold getChatMessages
    rw [addChatMessages_chat, hs, foldl_pushBounded 100 msgs [] (Nat.zero_le _)]
    rfl
  refine ⟨h, ?_, ?_⟩
  · rw [h, List.length_drop]
    omega
  · intro hn
    rw [h, hn]

/-- Witness of C28: two messages on the freshly constructed canvas. -/
theorem c28_chat_log_last_100_witness :
    Canvas.new.chatMessages = []
      ∧ getChatMessages (addChatMessages Canvas.new [⟨[1], [2], 5⟩, ⟨[3], [4], 6⟩])
          = [⟨[1], [2], 5⟩, ⟨[3], [4], 6⟩] :=
  ⟨rfl, (c28_chat_log_last_100 Canvas.new rfl [⟨[1], [2], 5⟩, ⟨[3], [4], 6⟩]).1⟩

end Canvas

namespace Database

/-- A run of `saveEpisode` calls, each given as the record it appends. -/
def saveEpisodes (db : Database) (eps : List EpisodeMetadata) : Database :=
  eps.foldl (fun d e => saveEpisode d e.episodeNumber e.startTimestamp e.endTimestamp) db

theorem saveEpisodes_episodes :
    ∀ (eps : List EpisodeMetadata) (db : Database),
      (saveEpisodes db eps).episodes = eps.foldl (pushBounded 10) db.episodes
  | [], db => rfl
  | e :: rest, db => by
    unfold saveEpisodes
    rw [List.foldl_cons, List.foldl_cons]
    exact saveEpisodes_episodes rest
      (saveEpisode db e.episodeNumber e.startTimestamp e.endTimestamp)

/-- C27: starting from an empty episode history, after `n` calls of `saveEpisode` the
history holds the records of the last `min(n, 10)` calls, in call order: at most 10
entries, and with the 11th call the first record is the one dropped. -/
theorem c27_episode_history_last_10 (db : Database) (hdb : db.episodes = [])
    (eps : List EpisodeMetadata) :
    (saveEpisodes db eps).episodes = eps.drop (eps.length - 10)
      ∧ (saveEpisodes db eps).episodes.length = min eps.length 10
      ∧ (eps.length = 11 → (saveEpisodes db eps).episodes = eps.drop 1) := by
  have h : (saveEpisodes db eps).episodes = eps.drop (eps.length - 10) := by
    rw [saveEpisodes_episodes, hdb, foldl_pushBounded 10 eps [] (Nat.zero_le _)]
    rfl
  refine ⟨h, ?_, ?_⟩
  · rw [h, List.length_drop]
    omega
  · intro hn
    rw [h, hn]

/-- Witness of C27: two episodes saved in a fresh Store. -/
theorem c27_episode_history_last_10_witness :
    Database.new.episodes = []
      ∧ (saveEpisodes Database.new [⟨1, 0, 900⟩, ⟨2, 910, 1810⟩]).episodes
          = [⟨1, 0, 900⟩, ⟨2, 910, 1810⟩] :=
  ⟨rfl, (c27_episode_history_last_10 Database.new rfl [⟨1, 0, 900⟩, ⟨2, 910, 1810⟩]).1⟩

end Database

/-! ## Loading damaged files (`database.cpp`) -/

namespace Database

theorem leBytes_leDecode :
    ∀ (l : List Nat), (∀ b ∈ l, b < 256) → leBytes l.length (leDecode l) = l
  | [], _ => rfl
  | b :: rest, h => by
    have hb : b < 256 := h b (List.mem_cons_self _ _)
    have ih := leBytes_leDecode rest (fun c hc => h c (List.mem_cons_of_mem _ hc))
    rw [List.length_cons, leDecode, leBytes]
    have e1 : (b + 256 * leDecode rest) % 256 = b := by omega
    have e2 : (b + 256 * leDecode rest) / 256 = leDecode rest := by omega
    rw [e1, e2, ih]

theorem readFresh_append (a rest : List Nat) :
    readFresh a.length ⟨a ++ rest, false⟩ = Outcome.ok (leDecode a, ⟨rest, false⟩) := by
  unfold readFresh
  rw [read_append]
  simp only [if_true]

/-- C23: `load` on a file whose first four bytes are not the bytes `49 4E 4D 4F` of the
magic number, whatever follows them, and `load` when the file cannot be opened, return
`false` and leave the Store, as a whole, as it was. -/
theorem c23_load_bad_magic (db : Database) (magic rest : List Nat) (hlen : magic.length = 4)
    (hb : ∀ b ∈ magic, b < 256) (hne : magic ≠ le32 MAGIC) :
    le32 MAGIC = [0x49, 0x4E, 0x4D, 0x4F]
      ∧ load db (some (magic ++ rest)) = some (false, db)
      ∧ load db none = some (false, db) := by
  refine ⟨by decide, ?_, rfl⟩
  have hd : leDecode magic ≠ MAGIC := by
    intro h
    apply hne
    have := leBytes_leDecode magic hb
    rw [hlen, h] at this
    exact this.symm
  have hr := readFresh_append magic rest
  rw [hlen] at hr
  rw [load_some]
  unfold deserialize
  rw [hr, Outcome.ok_bind]
  dsimp only
  rw [if_pos hd]

/-- Witness of C23: a file that starts with the bytes `OMNJ`. -/
theorem c23_load_bad_magic_witness :
    load Database.new (some ([0x4A, 0x4E, 0x4D, 0x4F] ++ [1, 0, 0, 0]))
      = some (false, Database.new) :=
  (c23_load_bad_magic Database.new [0x4A, 0x4E, 0x4D, 0x4F] [1, 0, 0, 0] rfl (by decide)
    (by decide)).2.1

/-- The result is not an exception. -/
def NoThrow {α : Type} (x : Outcome α) : Prop := x ≠ Outcome.thrown

theorem NoThrow.bind {α β : Type} {x : Outcome α} {f : α → Outcome β} (hx : NoThrow x)
    (hf : ∀ a, NoThrow (f a)) : NoThrow (x >>= f) := by
  cases x with
  | ok a => exact hf a
  | thrown => exact absurd rfl hx
  | undefined => intro h; cases h

theorem readFresh_noThrow (k : Nat) (s : In) : NoThrow (readFresh k s) := by
  unfold readFresh NoThrow
  split <;> intro h <;> cases h

theorem readUser_noThrow (s : In) : NoThrow (readUser s) := by
  unfold readUser
  refine NoThrow.bind (readFresh_noThrow _ _) ?_
  rintro ⟨id, s1⟩
  refine NoThrow.bind (readFresh_noThrow _ _) ?_
  rintro ⟨emailLen, s2⟩
  refine NoThrow.bind (readFresh_noThrow _ _) ?_
  rintro ⟨usernameLen, s3⟩
  refine NoThrow.bind (readFresh_noThrow _ _) ?_
  rintro ⟨hashLen, s4⟩
  refine NoThrow.bind (readFresh_noThrow _ _) ?_
  rintro ⟨registrationTime, s5⟩
  intro h
  cases h

theorem readUsers_noThrow : ∀ (count : Nat) (t : UserTables) (s : In),
    NoThrow (readUsers count t s)
  | 0, t, s => by
    intro h
    simp only [readUsers] at h
    cases h
  | count + 1, t, s => by
    rw [readUsers]
    refine NoThrow.bind (readUser_noThrow _) ?_
    rintro ⟨user, s1⟩
    dsimp only
    cases addUser t user with
    | none => intro h; cases h
    | some t1 => exact readUsers_noThrow count t1 s1

theorem readEpisodes_noThrow : ∀ (count : Nat) (eps : List EpisodeMetadata) (s : In),
    NoThrow (readEpisodes count eps s)
  | 0, eps, s => by
    intro h
    simp only [readEpisodes] at h
    cases h
  | count + 1, eps, s => by
    rw [readEpisodes]
    refine NoThrow.bind (readFresh_noThrow _ _) ?_
    rintro ⟨number, s1⟩
    refine NoThrow.bind (readFresh_noThrow _ _) ?_
    rintro ⟨start, s2⟩
    refine NoThrow.bind (readFresh_noThrow _ _) ?_
    rintro ⟨stop, s3⟩
    exact readEpisodes_noThrow count _ s3

/-- Once the magic number has been read, `deserialize` never throws. -/
theorem deserialize_magic_noThrow (db : Database) (rest : List Nat) :
    NoThrow (deserialize db (le32 MAGIC ++ rest)) := by
  unfold deserialize
  rw [readFresh_le32, Outcome.ok_bind]
  dsimp only
  rw [MAGIC_mod, if_neg (not_not.mpr rfl)]
  refine NoThrow.bind (readFresh_noThrow _ _) ?_
  rintro ⟨userCount, s1⟩
  refine NoThrow.bind (readUsers_noThrow _ _ _) ?_
  rintro ⟨t, s2⟩
  refine NoThrow.bind (readFresh_noThrow _ _) ?_
  rintro ⟨episodeCount, s3⟩
  refine NoThrow.bind (readEpisodes_noThrow _ _ _) ?_
  rintro ⟨episodes, s4⟩
  intro h
  cases h

/-- The last section written by `serialize`: the session count and the sessions. -/
def sessionSection (db : Database) : List Nat :=
  le32 db.sessions.length ++ db.sessions.flatMap serSession

/-- What `serialize` writes before the session section. -/
def beforeSessions (db : Database) : List Nat :=
  (serialize db).take ((serialize db).length - (sessionSection db).length)

theorem beforeSessions_eq (db : Database) :
    beforeSessions db = le32 MAGIC ++ (le32 db.nextUserId ++ (le32 db.users.length ++
      (db.users.flatMap serUser ++ (le32 db.episodes.length
        ++ (db.episodes.flatMap serEpisode ++ []))))) := by
  have h : serialize db = (le32 MAGIC ++ (le32 db.nextUserId ++ (le32 db.users.length ++
      (db.users.flatMap serUser ++ (le32 db.episodes.length
        ++ (db.episodes.flatMap serEpisode ++ [])))))) ++ sessionSection db := by
    unfold serialize sessionSection
    simp only [List.append_assoc, List.append_nil, List.nil_append]
  unfold beforeSessions
  rw [h, List.length_append, Nat.add_sub_cancel, List.take_left]

theorem readOver_nil : readOver 4 0 ⟨[], false⟩ = (0, ⟨[], true⟩) := by
  unfold readOver In.read
  simp [leBytes, leDecode]

/-- `deserialize` on a file cut off right before the session count. -/
theorem deserialize_beforeSessions (db0 db : Database) (hu : db.users.length < 2 ^ 32)
    (he : db.episodes.length < 2 ^ 32) :
    deserialize db0 (beforeSessions db)
      = match addUsers ⟨[], [], BTree.new 5⟩ (db.users.map truncUser) with
        | some t => Outcome.ok
            { nextUserId := db.nextUserId % 2 ^ 32, userIdIndex := t.userIdIndex,
              emailToUserId := t.emailToUserId, sessions := db0.sessions,
              users := t.users, episodes := db.episodes.map truncEpisode }
        | none => Outcome.undefined := by
  have h1 := readUsers_flatMap db.users ⟨[], [], BTree.new 5⟩
    (le32 db.episodes.length ++ (db.episodes.flatMap serEpisode ++ []))
  have h2 := readEpisodes_flatMap db.episodes [] []
  rw [beforeSessions_eq]
  unfold deserialize
  rw [readFresh_le32, Outcome.ok_bind]
  dsimp only
  rw [MAGIC_mod, if_neg (not_not.mpr rfl), readOver_le32]
  dsimp only
  rw [readFresh_le32, Outcome.ok_bind]
  dsimp only
  rw [Nat.mod_eq_of_lt hu, h1]
  cases addUsers ⟨[], [], BTree.new 5⟩ (db.users.map truncUser) with
  | none => rfl
  | some t =>
    dsimp only
    rw [Outcome.ok_bind]
    dsimp only
    rw [readFresh_le32, Outcome.ok_bind]
    dsimp only
    rw [Nat.mod_eq_of_lt he, h2, Outcome.ok_bind]
    dsimp only
    rw [readOver_nil]
    rfl

/-- Loading the file that `save` wrote for a Store `db` (reached by public operations,
within the 32-bit sizes), cut off right before the session count, into any Store `db0`
returns `true` and leaves `nextUserId`, users, indexes and episodes as in `db` and the
sessions as they were in `db0`. -/
theorem load_beforeSessions (sha256 : Str → Str) (ops : List Op) (db db0 : Database)
    (hrun : runOps sha256 Database.new ops = some db) (hfit : Fits db) :
    load db0 (some ((save db).take ((save db).length - (sessionSection db).length)))
      = some (true, { db with sessions := db0.sessions }) := by
  have hinv := runOps_DbInv hrun
  have hn : db.nextUserId % 2 ^ 32 = db.nextUserId := by
    rw [hinv.next]
    exact Nat.mod_mod _ _
  have he : db.episodes.length < 2 ^ 32 := lt_of_le_of_lt hinv.eps (by norm_num)
  have hd := deserialize_beforeSessions db0 db hfit.users he
  rw [map_truncUser hinv hfit, map_truncEpisode hfit, hinv.tables] at hd
  simp only at hd
  rw [hn] at hd
  have hfile : (save db).take ((save db).length - (sessionSection db).length)
      = beforeSessions db := rfl
  rw [hfile, load_some, hd]

/-- C24 on the code: the 16-byte file with the magic number, `nextUserId = 7`, user count
0 and episode count 0 ends before the session count, a field the format requires. `load`
on it returns `true` on every Store `db0` and leaves the state read from the file
(`nextUserId = 7`, no user, empty indexes, no episode) with the sessions of `db0`: a fresh
Store ends with `nextUserId = 7` in place of 1, and a Store holding a user loses it. -/
theorem c24_truncated_file_is_loaded (db0 : Database) :
    load db0 (some [0x49, 0x4E, 0x4D, 0x4F, 7, 0, 0, 0, 0, 0, 0, 0, 0, 0, 0, 0])
        = some (true, { Database.new with nextUserId := 7, sessions := db0.sessions })
      ∧ load Database.new (some [0x49, 0x4E, 0x4D, 0x4F, 7, 0, 0, 0, 0, 0, 0, 0, 0, 0, 0, 0])
          = some (true, { Database.new with nextUserId := 7 })
      ∧ Database.new.nextUserId = 1
      ∧ (serialize { Database.new with nextUserId := 7 }).length = 20
      ∧ (serialize { Database.new with nextUserId := 7 }).take 16
          = [0x49, 0x4E, 0x4D, 0x4F, 7, 0, 0, 0, 0, 0, 0, 0, 0, 0, 0, 0] := by
  have hb : beforeSessions { Database.new with nextUserId := 7 }
      = [0x49, 0x4E, 0x4D, 0x4F, 7, 0, 0, 0, 0, 0, 0, 0, 0, 0, 0, 0] := by
    rw [beforeSessions_eq]
    decide
  have hd : ∀ d : Database,
      load d (some [0x49, 0x4E, 0x4D, 0x4F, 7, 0, 0, 0, 0, 0, 0, 0, 0, 0, 0, 0])
        = some (true, { Database.new with nextUserId := 7, sessions := d.sessions }) := by
    intro d
    have h := deserialize_beforeSessions d { Database.new with nextUserId := 7 }
      (by norm_num [Database.new]) (by norm_num [Database.new])
    rw [hb] at h
    rw [load_some, h]
    rfl
  exact ⟨hd db0, hd Database.new, rfl, by decide, by decide⟩

end Database

/-! ## The file layout (`database.cpp`) -/

namespace Database

/-- The length formula of the documented layout, `header` being its constant term. -/
def layoutLength (header : Nat) (db : Database) : Nat :=
  header
    + (db.users.map
        (fun u => 24 + u.email.length + u.username.length + u.passwordHash.length)).sum
    + 20 * db.episodes.length
    + (db.sessions.map (fun p => 8 + p.1.length)).sum

theorem getElem?_leBytes : ∀ (k n i : Nat), i < k →
    (leBytes k n)[i]? = some (n / 256 ^ i % 256)
  | 0, _, _, h => absurd h (Nat.not_lt_zero _)
  | k + 1, n, 0, _ => by simp [leBytes]
  | k + 1, n, i + 1, h => by
    rw [leBytes, List.getElem?_cons_succ, getElem?_leBytes k (n / 256) i (by omega),
      Nat.div_div_eq_div_mul, Nat.pow_succ, Nat.mul_comm]

theorem length_serStr (s : Str) : (serStr s).length = 4 + s.length % 2 ^ 32 := by
  rw [serStr_eq, List.length_append, le32, length_leBytes, length_truncStr]

theorem length_serUser (u : User) :
    (serUser u).length = 24 + u.email.length % 2 ^ 32 + u.username.length % 2 ^ 32
      + u.passwordHash.length % 2 ^ 32 := by
  unfold serUser
  simp only [List.length_append, length_serStr, le32, le64, length_leBytes]
  omega

theorem length_serEpisode (e : EpisodeMetadata) : (serEpisode e).length = 20 := by
  unfold serEpisode
  simp only [List.length_append, le32, le64, length_leBytes]

theorem length_serSession (p : Str × Nat) :
    (serSession p).length = 8 + p.1.length % 2 ^ 32 := by
  unfold serSession
  simp only [List.length_append, length_serStr, le32, length_leBytes]
  omega

theorem length_flatMap_sum {α : Type} (f : α → List Nat) :
    ∀ (l : List α), (l.flatMap f).length = (l.map (fun a => (f a).length)).sum
  | [] => rfl
  | a :: l => by
    rw [List.flatMap_cons, List.length_append, length_flatMap_sum f l, List.map_cons,
      List.sum_cons]

/-- The number of bytes written by `serialize`, whatever the Store holds. -/
theorem length_serialize (db : Database) :
    (serialize db).length
      = 20 + (db.users.map (fun u => 24 + u.email.length % 2 ^ 32
            + u.username.length % 2 ^ 32 + u.passwordHash.length % 2 ^ 32)).sum
        + 20 * db.episodes.length
        + (db.sessions.map (fun p => 8 + p.1.length % 2 ^ 32)).sum := by
  have h2 : (db.episodes.map (fun e => (serEpisode e).length)).sum
      = 20 * db.episodes.length := by
    simp only [length_serEpisode, List.map_const', List.sum_replicate, smul_eq_mul]
    rw [Nat.mul_comm]
  unfold serialize
  simp only [List.length_append, le32, length_leBytes, length_flatMap_sum, length_serUser,
    length_serSession, h2]
  omega

/-- C25 as stated fails: the file of the empty Store (no user, no episode, no session) has
20 bytes, the five 4-byte fields magic, `nextUserId`, user count, episode count and session
count, where the claimed formula gives 16. -/
theorem c25_counterexample :
    serialize Database.new
        = [0x49, 0x4E, 0x4D, 0x4F, 1, 0, 0, 0, 0, 0, 0, 0, 0, 0, 0, 0, 0, 0, 0, 0]
      ∧ (serialize Database.new).length = 20
      ∧ layoutLength 16 Database.new = 16 := by
  refine ⟨by decide, by decide, by decide⟩

/-- C25 (amended): `serialize` writes the bytes `49 4E 4D 4F`, `nextUserId`, the user
count, per user in list order id, email, username, hash (each as a 4-byte length and the
string bytes) and registration time (8 bytes), the episode count and per episode number
(4), start (8) and end (8), the session count and per session the session id (length and
bytes) and the user id (4); every integer least significant byte first, reduced to its
width. A string shorter than `2 ^ 32` bytes is written whole behind a prefix equal to its
byte count (in general the prefix is the count modulo `2 ^ 32` and that many bytes
follow); and when every string is shorter than `2 ^ 32` bytes the total length is
`20 + sum over users (24 + |email| + |username| + |hash|) + 20 * episodeCount
+ sum over sessions (8 + |sid|)`. -/
theorem c25_serialize_layout (db : Database) :
    serialize db
        = [0x49, 0x4E, 0x4D, 0x4F] ++ leBytes 4 db.nextUserId ++ leBytes 4 db.users.length
          ++ db.users.flatMap (fun u =>
              leBytes 4 u.id
                ++ (leBytes 4 u.email.length ++ u.email.take (u.email.length % 2 ^ 32))
                ++ (leBytes 4 u.username.length
                      ++ u.username.take (u.username.length % 2 ^ 32))
                ++ (leBytes 4 u.passwordHash.length
                      ++ u.passwordHash.take (u.passwordHash.length % 2 ^ 32))
                ++ leBytes 8 u.registrationTime)
          ++ leBytes 4 db.episodes.length
          ++ db.episodes.flatMap (fun e =>
              leBytes 4 e.episodeNumber ++ leBytes 8 e.startTimestamp
                ++ leBytes 8 e.endTimestamp)
          ++ leBytes 4 db.sessions.length
          ++ db.sessions.flatMap (fun p =>
              (leBytes 4 p.1.length ++ p.1.take (p.1.length % 2 ^ 32)) ++ leBytes 4 p.2)
      ∧ (∀ k n i : Nat, i < k → (leBytes k n)[i]? = some (n / 256 ^ i % 256))
      ∧ (∀ k n : Nat, (leBytes k n).length = k)
      ∧ (∀ s : Str, (s.take (s.length % 2 ^ 32)).length = s.length % 2 ^ 32
          ∧ (s.length < 2 ^ 32 → s.take (s.length % 2 ^ 32) = s
              ∧ leDecode (leBytes 4 s.length) = s.length))
      ∧ ((∀ u ∈ db.users, u.email.length < 2 ^ 32 ∧ u.username.length < 2 ^ 32
            ∧ u.passwordHash.length < 2 ^ 32) →
          (∀ p ∈ db.sessions, p.1.length < 2 ^ 32) →
          (serialize db).length = layoutLength 20 db) := by
  refine ⟨?_, getElem?_leBytes, length_leBytes, ?_, ?_⟩
  · have hm : le32 MAGIC = [0x49, 0x4E, 0x4D, 0x4F] := by decide
    unfold serialize
    rw [hm]
    rfl
  · intro s
    refine ⟨length_truncStr s, fun h => ⟨truncStr_of_lt h, ?_⟩⟩
    rw [leDecode_leBytes]
    exact Nat.mod_eq_of_lt (by norm_num; exact h)
  · intro hu hs
    rw [length_serialize, layoutLength]
    have e1 : db.users.map (fun u => 24 + u.email.length % 2 ^ 32
          + u.username.length % 2 ^ 32 + u.passwordHash.length % 2 ^ 32)
        = db.users.map
            (fun u => 24 + u.email.length + u.username.length + u.passwordHash.length) := by
      apply List.map_congr_left
      intro u hmem
      obtain ⟨a, b, c⟩ := hu u hmem
      simp only [Nat.mod_eq_of_lt a, Nat.mod_eq_of_lt b, Nat.mod_eq_of_lt c]
    have e2 : db.sessions.map (fun p => 8 + p.1.length % 2 ^ 32)
        = db.sessions.map (fun p => 8 + p.1.length) := by
      apply List.map_congr_left
      intro p hmem
      simp only [Nat.mod_eq_of_lt (hs p hmem)]
    rw [e1, e2]

/-- Witness of C25: a Store holding one user, one episode and one session. -/
theorem c25_serialize_layout_witness :
    (serialize ⟨2, BTree.new 5, [([1], 1)], [([9], 1)], [⟨1, [1], [2], [3], 5⟩],
        [⟨1, 0, 900⟩]⟩).length
      = layoutLength 20 ⟨2, BTree.new 5, [([1], 1)], [([9], 1)], [⟨1, [1], [2], [3], 5⟩],
          [⟨1, 0, 900⟩]⟩ := by
  refine (c25_serialize_layout _).2.2.2.2 ?_ ?_
  · intro u hu
    simp only [List.mem_singleton] at hu
    rw [hu]
    norm_num
  · intro p hp
    simp only [List.mem_singleton] at hp
    rw [hp]
    norm_num

end Database

/-! ## User ids (`database.cpp`) -/

namespace Database

/-- The ids returned by a run of `registerUser` calls with fresh, pairwise distinct
emails. -/
theorem runRegs_fresh_ids (sha256 : Str → Str) :
    ∀ (regs : List Reg) (db0 : Database), DbInv db0 →
      (regs.map (fun r => r.email)).Nodup →
      (∀ r ∈ regs, r.email ∉ db0.users.map (fun u => u.email)) →
      ∃ db ids, runRegs sha256 db0 regs = some (db, ids) ∧ DbInv db
        ∧ db.users.length = db0.users.length + regs.length
        ∧ ∀ k, k < regs.length → ids[k]? = some ((db0.users.length + 1 + k) % 2 ^ 32)
  | [], db0, hinv, _, _ => ⟨db0, [], rfl, hinv, rfl, fun k hk => absurd hk (Nat.not_lt_zero _)⟩
  | r :: rest, db0, hinv, hnd, hfresh => by
    have he : r.email ∉ db0.users.map (fun u => u.email) := hfresh r (List.mem_cons_self _ _)
    obtain ⟨db1, h1, hinv1, husers1, -, -, -⟩ :=
      registerUser_fresh sha256 hinv r.now r.email r.username r.password he
    simp only [List.map_cons, List.nodup_cons] at hnd
    have hfresh1 : ∀ r1 ∈ rest, r1.email ∉ db1.users.map (fun u => u.email) := by
      intro r1 hr1 hmem
      rw [husers1, List.map_append] at hmem
      rcases List.mem_append.1 hmem with h | h
      · exact hfresh r1 (List.mem_cons_of_mem _ hr1) h
      · simp only [List.map_cons, List.map_nil, List.mem_singleton] at h
        exact hnd.1 (h ▸ List.mem_map_of_mem (fun r => r.email) hr1)
    obtain ⟨db, ids, h2, hinv2, hlen, hids⟩ :=
      runRegs_fresh_ids sha256 rest db1 hinv1 hnd.2 hfresh1
    have hl1 : db1.users.length = db0.users.length + 1 := by
      rw [husers1]; simp
    refine ⟨db, db0.nextUserId :: ids, by simp only [runRegs, h1, h2], hinv2, ?_, ?_⟩
    · rw [hlen, hl1]
      simp only [List.length_cons]
      omega
    · intro k hk
      cases k with
      | zero =>
        have hn := hinv.next
        simp only [List.getElem?_cons_zero, Nat.add_zero]
        rw [hn]
      | succ j =>
        rw [List.getElem?_cons_succ, hids j (by simpa using hk), hl1]
        congr 2
        omega

/-- C26 as stated fails: in a run of `2 ^ 32` `registerUser` calls with pairwise distinct
emails on a fresh Store every call stores a user, and the last one, the `2 ^ 32`-th
successful call, returns 0 (the value that stands for failure), not `2 ^ 32`: the id is a
`uint32_t`. -/
theorem c26_counterexample :
    ∃ db ids, runRegs (fun p => p) Database.new (bigRegs (2 ^ 32)) = some (db, ids)
      ∧ db.users.length = 2 ^ 32 ∧ ids[2 ^ 32 - 1]? = some 0 := by
  have hnd : ((bigRegs (2 ^ 32)).map (fun r => r.email)).Nodup := by
    unfold bigRegs
    rw [List.map_map]
    apply List.Nodup.map _ (List.nodup_range _)
    intro i j hij
    have := congrArg List.length hij
    simpa using this
  have hl : (bigRegs (2 ^ 32)).length = 2 ^ 32 := by
    unfold bigRegs
    rw [List.length_map, List.length_range]
  obtain ⟨db, ids, h1, -, hlen, hids⟩ :=
    runRegs_fresh_ids (fun p => p) (bigRegs (2 ^ 32)) Database.new new_DbInv hnd
      (by simp [Database.new])
  refine ⟨db, ids, h1, ?_, ?_⟩
  · rw [hlen, hl]
    simp [Database.new]
  · rw [hids (2 ^ 32 - 1) (by rw [hl]; norm_num)]
    simp [Database.new]

/-- The ids returned by any run of `registerUser` calls, as long as fewer than `2 ^ 32`
users are stored: the non-zero ones, in call order, continue the count of stored users. -/
theorem runRegs_ids (sha256 : Str → Str) :
    ∀ (regs : List Reg) (db0 : Database), DbInv db0 →
      ∃ db ids, runRegs sha256 db0 regs = some (db, ids) ∧ DbInv db
        ∧ ids.length = regs.length ∧ db0.users.length ≤ db.users.length
        ∧ db.users.length ≤ db0.users.length + regs.length
        ∧ (db.users.length < 2 ^ 32 →
            ids.filter (fun i => decide (i ≠ 0))
              = (List.range (db.users.length - db0.users.length)).map
                  (fun k => db0.users.length + 1 + k))
  | [], db0, hinv => ⟨db0, [], rfl, hinv, rfl, Nat.le_refl _, Nat.le_refl _, fun _ => by simp⟩
  | r :: rest, db0, hinv => by
    by_cases he : r.email ∈ db0.users.map (fun u => u.email)
    · have h1 := registerUser_existing sha256 hinv r.now r.email r.username r.password he
      obtain ⟨db, ids, h2, hinv2, hlen, hle, hub, hids⟩ := runRegs_ids sha256 rest db0 hinv
      refine ⟨db, 0 :: ids, by simp only [runRegs, h1, h2], hinv2, by simp [hlen], hle,
        by simp only [List.length_cons]; omega, ?_⟩
      intro hlt
      rw [List.filter_cons_of_neg (by simp)]
      exact hids hlt
    · obtain ⟨db1, h1, hinv1, husers1, -, -, -⟩ :=
        registerUser_fresh sha256 hinv r.now r.email r.username r.password he
      obtain ⟨db, ids, h2, hinv2, hlen, hle, hub, hids⟩ := runRegs_ids sha256 rest db1 hinv1
      have hl1 : db1.users.length = db0.users.length + 1 := by
        rw [husers1]; simp
      refine ⟨db, db0.nextUserId :: ids, by simp only [runRegs, h1, h2], hinv2,
        by simp [hlen], by omega, by simp only [List.length_cons]; omega, ?_⟩
      intro hlt
      have hnext : db0.nextUserId = db0.users.length + 1 := by
        rw [hinv.next]
        exact Nat.mod_eq_of_lt (by omega)
      have hsplit : db.users.length - db0.users.length
          = (db.users.length - db1.users.length) + 1 := by omega
      rw [List.filter_cons_of_pos (by rw [hnext]; simp), hids hlt, hsplit,
        List.range_succ_eq_map, List.map_cons, List.map_map, hnext, hl1]
      congr 1
      apply List.map_congr_left
      intro k _
      simp only [Function.comp]
      omega

/-- C26 (amended): on a freshly constructed Store any run of `registerUser` calls returns;
`nextUserId` is always one more than the number of stored users, modulo `2 ^ 32`, and a
call that stores a user returns the old `nextUserId` and adds 1 to it modulo `2 ^ 32`,
while a call with an email already stored returns 0 and changes nothing; as long as fewer
than `2 ^ 32` users are stored, the non-zero ids returned, in call order, are 1, 2, 3, ...
(the `k`-th successful call returns `k`, however many failed calls are interleaved), and
they are pairwise distinct and are the ids of the stored users in list order. -/
theorem c26_user_ids (sha256 : Str → Str) (regs : List Reg) :
    ∃ db ids, runRegs sha256 Database.new regs = some (db, ids)
      ∧ ids.length = regs.length ∧ db.users.length ≤ regs.length
      ∧ db.nextUserId = (db.users.length + 1) % 2 ^ 32
      ∧ (∀ r : Reg, ∃ id db1,
          registerUser sha256 db r.now r.email r.username r.password = some (id, db1)
            ∧ (r.email ∈ db.users.map (fun u => u.email) → id = 0 ∧ db1 = db)
            ∧ (r.email ∉ db.users.map (fun u => u.email) →
                id = db.nextUserId ∧ db1.nextUserId = (db.nextUserId + 1) % 2 ^ 32
                  ∧ db1.users.length = db.users.length + 1))
      ∧ (db.users.length < 2 ^ 32 →
          ids.filter (fun i => decide (i ≠ 0)) = (List.range db.users.length).map (· + 1)
            ∧ (ids.filter (fun i => decide (i ≠ 0))).Nodup
            ∧ db.users.map (fun u => u.id) = (List.range db.users.length).map (· + 1)) := by
  obtain ⟨db, ids, h1, hinv, hlen, -, hub, hids⟩ :=
    runRegs_ids sha256 regs Database.new new_DbInv
  refine ⟨db, ids, h1, hlen, by simpa [Database.new] using hub, hinv.next, ?_, ?_⟩
  · intro r
    by_cases he : r.email ∈ db.users.map (fun u => u.email)
    · refine ⟨0, db, registerUser_existing sha256 hinv r.now r.email r.username r.password he,
        fun _ => ⟨rfl, rfl⟩, fun h => absurd he h⟩
    · obtain ⟨db1, h2, -, husers, hnext, -, -⟩ :=
        registerUser_fresh sha256 hinv r.now r.email r.username r.password he
      refine ⟨db.nextUserId, db1, h2, fun h => absurd h he, fun _ => ⟨rfl, hnext, ?_⟩⟩
      rw [husers]
      simp
  · intro hlt
    have hf : ids.filter (fun i => decide (i ≠ 0)) = (List.range db.users.length).map (· + 1) := by
      rw [hids hlt]
      simp only [Database.new, List.length_nil, Nat.sub_zero, Nat.zero_add]
      apply List.map_congr_left
      intro k _
      omega
    refine ⟨hf, ?_, ?_⟩
    · rw [hf]
      exact List.Nodup.map (fun a b h => by simpa using h) (List.nodup_range _)
    · apply List.ext_getElem?
      intro i
      rw [List.getElem?_map, List.getElem?_map]
      by_cases hi : i < db.users.length
      · rw [List.getElem?_eq_getElem hi, List.getElem?_range hi]
        simp only [Option.map_some']
        rw [hinv.ids i _ (List.getElem?_eq_getElem hi)]
        congr 1
        exact Nat.mod_eq_of_lt (by omega)
      · rw [List.getElem?_eq_none (by omega), List.getElem?_eq_none (by simp; omega)]
        rfl

/-- Witness of C26: three calls, the second with the email of the first. -/
theorem c26_user_ids_witness :
    ∃ db ids, runRegs (fun p => p) Database.new
        [⟨[1], [2], [3], 5⟩, ⟨[1], [7], [8], 6⟩, ⟨[4], [5], [6], 7⟩] = some (db, ids)
      ∧ db.users.length < 2 ^ 32
      ∧ ids.filter (fun i => decide (i ≠ 0)) = (List.range db.users.length).map (· + 1) := by
  obtain ⟨db, ids, h1, -, hle, -, -, h3⟩ := c26_user_ids (fun p => p)
    [⟨[1], [2], [3], 5⟩, ⟨[1], [7], [8], 6⟩, ⟨[4], [5], [6], 7⟩]
  have hn : db.users.length < 2 ^ 32 := by
    simp only [List.length_cons, List.length_nil] at hle
    omega
  exact ⟨db, ids, h1, hn, (h3 hn).1⟩

end Database

/-! ## Sessions and the seeded accounts (`database.cpp`) -/

namespace Database

theorem mapFind_mapErase (m : List (Str × Nat)) (k k1 : Str) :
    mapFind (mapErase m k) k1 = if k = k1 then none else mapFind m k1 := by
  induction m with
  | nil =>
    simp only [mapErase, List.filter_nil, mapFind]
    split <;> rfl
  | cons p rest ih =>
    obtain ⟨a, v⟩ := p
    unfold mapErase at ih ⊢
    by_cases ha : a = k
    · rw [List.filter_cons_of_neg (by simp [ha]), ih]
      by_cases hk : k = k1
      · rw [if_pos hk, if_pos hk]
      · rw [if_neg hk, if_neg hk, mapFind, if_neg (by rw [ha]; exact hk)]
    · rw [List.filter_cons_of_pos (by simp [ha]), mapFind, mapFind, ih]
      by_cases hk : k = k1
      · rw [if_pos hk, if_pos hk, if_neg (by rw [← hk]; exact ha)]
      · rw [if_neg hk, if_neg hk]

theorem registerUser_sessions {sha256 : Str → Str} {db db1 : Database} {now id : Nat}
    {email username password : Str}
    (h : registerUser sha256 db now email username password = some (id, db1)) :
    db1.sessions = db.sessions := by
  unfold registerUser at h
  split at h
  · obtain ⟨-, rfl⟩ := Prod.mk.inj (Option.some.inj h)
    rfl
  · simp only at h
    split at h
    · cases h
    · obtain ⟨-, rfl⟩ := Prod.mk.inj (Option.some.inj h)
      rfl

/-- The operation is not a `createSession` for the session id `s`. -/
def Op.Spares (s : Str) : Op → Prop
  | Op.createSession sessionId _ => sessionId ≠ s
  | _ => True

theorem runOps_no_session (sha256 : Str → Str) (s : Str) :
    ∀ (ops : List Op) (db0 db : Database), mapFind db0.sessions s = none →
      (∀ op ∈ ops, Op.Spares s op) → runOps sha256 db0 ops = some db →
      mapFind db.sessions s = none
  | [], db0, db, h0, _, hrun => by
    simp only [runOps, Option.some.injEq] at hrun
    rw [← hrun]; exact h0
  | op :: rest, db0, db, h0, hsp, hrun => by
    simp only [runOps] at hrun
    cases h1 : applyOp sha256 db0 op with
    | none => rw [h1] at hrun; cases hrun
    | some db1 =>
      rw [h1] at hrun
      simp only at hrun
      refine runOps_no_session sha256 s rest db1 db ?_
        (fun o ho => hsp o (List.mem_cons_of_mem _ ho)) hrun
      have hop := hsp op (List.mem_cons_self _ _)
      cases op with
      | register email username password now =>
        simp only [applyOp] at h1
        cases h2 : registerUser sha256 db0 now email username password with
        | none => rw [h2] at h1; cases h1
        | some r =>
          rw [h2] at h1
          simp only [Option.some.injEq] at h1
          rw [← h1, registerUser_sessions (by rw [h2] : _ = some (r.1, r.2))]
          exact h0
      | createSession sessionId userId =>
        simp only [applyOp, Option.some.injEq] at h1
        rw [← h1]
        simp only [createSession, mapFind_mapSet]
        rw [if_neg hop]
        exact h0
      | removeSession sessionId =>
        simp only [applyOp, Option.some.injEq] at h1
        rw [← h1]
        simp only [removeSession, mapFind_mapErase]
        split
        · rfl
        · exact h0
      | saveEpisode episodeNumber startTime endTime =>
        simp only [applyOp, Option.some.injEq] at h1
        rw [← h1]
        exact h0

/-- C29: on any Store, `getUserIdFromSession(s)` is `u` after `createSession(s, u)` (and
`u2` after a further `createSession(s, u2)`), and 0 after `removeSession(s)`; both calls
leave the result for every other session id as it was, and leave the user list, both
indexes, `nextUserId` and the episode history as they were; and in a Store reached from a
fresh one by operations none of which is a `createSession` for `s`,
`getUserIdFromSession(s)` is 0. -/
theorem c29_sessions_flat_map (db : Database) (s : Str) (u u2 : Nat) :
    getUserIdFromSession (createSession db s u) s = u
      ∧ getUserIdFromSession (createSession (createSession db s u) s u2) s = u2
      ∧ getUserIdFromSession (removeSession db s) s = 0
      ∧ getUserIdFromSession (removeSession (createSession db s u) s) s = 0
      ∧ (∀ s1, s1 ≠ s →
          getUserIdFromSession (createSession db s u) s1 = getUserIdFromSession db s1
            ∧ getUserIdFromSession (removeSession db s) s1 = getUserIdFromSession db s1)
      ∧ ((createSession db s u).users = db.users
          ∧ (createSession db s u).emailToUserId = db.emailToUserId
          ∧ (createSession db s u).userIdIndex = db.userIdIndex
          ∧ (createSession db s u).nextUserId = db.nextUserId
          ∧ (createSession db s u).episodes = db.episodes)
      ∧ ((removeSession db s).users = db.users
          ∧ (removeSession db s).emailToUserId = db.emailToUserId
          ∧ (removeSession db s).userIdIndex = db.userIdIndex
          ∧ (removeSession db s).nextUserId = db.nextUserId
          ∧ (removeSession db s).episodes = db.episodes)
      ∧ ∀ (sha256 : Str → Str) (ops : List Op) (d : Database),
          runOps sha256 Database.new ops = some d → (∀ op ∈ ops, Op.Spares s op) →
          getUserIdFromSession d s = 0 := by
  refine ⟨?_, ?_, ?_, ?_, ?_, ⟨rfl, rfl, rfl, rfl, rfl⟩, ⟨rfl, rfl, rfl, rfl, rfl⟩, ?_⟩
  · simp only [getUserIdFromSession, createSession, mapFind_mapSet, if_true]
  · simp only [getUserIdFromSession, createSession, mapFind_mapSet, if_true]
  · simp only [getUserIdFromSession, removeSession, mapFind_mapErase, if_true]
  · simp only [getUserIdFromSession, removeSession, mapFind_mapErase, if_true]
  · intro s1 hs1
    have hne : ¬ s = s1 := fun h => hs1 h.symm
    constructor
    · simp only [getUserIdFromSession, createSession, mapFind_mapSet, if_neg hne]
    · simp only [getUserIdFromSession, removeSession, mapFind_mapErase, if_neg hne]
  · intro sha256 ops d hrun hsp
    have h := runOps_no_session sha256 s ops Database.new d rfl hsp hrun
    simp only [getUserIdFromSession, h]

/-- Witness of C29: a Store in which the session `[9]` was created and removed, and the
session `[8]` never created. -/
theorem c29_sessions_flat_map_witness :
    runOps (fun p => p) Database.new [Op.createSession [9] 4, Op.removeSession [9]]
        = some (removeSession (createSession Database.new [9] 4) [9])
      ∧ (∀ op ∈ [Op.createSession [9] 4, Op.removeSession [9]], Op.Spares [8] op)
      ∧ getUserIdFromSession (removeSession (createSession Database.new [9] 4) [9]) [8] = 0
      ∧ getUserIdFromSession (createSession Database.new [9] 4) [9] = 4 := by
  have hsp : ∀ op ∈ [Op.createSession [9] 4, Op.removeSession [9]], Op.Spares [8] op := by
    intro op hop
    simp only [List.mem_cons, List.mem_singleton, List.not_mem_nil, or_false] at hop
    rcases hop with rfl | rfl
    · simp [Op.Spares]
    · simp [Op.Spares]
  have h := c29_sessions_flat_map Database.new [8] 0 0
  exact ⟨rfl, hsp, h.2.2.2.2.2.2.2 (fun p => p) [Op.createSession [9] 4, Op.removeSession [9]] _ rfl hsp,
    (c29_sessions_flat_map Database.new [9] 4 0).1⟩

/-- The member function `initialize()` of `Database`: every member back to its constructed value, then, the user
list being empty, the three seed registrations; `t1`, `t2`, `t3` are the clock readings of
the three `registerUser` calls. -/
def initializeDatabase (sha256 : Str → Str) (db : Database) (t1 t2 t3 : Nat) : Option Database :=
  let db0 : Database :=
    { db with nextUserId := 1, users := [], episodes := [], emailToUserId := [],
              sessions := [], userIdIndex := BTree.new 5 }
  if db0.users.isEmpty then
    match registerUser sha256 db0 t1 (ascii "bscs24045@itu.edu.pk") (ascii "israr")
        (ascii "itu123") with
    | none => none
    | some r1 =>
      match registerUser sha256 r1.2 t2 (ascii "bscs24009@itu.edu.pk") (ascii "abdullah")
          (ascii "itu123") with
      | none => none
      | some r2 =>
        match registerUser sha256 r2.2 t3 (ascii "bscs24017@itu.edu.pk") (ascii "ali")
            (ascii "itu123") with
        | none => none
        | some r3 => some r3.2
  else some db0

theorem initializeDatabase_eq (sha256 : Str → Str) (db : Database) (t1 t2 t3 : Nat) :
    initializeDatabase sha256 db t1 t2 t3
      = match registerUser sha256 Database.new t1 (ascii "bscs24045@itu.edu.pk")
          (ascii "israr") (ascii "itu123") with
        | none => none
        | some r1 =>
          match registerUser sha256 r1.2 t2 (ascii "bscs24009@itu.edu.pk") (ascii "abdullah")
              (ascii "itu123") with
          | none => none
          | some r2 =>
            match registerUser sha256 r2.2 t3 (ascii "bscs24017@itu.edu.pk") (ascii "ali")
                (ascii "itu123") with
            | none => none
            | some r3 => some r3.2 := rfl

/-- C30: the member function `initialize()` on any Store returns and leaves exactly three users, with ids 1, 2,
3, the three seed emails and usernames, the hash of `itu123` and the clock readings of
their registration; `nextUserId` is 4, the episode history and the sessions are empty, and
`authenticateUser(email, "itu123")` returns 1, 2 and 3 for the three emails. -/
theorem c30_initialize_seeds (sha256 : Str → Str) (db : Database) (t1 t2 t3 : Nat) :
    ∃ db1, initializeDatabase sha256 db t1 t2 t3 = some db1
      ∧ db1.users
          = [⟨1, ascii "bscs24045@itu.edu.pk", ascii "israr", sha256 (ascii "itu123"), t1⟩,
             ⟨2, ascii "bscs24009@itu.edu.pk", ascii "abdullah", sha256 (ascii "itu123"), t2⟩,
             ⟨3, ascii "bscs24017@itu.edu.pk", ascii "ali", sha256 (ascii "itu123"), t3⟩]
      ∧ db1.nextUserId = 4 ∧ db1.episodes = [] ∧ db1.sessions = []
      ∧ authenticateUser sha256 db1 (ascii "bscs24045@itu.edu.pk") (ascii "itu123") = some 1
      ∧ authenticateUser sha256 db1 (ascii "bscs24009@itu.edu.pk") (ascii "itu123") = some 2
      ∧ authenticateUser sha256 db1 (ascii "bscs24017@itu.edu.pk") (ascii "itu123")
          = some 3 := by
  have h12 : ascii "bscs24009@itu.edu.pk" ≠ ascii "bscs24045@itu.edu.pk" := by decide
  have h13 : ascii "bscs24017@itu.edu.pk" ≠ ascii "bscs24045@itu.edu.pk" := by decide
  have h23 : ascii "bscs24017@itu.edu.pk" ≠ ascii "bscs24009@itu.edu.pk" := by decide
  obtain ⟨d1, e1, i1, u1, n1, s1, p1⟩ := registerUser_fresh sha256 new_DbInv t1
    (ascii "bscs24045@itu.edu.pk") (ascii "israr") (ascii "itu123") (by simp [Database.new])
  have hu1 : d1.users
      = [⟨1, ascii "bscs24045@itu.edu.pk", ascii "israr", sha256 (ascii "itu123"), t1⟩] := u1
  have hn1 : d1.nextUserId = 2 := n1
  have e1b : registerUser sha256 Database.new t1 (ascii "bscs24045@itu.edu.pk")
      (ascii "israr") (ascii "itu123") = some (1, d1) := e1
  obtain ⟨d2, e2, i2, u2, n2, s2, p2⟩ := registerUser_fresh sha256 i1 t2
    (ascii "bscs24009@itu.edu.pk") (ascii "abdullah") (ascii "itu123")
    (by rw [hu1]; simpa using h12)
  rw [hu1, hn1] at u2
  rw [hn1] at n2 e2
  have hu2 : d2.users
      = [⟨1, ascii "bscs24045@itu.edu.pk", ascii "israr", sha256 (ascii "itu123"), t1⟩,
         ⟨2, ascii "bscs24009@itu.edu.pk", ascii "abdullah", sha256 (ascii "itu123"), t2⟩] := u2
  have hn2 : d2.nextUserId = 3 := n2
  obtain ⟨d3, e3, i3, u3, n3, s3, p3⟩ := registerUser_fresh sha256 i2 t3
    (ascii "bscs24017@itu.edu.pk") (ascii "ali") (ascii "itu123")
    (by rw [hu2]; simpa using ⟨h13, h23⟩)
  rw [hu2, hn2] at u3
  rw [hn2] at n3 e3
  have hu3 : d3.users
      = [⟨1, ascii "bscs24045@itu.edu.pk", ascii "israr", sha256 (ascii "itu123"), t1⟩,
         ⟨2, ascii "bscs24009@itu.edu.pk", ascii "abdullah", sha256 (ascii "itu123"), t2⟩,
         ⟨3, ascii "bscs24017@itu.edu.pk", ascii "ali", sha256 (ascii "itu123"), t3⟩] := u3
  have hlen : d3.users.length < 2 ^ 31 := by rw [hu3]; norm_num
  have hinit : initializeDatabase sha256 db t1 t2 t3 = some d3 := by
    rw [initializeDatabase_eq, e1b]
    simp only [e2, e3]
  refine ⟨d3, hinit, hu3, n3, ?_, ?_, ?_, ?_, ?_⟩
  · rw [p3, p2, p1]; rfl
  · rw [s3, s2, s1]; rfl
  · exact authenticateUser_user sha256 i3 hlen
      (u := ⟨1, ascii "bscs24045@itu.edu.pk", ascii "israr", sha256 (ascii "itu123"), t1⟩)
      (by rw [hu3]; simp) rfl
  · exact authenticateUser_user sha256 i3 hlen
      (u := ⟨2, ascii "bscs24009@itu.edu.pk", ascii "abdullah", sha256 (ascii "itu123"), t2⟩)
      (by rw [hu3]; simp) rfl
  · exact authenticateUser_user sha256 i3 hlen
      (u := ⟨3, ascii "bscs24017@itu.edu.pk", ascii "ali", sha256 (ascii "itu123"), t3⟩)
      (by rw [hu3]; simp) rfl

end Database

/-! ## Reachable states of the canvas engine (`canvas.cpp`) -/

namespace Canvas

/-- One pass of the body of `snapshotLoop` after its wait: nothing when the canvas is
frozen, else `snapshots_.push_back(getAllPixelsUnlocked())`. -/
def snapshotLoopStep (s : Canvas) : Option Canvas :=
  if s.episodeFrozen then some s
  else
    match getAllPixels s with
    | none => none
    | some snapshot => some { s with snapshots := s.snapshots ++ [snapshot] }

/-- The operations that assign members of the canvas under `canvasMutex_`: a `placePixel`
call, a snapshot capture, and `endEpisode` with the two clock readings it takes. -/
inductive Event where
  | place (c : Call)
  | snapshot
  | endEpisode (endTime startTime : Nat)

/-- One operation on the canvas and the Store behind it. -/
def applyEvent (st : Canvas × Database) : Event → Option (Canvas × Database)
  | Event.place c =>
    match placePixel st.1 c.now c.x c.y c.color c.mood c.userId c.isLoggedIn with
    | none => none
    | some r => some (r.2, st.2)
  | Event.snapshot =>
    match snapshotLoopStep st.1 with
    | none => none
    | some s => some (s, st.2)
  | Event.endEpisode endTime startTime => endEpisode st.1 st.2 endTime startTime

/-- A sequence of operations, each one atomic. -/
def runEvents (st : Canvas × Database) : List Event → Option (Canvas × Database)
  | [] => some st
  | e :: rest =>
    match applyEvent st e with
    | none => none
    | some st1 => runEvents st1 rest

theorem snapshotLoopStep_spec {s : Canvas} (hs : Shape s) :
    ∃ l, snapshotLoopStep s = some { s with snapshots := l } := by
  unfold snapshotLoopStep
  by_cases hf : s.episodeFrozen = true
  · rw [if_pos hf]
    exact ⟨s.snapshots, rfl⟩
  · rw [if_neg hf, getAllPixels_of_shape hs.rows hs.cols]
    exact ⟨_, rfl⟩

/-- Every run from a canvas of the constructor's shape completes, and a property of the
canvas kept by each operation holds at its end; `E` restricts the operations of the run. -/
theorem runEvents_inv (P : Canvas → Prop) (E : Event → Prop)
    (hplace : ∀ (s : Canvas) (c : Call) (ok : Bool) (s1 : Canvas), Shape s → P s →
      E (Event.place c) →
      placePixel s c.now c.x c.y c.color c.mood c.userId c.isLoggedIn = some (ok, s1) → P s1)
    (hsnap : ∀ (s : Canvas) (l : List (List Pixel)), P s → P { s with snapshots := l })
    (hend : ∀ (s : Canvas) (db : Database) (endTime startTime : Nat) (s1 : Canvas)
      (db1 : Database), Shape s → P s →
      endEpisode s db endTime startTime = some (s1, db1) → P s1) :
    ∀ (events : List Event) (st : Canvas × Database), (∀ e ∈ events, E e) → Shape st.1 →
      P st.1 → ∃ st1, runEvents st events = some st1 ∧ Shape st1.1 ∧ P st1.1
  | [], st, _, hs, hp => ⟨st, rfl, hs, hp⟩
  | e :: rest, st, hE, hs, hp => by
    have hrest : ∀ e1 ∈ rest, E e1 := fun e1 h1 => hE e1 (List.mem_cons_of_mem _ h1)
    have he : E e := hE e (List.mem_cons_self _ _)
    cases e with
    | place c =>
      obtain ⟨ok, s1, h1, hs1, -, -⟩ :=
        placePixel_total st.1 hs c.now c.x c.y c.color c.mood c.userId c.isLoggedIn
      obtain ⟨st2, h2, hs2, hp2⟩ := runEvents_inv P E hplace hsnap hend rest (s1, st.2) hrest
        hs1 (hplace st.1 c ok s1 hs hp he h1)
      exact ⟨st2, by simp only [runEvents, applyEvent, h1, h2], hs2, hp2⟩
    | snapshot =>
      obtain ⟨l, h1⟩ := snapshotLoopStep_spec hs
      obtain ⟨st2, h2, hs2, hp2⟩ := runEvents_inv P E hplace hsnap hend rest
        ({ st.1 with snapshots := l }, st.2) hrest ⟨hs.rows, hs.cols, hs.quests⟩
        (hsnap st.1 l hp)
      exact ⟨st2, by simp only [runEvents, applyEvent, h1, h2], hs2, hp2⟩
    | endEpisode endTime startTime =>
      obtain ⟨s1, db1, h1⟩ : ∃ s1 db1, endEpisode st.1 st.2 endTime startTime
          = some (s1, db1) := ⟨_, _, endEpisode_spec st.1 hs st.2 endTime startTime⟩
      obtain ⟨st2, h2, hs2, hp2⟩ := runEvents_inv P E hplace hsnap hend rest (s1, db1) hrest
        (endEpisode_Shape hs h1) (hend st.1 st.2 endTime startTime s1 db1 hs hp h1)
      exact ⟨st2, by simp only [runEvents, applyEvent, h1, h2], hs2, hp2⟩

end Canvas

namespace Canvas

/-- The pixel stored at row `y`, column `x` carries the coordinate fields `x` and `y`. -/
def Coords (s : Canvas) : Prop :=
  ∀ x y : Int, 0 ≤ x → x < 50 → 0 ≤ y → y < 50 →
    ∃ p, getCell s.canvas y x = some p ∧ p.x = x ∧ p.y = y

/-- Every pixel of the grid has a color below `B`. -/
def ColorsBelow (B : Nat) (s : Canvas) : Prop :=
  ∀ row ∈ s.canvas, ∀ p ∈ row, p.color < B

/-- What an accepted `placePixel` does to the grid. -/
theorem placePixel_canvas {s s1 : Canvas} {now : Nat} {x y : Int} {color : Nat}
    {mood : PixelMood} {userId : Nat} {isLoggedIn : Bool}
    (h : placePixel s now x y color mood userId isLoggedIn = some (true, s1)) :
    0 ≤ x ∧ x < 50 ∧ 0 ≤ y ∧ y < 50
      ∧ ∃ row, s.canvas[y.toNat]? = some row ∧ x.toNat < row.length
          ∧ s1.canvas
              = s.canvas.set y.toNat (row.set x.toNat ⟨x, y, color, mood, now, userId⟩) := by
  obtain ⟨-, hx0, hx1, hy0, hy1, g, q, hg, -, rfl⟩ := placePixel_true h
  obtain ⟨row, hrow, hx, rfl⟩ := setCell_eq_some hg
  exact ⟨hx0, hx1, hy0, hy1, row, hrow, hx, rfl⟩

theorem placePixel_Coords {s s1 : Canvas} {now : Nat} {x y : Int} {color : Nat}
    {mood : PixelMood} {userId : Nat} {isLoggedIn : Bool} {ok : Bool} (hp : Coords s)
    (h : placePixel s now x y color mood userId isLoggedIn = some (ok, s1)) : Coords s1 := by
  cases ok with
  | false => rw [placePixel_false h]; exact hp
  | true =>
    obtain ⟨hx0, -, hy0, -, row, hrow, hx, hc⟩ := placePixel_canvas h
    intro i j hi0 hi1 hj0 hj1
    rw [hc, getCell_set hy0 hx0 hrow hx]
    by_cases he : j = y ∧ i = x
    · rw [if_pos he]
      exact ⟨_, rfl, he.2.symm, he.1.symm⟩
    · rw [if_neg he]
      exact hp i j hi0 hi1 hj0 hj1

theorem new_Coords : Coords Canvas.new := by
  intro x y hx0 hx1 hy0 hy1
  exact ⟨_, getCell_new hy0 hy1 hx0 hx1, rfl, rfl⟩

theorem endEpisode_canvas {s s1 : Canvas} {db db1 : Database} {endTime startTime : Nat}
    (hs : Shape s) (h : endEpisode s db endTime startTime = some (s1, db1)) :
    s1.canvas = Canvas.new.canvas ∧ s1.episodeFrozen = false
      ∧ s1.currentSeason = s.currentSeason := by
  rw [endEpisode_spec s hs] at h
  obtain ⟨rfl, -⟩ := Prod.mk.inj (Option.some.inj h)
  exact ⟨rfl, rfl, rfl⟩

theorem new_ColorsBelow {B : Nat} (hB : 16 ≤ B) : ColorsBelow B Canvas.new := by
  intro row hrow p hp
  simp only [Canvas.new, List.mem_map, List.mem_range] at hrow
  obtain ⟨i, -, rfl⟩ := hrow
  simp only [List.mem_map, List.mem_range] at hp
  obtain ⟨j, -, rfl⟩ := hp
  simp only [defaultPixel]
  omega

theorem placePixel_ColorsBelow {B : Nat} {s s1 : Canvas} {now : Nat} {x y : Int}
    {color : Nat} {mood : PixelMood} {userId : Nat} {isLoggedIn : Bool} {ok : Bool}
    (hp : ColorsBelow B s) (hc : color < B)
    (h : placePixel s now x y color mood userId isLoggedIn = some (ok, s1)) :
    ColorsBelow B s1 := by
  cases ok with
  | false => rw [placePixel_false h]; exact hp
  | true =>
    obtain ⟨-, -, -, -, row, hrow, -, hcv⟩ := placePixel_canvas h
    intro r hr p hpr
    rw [hcv] at hr
    rcases List.mem_or_eq_of_mem_set hr with h1 | h1
    · exact hp r h1 p hpr
    · rw [h1] at hpr
      rcases List.mem_or_eq_of_mem_set hpr with h2 | h2
      · exact hp row (List.getElem?_mem hrow) p h2
      · rw [h2]; exact hc

/-- C35: every sequence of `placePixel` calls, snapshot captures and `endEpisode` runs
from the constructed canvas completes, and in the state it reaches the grid has exactly 50
rows of exactly 50 pixels and the pixel at row `y`, column `x` has the coordinate fields
`x` and `y`. -/
theorem c35_grid_shape (events : List Event) :
    ∃ s db, runEvents (Canvas.new, Database.new) events = some (s, db)
      ∧ s.canvas.length = 50 ∧ (∀ row ∈ s.canvas, row.length = 50)
      ∧ ∀ x y : Int, 0 ≤ x → x < 50 → 0 ≤ y → y < 50 →
          ∃ p, getCell s.canvas y x = some p ∧ p.x = x ∧ p.y = y := by
  obtain ⟨st, h, hs, hp⟩ := runEvents_inv Coords (fun _ => True)
    (fun s c ok s1 _ hp _ h => placePixel_Coords hp h)
    (fun s l hp => hp)
    (fun s db endTime startTime s1 db1 hs _ h => by
      intro x y hx0 hx1 hy0 hy1
      rw [(endEpisode_canvas hs h).1]
      exact new_Coords x y hx0 hx1 hy0 hy1)
    events (Canvas.new, Database.new) (fun _ _ => trivial) new_Shape new_Coords
  exact ⟨st.1, st.2, h, hs.rows, hs.cols, hp⟩

/-- Witness of C35: a placement at column 3, row 4, a looked-up cell after the episode
ended and a further placement was made. -/
theorem c35_grid_shape_witness :
    ∃ s db, runEvents (Canvas.new, Database.new)
        [Event.place ⟨100, 3, 4, 2, PixelMood.Calm, 7, true⟩, Event.endEpisode 900 910,
          Event.place ⟨911, 5, 6, 1, PixelMood.Happy, 7, true⟩] = some (s, db)
      ∧ s.canvas.length = 50
      ∧ ∃ p, getCell s.canvas 6 5 = some p ∧ p.x = 5 ∧ p.y = 6 := by
  obtain ⟨s, db, h, hr, -, hc⟩ := c35_grid_shape
    [Event.place ⟨100, 3, 4, 2, PixelMood.Calm, 7, true⟩, Event.endEpisode 900 910,
      Event.place ⟨911, 5, 6, 1, PixelMood.Happy, 7, true⟩]
  exact ⟨s, db, h, hr, hc 5 6 (by norm_num) (by norm_num) (by norm_num) (by norm_num)⟩

/-- C31 as stated fails: `placePixel(0, 0, 200, Calm, 1, true)` on the constructed canvas
is accepted and leaves the color 200 in the cell at row 0, column 0. -/
theorem c31_counterexample :
    ∃ s db, runEvents (Canvas.new, Database.new)
        [Event.place ⟨0, 0, 0, 200, PixelMood.Calm, 1, true⟩] = some (s, db)
      ∧ getCell s.canvas 0 0 = some ⟨0, 0, 200, PixelMood.Calm, 0, 1⟩
      ∧ (200 : Nat) < 256 ∧ ¬ (200 : Nat) < 16 := by
  obtain ⟨s1, h1⟩ := placePixel_no_cooldown new_Shape rfl 0 200 PixelMood.Calm
    (rfl : Canvas.new.cooldowns 1 = none) true (le_refl (0 : Int)) (by norm_num : (0 : Int) < 50)
    (le_refl (0 : Int)) (by norm_num : (0 : Int) < 50)
  obtain ⟨hx0, -, hy0, -, row, hrow, hx, hc⟩ := placePixel_canvas h1
  refine ⟨s1, Database.new, ?_, ?_, by norm_num, by norm_num⟩
  · simp only [runEvents, applyEvent, h1]
  · rw [hc, getCell_set hy0 hx0 hrow hx]
    exact if_pos ⟨rfl, rfl⟩

/-- C31 (amended): for a bound `B >= 16` (16 for the colors the HTTP handler lets through,
256 for any `uint8_t`), every sequence of `placePixel` calls with color arguments below
`B`, snapshot captures and `endEpisode` runs from the constructed canvas completes, and in
the state it reaches every pixel of the grid has a color below `B`. -/
theorem c31_pixel_colors (B : Nat) (hB : 16 ≤ B) (events : List Event)
    (hc : ∀ c, Event.place c ∈ events → c.color < B) :
    ∃ s db, runEvents (Canvas.new, Database.new) events = some (s, db)
      ∧ ∀ row ∈ s.canvas, ∀ p ∈ row, p.color < B := by
  obtain ⟨st, h, -, hp⟩ := runEvents_inv (ColorsBelow B)
    (fun e => ∀ c, e = Event.place c → c.color < B)
    (fun s c ok s1 _ hp he h => placePixel_ColorsBelow hp (he c rfl) h)
    (fun s l hp => hp)
    (fun s db endTime startTime s1 db1 hs _ h => by
      intro row hrow p hpr
      rw [(endEpisode_canvas hs h).1] at hrow
      exact new_ColorsBelow hB row hrow p hpr)
    events (Canvas.new, Database.new) (fun e he c hec => hc c (hec ▸ he)) new_Shape
    (new_ColorsBelow hB)
  exact ⟨st.1, st.2, h, hp⟩

/-- Witness of C31: colors 2 and 15 placed around an episode end, bound 16. -/
theorem c31_pixel_colors_witness :
    (16 : Nat) ≤ 16
      ∧ (∀ c, Event.place c ∈ [Event.place ⟨100, 3, 4, 2, PixelMood.Calm, 7, true⟩,
          Event.endEpisode 900 910, Event.place ⟨911, 5, 6, 15, PixelMood.Happy, 7, true⟩] →
          c.color < 16)
      ∧ ∃ s db, runEvents (Canvas.new, Database.new)
          [Event.place ⟨100, 3, 4, 2, PixelMood.Calm, 7, true⟩, Event.endEpisode 900 910,
            Event.place ⟨911, 5, 6, 15, PixelMood.Happy, 7, true⟩] = some (s, db)
        ∧ ∀ row ∈ s.canvas, ∀ p ∈ row, p.color < 16 := by
  have hc : ∀ c, Event.place c ∈ [Event.place ⟨100, 3, 4, 2, PixelMood.Calm, 7, true⟩,
      Event.endEpisode 900 910, Event.place ⟨911, 5, 6, 15, PixelMood.Happy, 7, true⟩] →
      c.color < 16 := by
    intro c hmem
    simp only [List.mem_cons, List.mem_singleton, Event.place.injEq, List.not_mem_nil,
      or_false] at hmem
    rcases hmem with h | h | h
    · rw [h]; norm_num
    · cases h
    · rw [h]; norm_num
  exact ⟨le_refl 16, hc, c31_pixel_colors 16 (le_refl 16) _ hc⟩

end Canvas

namespace Canvas

theorem getEpisodeInfo_flags {s : Canvas} {now : Nat} {info : EpisodeInfo}
    (h : getEpisodeInfo s now = some info) :
    info.episodeNumber = s.episodeNumber ∧ info.isActive = (!s.episodeFrozen)
      ∧ info.isFrozen = s.episodeFrozen := by
  unfold getEpisodeInfo at h
  split at h
  · cases h
  · rw [← Option.some.inj h]
    exact ⟨rfl, rfl, rfl⟩

theorem getEpisodeInfo_some (s : Canvas) {now : Nat} (hnow : now < 2 ^ 64)
    (hge : s.episodeStartTime ≤ now) (hlt : now - s.episodeStartTime < 2 ^ 31) :
    ∃ info, getEpisodeInfo s now = some info := by
  have h1 : sub64 now s.episodeStartTime = now - s.episodeStartTime := sub64_eq hnow hge
  have h2 : toInt32 (now - s.episodeStartTime) = ((now - s.episodeStartTime : Nat) : Int) :=
    Database.toInt32_of_lt hlt
  have hr : -(2 : Int) ^ 31 ≤ EPISODE_DURATION - ((now - s.episodeStartTime : Nat) : Int)
      ∧ EPISODE_DURATION - ((now - s.episodeStartTime : Nat) : Int) < (2 : Int) ^ 31 := by
    simp only [EPISODE_DURATION]
    omega
  unfold getEpisodeInfo subInt
  rw [h1, h2, if_pos hr]
  exact ⟨_, rfl⟩

/-- A call on a canvas that is not frozen is decided by the bounds and the cooldown. -/
theorem placePixel_not_frozen {s : Canvas} (hs : Shape s) (hf : s.episodeFrozen = false)
    (now : Nat) (x y : Int) (color : Nat) (mood : PixelMood) (userId : Nat)
    (isLoggedIn : Bool) :
    ((x < 0 ∨ x ≥ 50 ∨ y < 0 ∨ y ≥ 50) →
        placePixel s now x y color mood userId isLoggedIn = some (false, s))
      ∧ (cooldownActive s now userId (if isLoggedIn then USER_COOLDOWN else GUEST_COOLDOWN)
            = true →
          placePixel s now x y color mood userId isLoggedIn = some (false, s))
      ∧ (0 ≤ x → x < 50 → 0 ≤ y → y < 50 →
          cooldownActive s now userId (if isLoggedIn then USER_COOLDOWN else GUEST_COOLDOWN)
            = false →
          ∃ s1, placePixel s now x y color mood userId isLoggedIn = some (true, s1)) := by
  refine ⟨?_, ?_, ?_⟩
  · intro hb
    unfold placePixel
    rw [hf]
    simp only [Bool.false_eq_true, if_false]
    exact if_pos (by simp only [CANVAS_SIZE]; exact hb)
  · intro hc
    unfold placePixel
    rw [hf, hc]
    simp only [Bool.false_eq_true, if_false, if_true]
    split <;> rfl
  · intro hx0 hx1 hy0 hy1 hc
    obtain ⟨q, hq, -⟩ := updateQuests_some x y color mood hs.quests
    obtain ⟨row, hrow, hset⟩ := @setCell_some s.canvas y.toNat x.toNat
      ⟨x, y, color, mood, now, userId⟩ hs.rows hs.cols (by omega) (by omega)
    have hb : ¬ (x < 0 ∨ x ≥ CANVAS_SIZE ∨ y < 0 ∨ y ≥ CANVAS_SIZE) := by
      simp only [CANVAS_SIZE]; omega
    unfold placePixel
    rw [hf, hc]
    simp only [Bool.false_eq_true, if_false, if_neg hb, hset, hq]
    exact ⟨_, rfl⟩

/-- C38: every sequence of `placePixel` calls, snapshot captures and `endEpisode` runs,
each taken as one step, from the constructed canvas completes and reaches a state whose
frozen flag is false (`getRegion` and `getEpisodeInfo` assign no member, so these are the
states between steps). In such a state whatever `getEpisodeInfo` returns has
`isActive = true` and `isFrozen = false`, it does return at every clock reading less than
`2 ^ 31` seconds past the episode start, and `placePixel` is decided by the bounds and the
cooldown alone: rejected out of bounds, rejected on an active cooldown, accepted
otherwise. -/
theorem c38_never_frozen_between_steps (events : List Event) :
    ∃ s db, runEvents (Canvas.new, Database.new) events = some (s, db)
      ∧ s.episodeFrozen = false
      ∧ (∀ now info, getEpisodeInfo s now = some info →
          info.isActive = true ∧ info.isFrozen = false)
      ∧ (∀ now, now < 2 ^ 64 → s.episodeStartTime ≤ now →
          now - s.episodeStartTime < 2 ^ 31 →
          ∃ info, getEpisodeInfo s now = some info ∧ info.isActive = true
            ∧ info.isFrozen = false)
      ∧ ∀ (now : Nat) (x y : Int) (color : Nat) (mood : PixelMood) (userId : Nat)
          (isLoggedIn : Bool),
          ((x < 0 ∨ x ≥ 50 ∨ y < 0 ∨ y ≥ 50) →
            placePixel s now x y color mood userId isLoggedIn = some (false, s))
          ∧ (cooldownActive s now userId
                (if isLoggedIn then USER_COOLDOWN else GUEST_COOLDOWN) = true →
              placePixel s now x y color mood userId isLoggedIn = some (false, s))
          ∧ (0 ≤ x → x < 50 → 0 ≤ y → y < 50 →
              cooldownActive s now userId
                (if isLoggedIn then USER_COOLDOWN else GUEST_COOLDOWN) = false →
              ∃ s1, placePixel s now x y color mood userId isLoggedIn = some (true, s1)) := by
  obtain ⟨st, h, hs, hf⟩ := runEvents_inv (fun s => s.episodeFrozen = false) (fun _ => True)
    (fun s c ok s1 hs hp _ h => by
      obtain ⟨ok1, s2, h2, -, hf2, -⟩ :=
        placePixel_total s hs c.now c.x c.y c.color c.mood c.userId c.isLoggedIn
      rw [h] at h2
      obtain ⟨-, rfl⟩ := Prod.mk.inj (Option.some.inj h2)
      exact hf2.trans hp)
    (fun s l hp => hp)
    (fun s db endTime startTime s1 db1 hs _ h => (endEpisode_canvas hs h).2.1)
    events (Canvas.new, Database.new) (fun _ _ => trivial) new_Shape rfl
  have hflags : ∀ now info, getEpisodeInfo st.1 now = some info →
      info.isActive = true ∧ info.isFrozen = false := by
    intro now info hi
    obtain ⟨-, h1, h2⟩ := getEpisodeInfo_flags hi
    rw [hf] at h1 h2
    exact ⟨h1, h2⟩
  refine ⟨st.1, st.2, h, hf, hflags, ?_, ?_⟩
  · intro now hnow hge hlt
    obtain ⟨info, hi⟩ := getEpisodeInfo_some st.1 hnow hge hlt
    exact ⟨info, hi, hflags now info hi⟩
  · intro now x y color mood userId isLoggedIn
    exact placePixel_not_frozen hs hf now x y color mood userId isLoggedIn

/-- Witness of C38: after a placement, a snapshot capture and an episode end (new start
time 910), the episode information at clock reading 920 and a placement at 921. -/
theorem c38_never_frozen_between_steps_witness :
    ∃ s db, runEvents (Canvas.new, Database.new)
        [Event.place ⟨100, 3, 4, 2, PixelMood.Calm, 7, true⟩, Event.snapshot,
          Event.endEpisode 900 910] = some (s, db)
      ∧ s.episodeFrozen = false
      ∧ (∀ info, getEpisodeInfo s 920 = some info →
          info.isActive = true ∧ info.isFrozen = false)
      ∧ (placePixel s 921 (-1) 0 2 PixelMood.Calm 7 true = some (false, s)) := by
  obtain ⟨s, db, h, hf, hi, -, hp⟩ := c38_never_frozen_between_steps
    [Event.place ⟨100, 3, 4, 2, PixelMood.Calm, 7, true⟩, Event.snapshot,
      Event.endEpisode 900 910]
  exact ⟨s, db, h, hf, hi 920,
    (hp 921 (-1) 0 2 PixelMood.Calm 7 true).1 (Or.inl (by norm_num))⟩

/-- C36: a `placePixel` call that returns `false` leaves the state it was called on: the
same grid, cooldown map, quests, episode number and frozen flag (every member). It returns
`false` exactly for one of the three causes, frozen, out of bounds, cooldown active, and
each of them gives `false` with the state unchanged. -/
theorem c36_rejected_call_changes_nothing (s s1 : Canvas) (now : Nat) (x y : Int)
    (color : Nat) (mood : PixelMood) (userId : Nat) (isLoggedIn : Bool)
    (h : placePixel s now x y color mood userId isLoggedIn = some (false, s1)) :
    s1 = s ∧ s1.canvas = s.canvas ∧ s1.cooldowns = s.cooldowns
      ∧ s1.cooldowns userId = s.cooldowns userId ∧ s1.quests = s.quests
      ∧ s1.episodeNumber = s.episodeNumber ∧ s1.episodeFrozen = s.episodeFrozen
      ∧ (s.episodeFrozen = true ∨ (x < 0 ∨ x ≥ 50 ∨ y < 0 ∨ y ≥ 50)
          ∨ cooldownActive s now userId
              (if isLoggedIn then USER_COOLDOWN else GUEST_COOLDOWN) = true)
      ∧ (∀ (t : Canvas) (now1 : Nat) (x1 y1 : Int) (color1 : Nat) (mood1 : PixelMood)
          (userId1 : Nat) (isLoggedIn1 : Bool),
          (t.episodeFrozen = true ∨ (x1 < 0 ∨ x1 ≥ 50 ∨ y1 < 0 ∨ y1 ≥ 50)
            ∨ cooldownActive t now1 userId1
                (if isLoggedIn1 then USER_COOLDOWN else GUEST_COOLDOWN) = true) →
          placePixel t now1 x1 y1 color1 mood1 userId1 isLoggedIn1 = some (false, t)) := by
  have he : s1 = s := placePixel_false h
  refine ⟨he, by rw [he], by rw [he], by rw [he], by rw [he], by rw [he], by rw [he], ?_, ?_⟩
  · by_cases hf : s.episodeFrozen = true
    · exact Or.inl hf
    · by_cases hb : x < 0 ∨ x ≥ 50 ∨ y < 0 ∨ y ≥ 50
      · exact Or.inr (Or.inl hb)
      · refine Or.inr (Or.inr ?_)
        by_contra hc
        unfold placePixel at h
        rw [if_neg hf, if_neg (by simp only [CANVAS_SIZE]; exact hb), if_neg hc] at h
        split at h
        · simp at h
        · cases h
  · intro t now1 x1 y1 color1 mood1 userId1 isLoggedIn1 hcause
    unfold placePixel
    by_cases hf : t.episodeFrozen = true
    · rw [if_pos hf]
    · rw [if_neg hf]
      by_cases hb : x1 < 0 ∨ x1 ≥ CANVAS_SIZE ∨ y1 < 0 ∨ y1 ≥ CANVAS_SIZE
      · rw [if_pos hb]
      · rw [if_neg hb]
        rcases hcause with h1 | h1 | h1
        · exact absurd h1 hf
        · exact absurd (by simp only [CANVAS_SIZE]; exact h1) hb
        · rw [if_pos h1]

/-- Witness of C36: user 7 places at clock reading 100 and tries again at 102, inside the
5-second cooldown; the second call is rejected and the entry stays at 100. -/
theorem c36_rejected_call_changes_nothing_witness :
    ∃ s, placePixel Canvas.new 100 3 4 2 PixelMood.Calm 7 true = some (true, s)
      ∧ s.cooldowns 7 = some 100
      ∧ placePixel s 102 5 6 2 PixelMood.Calm 7 true = some (false, s)
      ∧ placePixel Canvas.new 0 (-1) 0 2 PixelMood.Calm 7 true = some (false, Canvas.new) := by
  obtain ⟨s, h1⟩ := placePixel_no_cooldown new_Shape rfl 100 2 PixelMood.Calm
    (rfl : Canvas.new.cooldowns 7 = none) true (by norm_num : (0 : Int) ≤ 3)
    (by norm_num : (3 : Int) < 50) (by norm_num : (0 : Int) ≤ 4) (by norm_num : (4 : Int) < 50)
  obtain ⟨-, -, -, -, -, g, q, -, -, hs1⟩ := placePixel_true h1
  have hcd : s.cooldowns 7 = some 100 := by rw [hs1]; simp
  have hact : cooldownActive s 102 7 (if true then USER_COOLDOWN else GUEST_COOLDOWN)
      = true := by
    unfold cooldownActive
    rw [hcd]
    simp only [if_true, USER_COOLDOWN, decide_eq_true_eq]
    rw [sub64_eq (by norm_num) (by norm_num)]
    norm_num
  have h2 : placePixel Canvas.new 0 (-1) 0 2 PixelMood.Calm 7 true
      = some (false, Canvas.new) := rfl
  have h3 := (c36_rejected_call_changes_nothing Canvas.new Canvas.new 0 (-1) 0 2
    PixelMood.Calm 7 true h2).2.2.2.2.2.2.2.2 s 102 5 6 2 PixelMood.Calm 7 true
    (Or.inr (Or.inr hact))
  exact ⟨s, h1, hcd, h3, h2⟩

end Canvas

/-! ## The area quest (`canvas.cpp`) -/

namespace Canvas

/-- Calls by pairwise distinct users without a cooldown entry, at cells of the grid, on a
canvas that is not frozen: every one of them is accepted. -/
theorem placed_all :
    ∀ (calls : List Call) (s : Canvas), Shape s → s.episodeFrozen = false →
      (calls.map (fun c => c.userId)).Nodup →
      (∀ c ∈ calls, s.cooldowns c.userId = none ∧ 0 ≤ c.x ∧ c.x < 50 ∧ 0 ≤ c.y ∧ c.y < 50) →
      ∃ s1, placed s calls = some (s1, calls)
  | [], s, _, _, _, _ => ⟨s, rfl⟩
  | c :: rest, s, hs, hf, hnd, hc => by
    obtain ⟨hcd, hx0, hx1, hy0, hy1⟩ := hc c (List.mem_cons_self _ _)
    obtain ⟨s1, h1⟩ := placePixel_no_cooldown hs hf c.now c.color c.mood hcd c.isLoggedIn
      hx0 hx1 hy0 hy1
    obtain ⟨ok, s2, h2, hs2, hf2, hcd2⟩ :=
      placePixel_total s hs c.now c.x c.y c.color c.mood c.userId c.isLoggedIn
    rw [h1] at h2
    obtain ⟨-, rfl⟩ := Prod.mk.inj (Option.some.inj h2)
    rw [List.map_cons, List.nodup_cons] at hnd
    have hrest : ∀ d ∈ rest, s1.cooldowns d.userId = none ∧ 0 ≤ d.x ∧ d.x < 50 ∧ 0 ≤ d.y
        ∧ d.y < 50 := by
      intro d hd
      obtain ⟨a, b⟩ := hc d (List.mem_cons_of_mem _ hd)
      refine ⟨?_, b⟩
      rw [hcd2 d.userId (fun he => hnd.1 (List.mem_map.2 ⟨d, hd, he⟩))]
      exact a
    obtain ⟨s3, h3⟩ := placed_all rest s1 hs2 (hf2.trans hf) hnd.2 hrest
    exact ⟨s3, by simp only [placed, h1, h3, if_true]⟩

/-- The calls that returned `true` were made at cells of the grid. -/
theorem placed_in_bounds :
    ∀ (calls : List Call) (s s1 : Canvas) (l : List Call), placed s calls = some (s1, l) →
      ∀ c ∈ l, 0 ≤ c.x ∧ c.x < 50 ∧ 0 ≤ c.y ∧ c.y < 50
  | [], s, s1, l, h => by
    simp only [placed, Option.some.injEq, Prod.mk.injEq] at h
    rw [← h.2]
    intro c hc
    cases hc
  | d :: rest, s, s1, l, h => by
    simp only [placed] at h
    cases h1 : placePixel s d.now d.x d.y d.color d.mood d.userId d.isLoggedIn with
    | none => rw [h1] at h; cases h
    | some r =>
      rw [h1] at h
      simp only at h
      cases h2 : placed r.2 rest with
      | none => rw [h2] at h; cases h
      | some r2 =>
        rw [h2] at h
        simp only [Option.some.injEq, Prod.mk.injEq] at h
        have ih := placed_in_bounds rest r.2 r2.1 r2.2 h2
        rw [← h.2]
        intro c hc
        cases hr : r.1 with
        | false =>
          rw [hr] at hc
          exact ih c hc
        | true =>
          rw [hr] at hc
          rcases List.mem_cons.1 hc with he | he
          · have h3 : placePixel s d.now d.x d.y d.color d.mood d.userId d.isLoggedIn
                = some (true, r.2) := by rw [h1, ← hr]
            obtain ⟨-, a, b, e, f, -⟩ := placePixel_true h3
            rw [he]
            exact ⟨a, b, e, f⟩
          · exact ih c he

/-- The placement lies in the top-left 10 x 10 block of the grid. -/
def inTopLeft (c : Call) : Bool := decide (0 ≤ c.x ∧ c.x < 10 ∧ 0 ≤ c.y ∧ c.y < 10)

/-- One hundred calls `placePixel(0, 0, 1, Happy, u, true)` by the users `u = 1 .. 100`, all
at clock reading 0. -/
def sameCellCalls : List Call :=
  (List.range 100).map (fun u => ⟨0, 0, 0, 1, PixelMood.Happy, u + 1, true⟩)

/-- C33 as stated fails: one hundred users place one pixel each at the cell (0, 0) of the
constructed canvas. All hundred calls return `true`, the second quest is then marked
completed, and no other cell of the top-left block has received a placement. -/
theorem c33_counterexample :
    ∃ s l q0 q1 q2, placed Canvas.new sameCellCalls = some (s, l) ∧ s.quests = [q0, q1, q2]
      ∧ q1.completed = true ∧ l.length = 100 ∧ ∀ c ∈ l, c.x = 0 ∧ c.y = 0 := by
  have hmem : ∀ c ∈ sameCellCalls, c.x = 0 ∧ c.y = 0 := by
    intro c hc
    simp only [sameCellCalls, List.mem_map, List.mem_range] at hc
    obtain ⟨u, -, rfl⟩ := hc
    exact ⟨rfl, rfl⟩
  have hnd : (sameCellCalls.map (fun c => c.userId)).Nodup := by
    simp only [sameCellCalls, List.map_map]
    exact (List.nodup_range 100).map (fun a b h => Nat.succ.inj h)
  obtain ⟨s1, h1⟩ := placed_all sameCellCalls Canvas.new new_Shape rfl hnd (by
    intro c hc
    obtain ⟨hx, hy⟩ := hmem c hc
    rw [hx, hy]
    exact ⟨rfl, by norm_num, by norm_num, by norm_num, by norm_num⟩)
  obtain ⟨s, l, h2, -, q0, q1, q2, hqs, -, hq1, -⟩ :=
    placed_quests sameCellCalls Canvas.new 0 0 0 new_Shape (FreshQuests.ok rfl)
  rw [h1] at h2
  obtain ⟨rfl, rfl⟩ := Prod.mk.inj (Option.some.inj h2)
  have hcount : sameCellCalls.countP matches1 = 100 := by
    rw [List.countP_eq_length.2]
    · simp [sameCellCalls]
    · intro c hc
      obtain ⟨hx, hy⟩ := hmem c hc
      simp [matches1, hx, hy]
  refine ⟨s1, sameCellCalls, q0, q1, q2, h1, hqs, ?_, by simp [sameCellCalls], hmem⟩
  rw [hq1.2.2, hcount]
  norm_num

/-- C33 (amended): from a canvas of the constructor's shape whose quests are as the
constructor or the last reset left them (the start of an episode), after any sequence of
`placePixel` calls the second quest, "Fill top-left 10x10 area", is marked completed
exactly when at least 100 of the calls that returned `true` were made at cells with
`0 <= x < 10` and `0 <= y < 10`, whether or not these are 100 different cells. -/
theorem c33_area_quest_counts_placements (s0 : Canvas) (hs : Shape s0)
    (hq : FreshQuests s0) (calls : List Call) :
    ∃ s l q0 q1 q2, placed s0 calls = some (s, l) ∧ s.quests = [q0, q1, q2]
      ∧ q1.target = 100
      ∧ (q1.completed = true ↔ 100 ≤ l.countP inTopLeft)
      ∧ (q1.completed = true → 100 ≤ (l.filter inTopLeft).length) := by
  obtain ⟨s, l, h1, -, q0, q1, q2, hqs, -, h1q, -⟩ := placed_quests calls s0 0 0 0 hs hq.ok
  have hb := placed_in_bounds calls s0 s l h1
  have hcount : l.countP matches1 = l.countP inTopLeft := by
    apply List.countP_congr
    intro c hc
    obtain ⟨a, -, b, -⟩ := hb c hc
    simp only [matches1, inTopLeft, decide_eq_true_eq]
    constructor
    · intro h; exact ⟨a, h.1, b, h.2⟩
    · intro h; exact ⟨h.2.1, h.2.2.2⟩
  simp only [Nat.zero_add] at h1q
  have hiff : q1.completed = true ↔ 100 ≤ l.countP inTopLeft := by
    rw [h1q.2.2, hcount]
    omega
  refine ⟨s, l, q0, q1, q2, h1, hqs, h1q.1, hiff, ?_⟩
  intro hc
  rw [← List.countP_eq_length_filter]
  exact hiff.1 hc

/-- Witness of C33: one placement in the top-left block on the constructed canvas; the
quest is not completed. -/
theorem c33_area_quest_counts_placements_witness :
    Shape Canvas.new ∧ FreshQuests Canvas.new
      ∧ ∃ s l q0 q1 q2, placed Canvas.new [⟨100, 3, 4, 2, PixelMood.Calm, 7, true⟩]
            = some (s, l)
          ∧ s.quests = [q0, q1, q2]
          ∧ (q1.completed = true ↔ 100 ≤ l.countP inTopLeft) := by
  obtain ⟨s, l, q0, q1, q2, h1, h2, -, h3, -⟩ := c33_area_quest_counts_placements Canvas.new
    new_Shape rfl [⟨100, 3, 4, 2, PixelMood.Calm, 7, true⟩]
  exact ⟨new_Shape, rfl, s, l, q0, q1, q2, h1, h2, h3⟩

end Canvas

/-! ## The season loop (`canvas.cpp`) -/

namespace Canvas

/-- The array `Season seasons[] = {Bloom, Frost, Warm, Calm}` of `seasonLoop`. -/
def seasons : List Season := [Season.Bloom, Season.Frost, Season.Warm, Season.Calm]

/-- `Canvas::applySeason()`: its body is empty. -/
def applySeason (s : Canvas) : Canvas := s

/-- `Canvas::getCurrentSeason()`: the name of `currentSeason_`. -/
def getCurrentSeason (s : Canvas) : Str :=
  match s.currentSeason with
  | Season.Bloom => ascii "Bloom"
  | Season.Frost => ascii "Frost"
  | Season.Warm => ascii "Warm"
  | Season.Calm => ascii "Calm"

/-- One pass of the body of `seasonLoop` after its wait, on the local `seasonIndex` and the
canvas: `seasonIndex = (seasonIndex + 1) % 4; currentSeason_ = seasons[seasonIndex];
applySeason();`. The local is an `int` that starts at 0 and is assigned nowhere else, so it
is never negative. -/
def seasonLoopStep (seasonIndex : Nat) (s : Canvas) : Option (Nat × Canvas) :=
  match seasons[(seasonIndex + 1) % 4]? with
  | none => none
  | some season =>
    some ((seasonIndex + 1) % 4, applySeason { s with currentSeason := season })

/-- The first `n` passes of `seasonLoop`, whose local starts as `int seasonIndex = 0`, on
the canvas `s`. -/
def seasonLoop (s : Canvas) : Nat → Option (Nat × Canvas)
  | 0 => some (0, s)
  | n + 1 =>
    match seasonLoop s n with
    | none => none
    | some r => seasonLoopStep r.1 r.2

/-- The cyclic successor of a season in the order Bloom, Frost, Warm, Calm, as the
specification words it. -/
def successor : Season → Season
  | Season.Bloom => Season.Frost
  | Season.Frost => Season.Warm
  | Season.Warm => Season.Calm
  | Season.Calm => Season.Bloom

theorem seasonLoopStep_spec (i : Nat) (s : Canvas) :
    ∃ season, seasons[(i + 1) % 4]? = some season
      ∧ seasonLoopStep i s = some ((i + 1) % 4, { s with currentSeason := season }) := by
  have hlt : (i + 1) % 4 < seasons.length := Nat.mod_lt _ (by norm_num)
  refine ⟨seasons[(i + 1) % 4], List.getElem?_eq_getElem hlt, ?_⟩
  unfold seasonLoopStep
  rw [List.getElem?_eq_getElem hlt]
  rfl

theorem seasonLoop_spec (s : Canvas) :
    ∀ n, ∃ season, seasons[(n + 1) % 4]? = some season
      ∧ seasonLoop s (n + 1) = some ((n + 1) % 4, { s with currentSeason := season })
  | 0 => ⟨Season.Frost, rfl, rfl⟩
  | n + 1 => by
    obtain ⟨season, -, h2⟩ := seasonLoop_spec s n
    obtain ⟨season1, h3, h4⟩ := seasonLoopStep_spec ((n + 1) % 4)
      { s with currentSeason := season }
    have hmod : ((n + 1) % 4 + 1) % 4 = (n + 1 + 1) % 4 := by omega
    rw [hmod] at h3 h4
    refine ⟨season1, h3, ?_⟩
    rw [seasonLoop, h2]
    exact h4

/-- C32 on the code: from the constructed canvas, whose season is Calm, the first pass of
the season loop sets Frost where the cyclic successor of Calm is Bloom; the first four
passes report Frost, Warm, Calm, Bloom, so after four rotations the season is Bloom, not
the Calm reported before them. In general the pass number `n + 1` sets
`seasons[(n + 1) % 4]`. -/
theorem c32_first_rotation_skips_bloom :
    Canvas.new.currentSeason = Season.Calm ∧ getCurrentSeason Canvas.new = ascii "Calm"
      ∧ successor Season.Calm = Season.Bloom
      ∧ (seasonLoop Canvas.new 1).map (fun r => r.2.currentSeason) = some Season.Frost
      ∧ (seasonLoop Canvas.new 1).map (fun r => getCurrentSeason r.2) = some (ascii "Frost")
      ∧ (seasonLoop Canvas.new 2).map (fun r => r.2.currentSeason) = some Season.Warm
      ∧ (seasonLoop Canvas.new 3).map (fun r => r.2.currentSeason) = some Season.Calm
      ∧ (seasonLoop Canvas.new 4).map (fun r => r.2.currentSeason) = some Season.Bloom
      ∧ ∀ n, (seasonLoop Canvas.new (n + 1)).map (fun r => r.2.currentSeason)
          = seasons[(n + 1) % 4]? := by
  refine ⟨rfl, rfl, rfl, rfl, rfl, rfl, rfl, rfl, ?_⟩
  intro n
  obtain ⟨season, h1, h2⟩ := seasonLoop_spec Canvas.new n
  rw [h2, h1]
  rfl

end Canvas

/-! ## Sessions across a load (`database.cpp`) -/

namespace Database

/-- C34 on the code: the file that `save` writes for the freshly constructed Store records
no session (its last four bytes are the session count 0). Loading it into any Store `db0`
returns `true` and leaves every session of `db0` in place: after `createSession(sid, 1)`
for the one-byte session id `sid` and the load, `getUserIdFromSession(sid)` is still 1,
while the users, the indexes, the episodes and `nextUserId` are those of the file. -/
theorem c34_load_keeps_earlier_sessions (db0 : Database) :
    save Database.new
        = [0x49, 0x4E, 0x4D, 0x4F, 1, 0, 0, 0, 0, 0, 0, 0, 0, 0, 0, 0, 0, 0, 0, 0]
      ∧ load db0 (some (save Database.new))
          = some (true, { Database.new with sessions := db0.sessions })
      ∧ load (createSession Database.new [9] 1) (some (save Database.new))
          = some (true, { Database.new with sessions := [([9], 1)] })
      ∧ getUserIdFromSession { Database.new with sessions := [([9], 1)] } [9] = 1
      ∧ getUserIdFromSession Database.new [9] = 0 := by
  have hd : ∀ d : Database, load d (some (save Database.new))
      = some (true, { Database.new with sessions := d.sessions }) := by
    intro d
    have h := deserialize_serialize d Database.new (by norm_num [Database.new])
      (by norm_num [Database.new]) (by norm_num [Database.new])
    rw [load_some, save_eq, h]
    rfl
  exact ⟨by decide, hd db0, hd (createSession Database.new [9] 1), rfl, rfl⟩

end Database

/-! ## Entries kept by insertion (`btree.cpp`) -/

namespace BTree

/-- Number of keys held in the nodes of a subtree. -/
def keyCount (n : BTreeNode) : Nat := ((nodes n).map (fun m => m.keys.length)).sum

theorem length_interleave :
    ∀ (cs : List BTreeNode) (kvs : List (Nat × Int)),
      (interleave kvs cs).length = kvs.length + (cs.map (fun c => (inorder c).length)).sum
  | [], kvs => by rw [interleave_nil_right]; simp
  | c :: cs, [] => by
    rw [interleave_nil_cons, List.length_append, length_interleave cs []]
    simp
  | c :: cs, kv :: kvs => by
    rw [interleave_cons_cons, List.length_append, List.length_cons, length_interleave cs kvs]
    simp only [List.length_cons, List.map_cons, List.sum_cons]
    omega

theorem keyCount_nodesList :
    ∀ cs : List BTreeNode, (∀ c ∈ cs, (inorder c).length = keyCount c) →
      (cs.map (fun c => (inorder c).length)).sum
        = ((nodesList cs).map (fun m => m.keys.length)).sum
  | [], _ => by simp [nodesList]
  | c :: cs, h => by
    rw [List.map_cons, List.sum_cons, nodesList, List.map_append, List.sum_append,
      h c (List.mem_cons_self _ _),
      keyCount_nodesList cs (fun d hd => h d (List.mem_cons_of_mem _ hd))]
    rfl

/-- On a well-shaped subtree the in-order list has one entry per stored key. -/
theorem WF.length_inorder {n : BTreeNode} (h : WF n) : (inorder n).length = keyCount n := by
  induction h with
  | mk n hv hl hi hc ih =>
    rw [inorder_eq, length_interleave, keyCount, nodes_eq, List.map_cons, List.sum_cons,
      List.length_zip, hv, Nat.min_self, keyCount_nodesList n.children ih]

/-- C37: every sequence of `n` inserts (keys repeated or not) into the empty order-5 tree
returns, and the in-order list of the (key, value) pairs of the tree it leaves is a
permutation of the inserted pairs, with `n` entries, the nodes holding `n` keys in all.
`splitChild` on a well-shaped node leaves a node with the same in-order list and as many
keys, and it returns whenever the child it is given holds `order - 1` keys. -/
theorem c37_insert_keeps_entries (kvs : List (Nat × Int)) :
    ∃ t, insertAll (new 5) kvs = some t
      ∧ List.Perm (inorder t.root) kvs
      ∧ (inorder t.root).length = kvs.length
      ∧ keyCount t.root = kvs.length
      ∧ (∀ (order : Nat) (parent p : BTreeNode) (index : Nat), WF parent →
          splitChild order parent index = some p →
          inorder p = inorder parent ∧ keyCount p = keyCount parent)
      ∧ ∀ (order : Nat) (parent child : BTreeNode) (index : Nat), 3 ≤ order → WF parent →
          parent.children[index]? = some child → child.keys.length = order - 1 →
          ∃ p, splitChild order parent index = some p ∧ inorder p = inorder parent := by
  obtain ⟨t, d, h1, hinv, hperm⟩ := insertAll_new_spec (by decide : 3 ≤ 5) kvs
  refine ⟨t, h1, hperm, hperm.length_eq, ?_, ?_, ?_⟩
  · rw [← hinv.wf.length_inorder]
    exact hperm.length_eq
  · intro order parent p index hwf h
    have hin := splitChild_inorder hwf h
    refine ⟨hin, ?_⟩
    rw [← (splitChild_WF hwf h).length_inorder, ← hwf.length_inorder, hin]
  · intro order parent child index hord hwf hc hf
    obtain ⟨p, hp⟩ := splitChild_some_of_full hord hwf hc hf
    exact ⟨p, hp, splitChild_inorder hwf hp⟩

/-- Witness of C37: the root made by `insert` over a full leaf with the keys 1 to 4 is
split. -/
theorem c37_insert_keeps_entries_witness :
    WF (BTreeNode.mk false [] [] [BTreeNode.mk true [1, 2, 3, 4] [10, 20, 30, 40] []])
      ∧ ∃ p, splitChild 5
            (BTreeNode.mk false [] [] [BTreeNode.mk true [1, 2, 3, 4] [10, 20, 30, 40] []]) 0
          = some p
        ∧ inorder p = inorder
            (BTreeNode.mk false [] [] [BTreeNode.mk true [1, 2, 3, 4] [10, 20, 30, 40] []]) := by
  have hleaf : WF (BTreeNode.mk true [1, 2, 3, 4] [10, 20, 30, 40] []) :=
    WF.mk _ rfl (fun _ => rfl) (fun h => by cases h) (fun c hc => by cases hc)
  have hwf : WF
      (BTreeNode.mk false [] [] [BTreeNode.mk true [1, 2, 3, 4] [10, 20, 30, 40] []]) := by
    refine WF.mk _ rfl (fun h => by cases h) (fun _ => rfl) ?_
    intro c hc
    have : c = BTreeNode.mk true [1, 2, 3, 4] [10, 20, 30, 40] [] := by simpa using hc
    rw [this]
    exact hleaf
  obtain ⟨t, -, -, -, -, -, hsplit⟩ := c37_insert_keeps_entries []
  exact ⟨hwf, hsplit 5 _ _ 0 (by decide) hwf rfl rfl⟩

end BTree

/-! ## A region read after a placement (`canvas.cpp`) -/

namespace Canvas

/-- C3 on the code: `placePixel(0, 0, 2, Calm, 7, true)` at clock reading 100 succeeds on
the constructed canvas and the cell at row 0, column 0 then holds
`Pixel{0, 0, 2, Calm, 100, 7}`. The rectangle with origin `(-1, 0)`, width 2 and height 1
covers that cell; `getRegion(-1, 0, 2, 1)` visits the index pairs `(0, -1)` and `(0, 0)`,
and the first read, `canvas_[0][-1]`, is not a cell of the grid, so the call returns no
pixel list. For the rectangle with origin `(0, 0)` and the same size the pixel is
returned. -/
theorem c3_region_with_negative_origin :
    ∃ s1, placePixel Canvas.new 100 0 0 2 PixelMood.Calm 7 true = some (true, s1)
      ∧ getCell s1.canvas 0 0 = some ⟨0, 0, 2, PixelMood.Calm, 100, 7⟩
      ∧ regionIndices (-1) 0 (min (-1 + 2) CANVAS_SIZE) (min (0 + 1) CANVAS_SIZE)
          = [(0, -1), (0, 0)]
      ∧ getCell s1.canvas 0 (-1) = none
      ∧ getRegion s1 (-1) 0 2 1 = none
      ∧ getRegion s1 0 0 2 1
          = some [⟨0, 0, 2, PixelMood.Calm, 100, 7⟩, ⟨1, 0, 15, PixelMood.Calm, 0, 0⟩] := by
  obtain ⟨s1, h1⟩ := placePixel_no_cooldown new_Shape rfl 100 2 PixelMood.Calm
    (rfl : Canvas.new.cooldowns 7 = none) true (le_refl (0 : Int))
    (by norm_num : (0 : Int) < 50) (le_refl (0 : Int)) (by norm_num : (0 : Int) < 50)
  obtain ⟨hcell, hreg⟩ := placePixel_getRegion Canvas.new s1 new_Shape 100 0 0 2
    PixelMood.Calm 7 true h1
  have hidx : regionIndices (-1) 0 (min (-1 + 2) CANVAS_SIZE) (min (0 + 1) CANVAS_SIZE)
      = [(0, -1), (0, 0)] := by decide
  have hout : getCell s1.canvas 0 (-1) = none := by
    unfold getCell
    exact if_pos (Or.inr (by norm_num))
  have h00 : getCell s1.canvas 0 0 = some ⟨0, 0, 2, PixelMood.Calm, 100, 7⟩ := by
    rw [hcell]
    exact if_pos ⟨rfl, rfl⟩
  refine ⟨s1, h1, h00, hidx, hout, ?_, ?_⟩
  · unfold getRegion addInt
    rw [if_pos (by norm_num), if_pos (by norm_num)]
    simp only [hidx, List.map_cons, List.map_nil, hout, allSome]
  · obtain ⟨-, -, ha⟩ := hreg 0 0 2 1 (le_refl 0) (le_refl 0) (by norm_num) (by norm_num)
      (le_refl 0) (le_refl 0) (by norm_num) (by norm_num)
    have hidx2 : regionIndices 0 0 (min (0 + 2) 50) (min (0 + 1) 50) = [(0, 0), (0, 1)] := by
      decide
    rw [ha, hidx2]
    have hc : cellD Canvas.new.canvas (0, 1) = ⟨1, 0, 15, PixelMood.Calm, 0, 0⟩ := by
      rw [cellD, getCell_new (le_refl 0) (by norm_num) (by norm_num) (by norm_num)]
      rfl
    simp [hc]

end Canvas

end DSFinal
